import Mathlib

/-!
A verification development for the `schematic` schema-validation library
(`schematic/sd.py`): a shallow embedding of its data model (Python values,
the composite `Invalid` error, schema nodes) and of its convert/validate
algorithm, together with theorems settling the specification's claims.

Modelling conventions, used throughout:
* Python values are the inductive `Val`.  Python floats are modelled as
  rationals for the finite values plus a dedicated constructor for the two
  IEEE infinities (`float('inf')`/`float('-inf')`), on which `int()` raises
  `OverflowError`; `nan` stays outside the value domain, because CPython's
  containers compare it by identity (unrepresentable in a structural model)
  and `int(nan)` raises a `ValueError` that `Number._convert` catches, so
  its absence removes no escape path.
  `set` values are modelled as lists deduplicated by Python equality, whose
  order is the model's canonical (first-insertion) iteration order; CPython's
  hash-based iteration order is abstracted by this choice.  `dict` values are
  association lists in insertion order.
* A Python call either returns, raises the library's `Invalid`, or raises a
  foreign exception (`TypeError`, `UnboundLocalError`, ...); the three cases
  are the three constructors of `Outcome`.  Code that catches only `Invalid`
  is modelled by matching on the `invalid` constructor and re-propagating
  `crash`.
* Zero-argument "value producers" for defaults and checker thresholds are
  pure in the model, hence modelled by the value they produce.
* The `raisor` field of `Invalid` (the raising object's identity) is not
  representable in a pure embedding and is replaced by the error-class tag
  `ErrKind`, which is what the error taxonomy distinguishes.
-/

/-- Timezone values: the library only ever stamps UTC. -/
inductive TZ where
  | utc
  deriving DecidableEq, Repr

/-- A `datetime.datetime` value: calendar fields plus optional tzinfo. -/
structure PyDateTime where
  year : Nat
  month : Nat
  day : Nat
  hour : Nat
  minute : Nat
  second : Nat
  microsecond : Nat
  tz : Option TZ := none
  deriving DecidableEq, Repr

/-- The Python values the engine manipulates. -/
inductive Val where
  | none
  | bool (b : Bool)
  | int (n : Int)
  | float (q : Rat)
  | inf (pos : Bool)
  | str (s : String)
  | list (xs : List Val)
  | tuple (xs : List Val)
  | set (xs : List Val)
  | dict (xs : List (Val × Val))
  | datetime (d : PyDateTime)

/-- Numeric view used by Python `==` and `<` across bool/int/float. -/
def numView : Val → Option Rat
  | .bool b => some (mkRat (if b then 1 else 0) 1)
  | .int n => some (mkRat n 1)
  | .float q => some q
  | _ => Option.none

mutual

/-- A structural size of a value (the fuel bound for the `==` family). -/
def valSize : Val → Nat
  | .none => 1
  | .bool _ => 1
  | .int _ => 1
  | .float _ => 1
  | .inf _ => 1
  | .str _ => 1
  | .datetime _ => 1
  | .list xs => 1 + valSizeL xs
  | .tuple xs => 1 + valSizeL xs
  | .set xs => 1 + valSizeL xs
  | .dict xs => 1 + valSizeD xs

/-- Size of an element list. -/
def valSizeL : List Val → Nat
  | [] => 1
  | x :: xs => 1 + valSize x + valSizeL xs

/-- Size of an entry list. -/
def valSizeD : List (Val × Val) → Nat
  | [] => 1
  | (k, v) :: xs => 1 + valSize k + valSize v + valSizeD xs

end

/-!
The Python `==` family is defined through an explicit recursion-depth
argument (always called with `sizeOf` fuel, which every recursive descent
strictly decreases), so that the functions are structurally recursive and
reduce inside the kernel; `pyEq` and friends below are the intended
entry points.
-/

mutual

/-- Fuelled Python `==`; see `pyEq`. -/
def pyEqF : Nat → Val → Val → Bool
  | 0, _, _ => false
  | fu + 1, a, b =>
    match a, b with
    | .none, .none => true
    | .str x, .str y => x == y
    | .datetime x, .datetime y => x == y
    | .inf x, .inf y => x == y
    | .list x, .list y => pyEqLF fu x y
    | .tuple x, .tuple y => pyEqLF fu x y
    | .set x, .set y => x.length == y.length && pySubsetF fu x y && pySubsetF fu y x
    | .dict x, .dict y => x.length == y.length && pyDictLeF fu x y
    | a, b =>
      match numView a, numView b with
      | some x, some y => x == y
      | _, _ => false

/-- Fuelled elementwise `==` on sequences. -/
def pyEqLF : Nat → List Val → List Val → Bool
  | 0, _, _ => false
  | fu + 1, a, b =>
    match a, b with
    | [], [] => true
    | x :: xs, y :: ys => pyEqF fu x y && pyEqLF fu xs ys
    | _, _ => false

/-- Fuelled subset-by-`==` of element lists. -/
def pySubsetF : Nat → List Val → List Val → Bool
  | 0, _, _ => false
  | fu + 1, a, b =>
    match a with
    | [] => true
    | x :: xs => pyMemLF fu x b && pySubsetF fu xs b

/-- Fuelled Python `in` over a list. -/
def pyMemLF : Nat → Val → List Val → Bool
  | 0, _, _ => false
  | fu + 1, x, b =>
    match b with
    | [] => false
    | y :: ys => pyEqF fu x y || pyMemLF fu x ys

/-- Fuelled entrywise inclusion of association lists. -/
def pyDictLeF : Nat → List (Val × Val) → List (Val × Val) → Bool
  | 0, _, _ => false
  | fu + 1, a, b =>
    match a with
    | [] => true
    | (k, v) :: xs => pyPairMemF fu k v b && pyDictLeF fu xs b

/-- Fuelled entry membership in an association list. -/
def pyPairMemF : Nat → Val → Val → List (Val × Val) → Bool
  | 0, _, _, _ => false
  | fu + 1, k, v, b =>
    match b with
    | [] => false
    | (k2, w) :: ys => (pyEqF fu k k2 && pyEqF fu v w) || pyPairMemF fu k v ys

end

/-- Python `==` on the modelled values: the numeric tower compares by value,
strings and datetimes structurally, containers extensionally. -/
def pyEq (a b : Val) : Bool := pyEqF (valSize a + valSize b) a b

/-- Elementwise Python `==` on sequences. -/
def pyEqL (a b : List Val) : Bool := pyEqLF (valSizeL a + valSizeL b) a b

/-- Every element of the first list is `==` to a member of the second. -/
def pySubset (a b : List Val) : Bool := pySubsetF (valSizeL a + valSizeL b) a b

/-- Python `in` over a list of values. -/
def pyMemL (x : Val) (b : List Val) : Bool := pyMemLF (valSize x + valSizeL b) x b

/-- Every entry of the first association list appears (key and value `==`)
in the second; with unique keys this is Python dict inclusion. -/
def pyDictLe (a b : List (Val × Val)) : Bool := pyDictLeF (valSizeD a + valSizeD b) a b

/-- Foreign (non-`Invalid`) exceptions the engine can let escape. -/
inductive Crash where
  | unboundLocal
  | typeError
  | valueError
  | unicodeError
  | attributeError
  | overflowError
  deriving DecidableEq, Repr

/-- The error-class taxonomy: which `Invalid` subclass an error belongs to. -/
inductive ErrKind where
  | invalid
  | missingEntry
  | unconvertedValues
  | minLengthE
  | maxLengthE
  | minValueE
  | maxValueE
  | equalsE
  | inE
  | emailE
  deriving DecidableEq, Repr

/-- A path: the sequence of mapping keys / sequence indices (as Python
values) addressing a location in the input tree. -/
abbrev PyPath := List Val

/-- One leaf error record: its class, message, and offending value
(`none` models the `_UNDEFINED` no-value sentinel). -/
structure Leaf where
  kind : ErrKind
  message : String
  badValue : Option Val

/-- The composite `Invalid` error: its own class tag, the path-indexed
multimap of leaf errors, and its own offending value. -/
structure Invalid where
  kind : ErrKind
  children : List (PyPath × List Leaf)
  badValue : Option Val

/-- `self.children.setdefault(path, []).extend(leaves)`: extend the first
entry whose path compares `==`, else append a new entry. -/
def childAdd : List (PyPath × List Leaf) → PyPath → List Leaf → List (PyPath × List Leaf)
  | [], p, ls => [(p, ls)]
  | (q, ms) :: rest, p, ls =>
    if pyEqL q p then (q, ms ++ ls) :: rest else (q, ms) :: childAdd rest p ls

/-- Merge the children of a list of errors into an existing children map
(`Invalid.add`). -/
def childMergeAll (m : List (PyPath × List Leaf)) (errs : List Invalid) :
    List (PyPath × List Leaf) :=
  errs.foldl (fun acc e => e.children.foldl (fun acc2 pc => childAdd acc2 pc.1 pc.2) acc) m

/-- `Invalid.add` on a built error. -/
def Invalid.addErrs (e : Invalid) (errs : List Invalid) : Invalid :=
  { e with children := childMergeAll e.children errs }

/-- The `Invalid.__init__` protocol: an own leaf when a message is given,
then the children of each child error merged in. -/
def mkInvalid (kind : ErrKind) (path : PyPath) (message : String)
    (children : List Invalid) (badValue : Option Val) : Invalid :=
  let own : List (PyPath × List Leaf) :=
    if message = "" then [] else [(path, [⟨kind, message, badValue⟩])]
  ⟨kind, childMergeAll own children, badValue⟩

/-- The outcome of running a piece of Python code. -/
inductive Outcome (α : Type) where
  | ok (a : α)
  | invalid (e : Invalid)
  | crash (c : Crash)

/-- Python truthiness of a value. -/
def pyTruthy : Val → Bool
  | .none => false
  | .bool b => b
  | .int n => n != 0
  | .float q => q.num != 0
  | .inf _ => true
  | .str s => s.length != 0
  | .list xs => xs.length != 0
  | .tuple xs => xs.length != 0
  | .set xs => xs.length != 0
  | .dict xs => xs.length != 0
  | .datetime _ => true

/-- Python `len()`; `none` models a `TypeError` for unsized values. -/
def pyLen : Val → Option Nat
  | .str s => some s.length
  | .list xs => some xs.length
  | .tuple xs => some xs.length
  | .set xs => some xs.length
  | .dict xs => some xs.length
  | _ => Option.none

/-- ASCII whitespace stripped by `str.strip()` in the model. -/
def isPySpace (c : Char) : Bool :=
  let n := c.toNat
  n == 32 || (9 ≤ n && n ≤ 13)

/-- `str.strip()` (ASCII whitespace; Unicode space classes are out of the
model's character repertoire). -/
def pyStrip (s : String) : String :=
  ⟨((s.toList.dropWhile isPySpace).reverse.dropWhile isPySpace).reverse⟩

/-- `str.lower()` for one character (ASCII letters; the model's
repertoire). -/
def lowerChar (c : Char) : Char :=
  let n := c.toNat
  if 65 ≤ n && n ≤ 90 then Char.ofNat (n + 32) else c

/-- `str.lower()` restricted to ASCII letters. -/
def pyLower (s : String) : String := ⟨s.toList.map lowerChar⟩

/-- Truncation toward zero: Python `int()` on a (finite) float. -/
def ratTrunc (q : Rat) : Int :=
  if q < 0 then -Rat.floor (-q) else Rat.floor q

/-- Digit-string to natural number. -/
def digitsToNat (l : List Char) : Nat :=
  l.foldl (fun acc c => acc * 10 + (c.toNat - 48)) 0

/-- `int(str)`: optional surrounding whitespace, optional sign, a nonempty
digit run with single underscores allowed between digits. -/
def parseIntStr (s : String) : Option Int :=
  let l := pyStrip s |>.toList
  let (sign, l) := match l with
    | '-' :: rest => (true, rest)
    | '+' :: rest => (false, rest)
    | _ => (false, l)
  let rec groupOk : List Char → Bool
    | [] => false
    | [c] => c.isDigit
    | c :: '_' :: rest => c.isDigit && groupOk rest
    | c :: rest => c.isDigit && groupOk rest
  if groupOk l then
    let n := digitsToNat (l.filter Char.isDigit)
    some (if sign then -(n : Int) else (n : Int))
  else Option.none

/-- `float(str)` for finite decimal literals: optional sign, digits with an
optional fraction part, an optional decimal exponent.  (The infinity
spellings are handled upstream by `parseFloatInfStr`; `nan` and underscore
separators are outside the model.) -/
def parseFloatStr (s : String) : Option Rat :=
  let l := pyStrip s |>.toList
  let (neg, l) := match l with
    | '-' :: rest => (true, rest)
    | '+' :: rest => (false, rest)
    | _ => (false, l)
  let (mantissa, expPart) :=
    match l.span (fun c => c != 'e' && c != 'E') with
    | (m, []) => (m, Option.some (0 : Int))
    | (m, _ :: e) =>
      let (eneg, e) := match e with
        | '-' :: rest => (true, rest)
        | '+' :: rest => (false, rest)
        | _ => (false, e)
      if e ≠ [] && e.all Char.isDigit then
        (m, Option.some (if eneg then -(digitsToNat e : Int) else (digitsToNat e : Int)))
      else (m, Option.none)
  match expPart with
  | Option.none => Option.none
  | Option.some ex =>
    let (ip, rest) := mantissa.span Char.isDigit
    let fp : Option (List Char) :=
      match rest with
      | [] => some []
      | '.' :: f => if f.all Char.isDigit then some f else Option.none
      | _ => Option.none
    match fp with
    | Option.none => Option.none
    | Option.some f =>
      if ip.isEmpty && f.isEmpty then Option.none
      else
        let mant : Int := (digitsToNat (ip ++ f) : Int)
        let num : Int := if 0 ≤ ex then mant * ((10 : Int) ^ ex.toNat) else mant
        let den : Nat := if 0 ≤ ex then 10 ^ f.length else 10 ^ (f.length + (-ex).toNat)
        let q := mkRat num den
        some (if neg then -q else q)

/-- Python `int(value)`: `Except` error is the exception class raised. -/
def pyInt : Val → Except Crash Int
  | .int n => .ok n
  | .bool b => .ok (if b then 1 else 0)
  | .float q => .ok (ratTrunc q)
  | .inf _ => .error .overflowError
  | .str s => match parseIntStr s with
    | some n => .ok n
    | Option.none => .error .valueError
  | _ => .error .typeError

/-- `float(str)` for the infinity spellings: optional surrounding
whitespace, optional sign, then `inf` or `infinity` in any case.  (`nan`
is outside the value domain; see the module comment.) -/
def parseFloatInfStr (s : String) : Option Bool :=
  let l := pyStrip s |>.toList
  let (neg, l) := match l with
    | '-' :: rest => (true, rest)
    | '+' :: rest => (false, rest)
    | _ => (false, l)
  let low := l.map lowerChar
  if low == "inf".toList || low == "infinity".toList then some (!neg) else Option.none

/-- Python `float(value)`, producing the resulting float as a value
(finite rational or an infinity). -/
def pyFloat : Val → Except Crash Val
  | .float q => .ok (.float q)
  | .inf b => .ok (.inf b)
  | .int n => .ok (.float (mkRat n 1))
  | .bool b => .ok (.float (mkRat (if b then 1 else 0) 1))
  | .str s =>
    (match parseFloatInfStr s with
     | some b => .ok (.inf b)
     | Option.none =>
       match parseFloatStr s with
       | some q => .ok (.float q)
       | Option.none => .error .valueError)
  | _ => .error .valueError

/-- Python `bytes(value)` as a list of byte values; `bytes` of an int is a
zero-filled buffer, of an iterable its elements checked to be in-range
ints. -/
def pyBytes : Val → Except Crash (List Nat)
  | .bool b => .ok (List.replicate (if b then 1 else 0) 0)
  | .int n => if n < 0 then .error .valueError else .ok (List.replicate n.toNat 0)
  | .list xs => pyBytesElems xs
  | .tuple xs => pyBytesElems xs
  | .set xs => pyBytesElems xs
  | .dict xs => pyBytesElems (xs.map Prod.fst)
  | _ => .error .typeError
where
  pyBytesElems : List Val → Except Crash (List Nat)
    | [] => .ok []
    | .int n :: rest =>
      if 0 ≤ n && n < 256 then (pyBytesElems rest).map (n.toNat :: ·)
      else .error .valueError
    | .bool b :: rest => (pyBytesElems rest).map ((if b then 1 else 0) :: ·)
    | _ :: _ => .error .typeError

/-- UTF-8 decoding of a byte list; `none` models `UnicodeDecodeError`.
Overlong-encoding and surrogate checks follow the standard ranges. -/
def utf8Decode : List Nat → Option String :=
  go []
where
  cont (b : Nat) : Bool := 128 ≤ b && b < 192
  go (acc : List Char) : List Nat → Option String
    | [] => some ⟨acc.reverse⟩
    | b :: rest =>
      if b < 128 then go (Char.ofNat b :: acc) rest
      else if 194 ≤ b && b ≤ 223 then
        match rest with
        | b2 :: rest2 =>
          if cont b2 then go (Char.ofNat ((b - 192) * 64 + (b2 - 128)) :: acc) rest2
          else Option.none
        | _ => Option.none
      else if 224 ≤ b && b ≤ 239 then
        match rest with
        | b2 :: b3 :: rest2 =>
          if cont b2 && cont b3 then
            let cp := (b - 224) * 4096 + (b2 - 128) * 64 + (b3 - 128)
            if 2048 ≤ cp && !(55296 ≤ cp && cp ≤ 57343) then
              go (Char.ofNat cp :: acc) rest2
            else Option.none
          else Option.none
        | _ => Option.none
      else if 240 ≤ b && b ≤ 244 then
        match rest with
        | b2 :: b3 :: b4 :: rest2 =>
          if cont b2 && cont b3 && cont b4 then
            let cp := (b - 240) * 262144 + (b2 - 128) * 4096 + (b3 - 128) * 64 + (b4 - 128)
            if 65536 ≤ cp && cp ≤ 1114111 then go (Char.ofNat cp :: acc) rest2
            else Option.none
          else Option.none
        | _ => Option.none
      else Option.none

/-- First value stored under a `==`-equal key of an association list. -/
def pyLookup (k : Val) : List (Val × Val) → Option Val
  | [] => Option.none
  | (k2, v) :: rest => if pyEq k k2 then some v else pyLookup k rest

/-- Python `key in dict`. -/
def pyHasKey (k : Val) (xs : List (Val × Val)) : Bool :=
  (pyLookup k xs).isSome

/-- `dict[k] = v`: replace the value of the first `==`-equal key (the stored
key object is kept), else append. -/
def dictInsert (xs : List (Val × Val)) (k v : Val) : List (Val × Val) :=
  match xs with
  | [] => [(k, v)]
  | (k2, w) :: rest =>
    if pyEq k k2 then (k2, v) :: rest else (k2, w) :: dictInsert rest k v

/-- `set(iterable)`: deduplicate by Python `==`, keeping first occurrences
(the model's canonical iteration order). -/
def pySetMk (xs : List Val) : List Val :=
  xs.foldl (fun acc x => if pyMemL x acc then acc else acc ++ [x]) []

/-- The element sequence of a non-string iterable (`dict` iterates its
keys); `none` models the not-an-iterable / is-a-string rejection. -/
def iterOK : Val → Option (List Val)
  | .list xs => some xs
  | .tuple xs => some xs
  | .set xs => some xs
  | .dict xs => some (xs.map Prod.fst)
  | _ => Option.none

/-- `value[:n]`: sequences slice; sets and dicts raise `TypeError`. -/
def pySlice (v : Val) (n : Nat) : Except Crash (List Val) :=
  match v with
  | .list xs => .ok (xs.take n)
  | .tuple xs => .ok (xs.take n)
  | _ => .error .typeError

/-- Python `<` on the modelled values: numbers by value, strings
lexicographically, datetimes fieldwise when both are naive or both aware
(mixed awareness raises `TypeError`); other comparisons are outside the
model and raise `TypeError`. -/
def pyLt (a b : Val) : Except Crash Bool :=
  match numView a, numView b with
  | some x, some y => .ok (decide (x < y))
  | _, _ =>
    match a, b with
    | .inf x, .inf y => .ok (!x && y)
    | .inf x, b2 =>
      (match numView b2 with
       | some _ => .ok (!x)
       | Option.none => .error .typeError)
    | a2, .inf y =>
      (match numView a2 with
       | some _ => .ok y
       | Option.none => .error .typeError)
    | .str x, .str y => .ok (decide (x < y))
    | .datetime x, .datetime y =>
      match x.tz, y.tz with
      | Option.none, Option.none => .ok (dtKeyLt x y)
      | some _, some _ => .ok (dtKeyLt x y)
      | _, _ => .error .typeError
    | _, _ => .error .typeError
where
  dtKey (d : PyDateTime) : List Nat :=
    [d.year, d.month, d.day, d.hour, d.minute, d.second, d.microsecond]
  dtKeyLt (x y : PyDateTime) : Bool := decide (dtKey x < dtKey y)

mutual

/-- Fuelled Python `repr()`; see `pyRepr`. -/
def pyReprF : Nat → Val → String
  | 0, _ => ""
  | fu + 1, v =>
    match v with
    | .none => "None"
    | .bool b => if b then "True" else "False"
    | .int n => toString n
    | .float q => toString q
    | .inf b => if b then "inf" else "-inf"
    | .str s => "'" ++ s ++ "'"
    | .list xs => "[" ++ pyReprJoinF fu xs ++ "]"
    | .tuple xs => "(" ++ pyReprJoinF fu xs ++ ")"
    | .set xs => "\x7b" ++ pyReprJoinF fu xs ++ "\x7d"
    | .dict xs => "\x7b" ++ pyReprJoinDF fu xs ++ "\x7d"
    | .datetime d =>
      "datetime.datetime(" ++ toString d.year ++ ", " ++ toString d.month ++ ", "
        ++ toString d.day ++ ", " ++ toString d.hour ++ ", " ++ toString d.minute
        ++ ", " ++ toString d.second ++ ", " ++ toString d.microsecond ++ ")"

/-- Fuelled comma-joined reprs of a sequence. -/
def pyReprJoinF : Nat → List Val → String
  | 0, _ => ""
  | fu + 1, l =>
    match l with
    | [] => ""
    | [x] => pyReprF fu x
    | x :: xs => pyReprF fu x ++ ", " ++ pyReprJoinF fu xs

/-- Fuelled comma-joined `key: value` reprs of a mapping. -/
def pyReprJoinDF : Nat → List (Val × Val) → String
  | 0, _ => ""
  | fu + 1, l =>
    match l with
    | [] => ""
    | [(k, v)] => pyReprF fu k ++ ": " ++ pyReprF fu v
    | (k, v) :: xs => pyReprF fu k ++ ": " ++ pyReprF fu v ++ ", " ++ pyReprJoinDF fu xs

end

/-- Python `repr()` of a value, to the fidelity the error messages need
(float repr uses the rational's own notation; strings are quoted without
escaping; datetimes render their fields). -/
def pyRepr (v : Val) : String := pyReprF (valSize v) v

/-- Python `str()` of a value (used by f-string interpolation). -/
def pyStrV : Val → String
  | .str s => s
  | v => pyRepr v

/-- Split a character list on a separator character (like `str.split`). -/
def splitOnChar (sep : Char) : List Char → List (List Char)
  | [] => [[]]
  | c :: rest =>
    let r := splitOnChar sep rest
    if c == sep then [] :: r
    else
      match r with
      | g :: gs => (c :: g) :: gs
      | [] => [[c]]

/-- The `atext` character class of `email_re`'s dot-atom alternative:
letters (the pattern is compiled IGNORECASE), digits and the listed
specials. -/
def isAtext (c : Char) : Bool :=
  c.isAlpha || c.isDigit ||
    (let n := c.toNat
     n == 33 || (35 ≤ n && n ≤ 39) || n == 42 || n == 43 || n == 45 || n == 47 ||
       n == 61 || n == 63 || n == 94 || n == 95 || n == 96 || (123 ≤ n && n ≤ 126))

/-- ASCII letter or digit. -/
def isAlnumA (c : Char) : Bool := c.isAlpha || c.isDigit

/-- The qtext class of `email_re`'s quoted-string alternative. -/
def qtextOk (c : Char) : Bool :=
  let n := c.toNat
  (1 ≤ n && n ≤ 8) || n == 11 || n == 12 || (14 ≤ n && n ≤ 31) || n == 33 ||
    (35 ≤ n && n ≤ 91) || (93 ≤ n && n ≤ 127)

/-- The character class allowed after a backslash in a quoted string. -/
def qpairOk (c : Char) : Bool :=
  let n := c.toNat
  (1 ≤ n && n ≤ 9) || n == 11 || n == 12 || (14 ≤ n && n ≤ 127)

/-- Dot-atom local part: dot-separated nonempty runs of `atext`. -/
def dotAtomOk (l : List Char) : Bool :=
  (splitOnChar '.' l).all (fun g => !g.isEmpty && g.all isAtext)

/-- Consume a quoted-string body after the opening quote; returns what
follows the closing quote. -/
def quotedSpan : List Char → Option (List Char)
  | [] => Option.none
  | '"' :: rest => some rest
  | '\\' :: c :: rest => if qpairOk c then quotedSpan rest else Option.none
  | c :: rest => if qtextOk c then quotedSpan rest else Option.none

/-- One domain label: `[A-Z0-9]([A-Z0-9-]{0,61}[A-Z0-9])?` (IGNORECASE). -/
def labelOk (l : List Char) : Bool :=
  match l, l.getLast? with
  | c :: _, some d =>
    l.length ≤ 63 && isAlnumA c && isAlnumA d && l.all (fun x => isAlnumA x || x == '-')
  | _, _ => false

/-- The top-level-domain part: 2 to 6 letters. -/
def tldOk (l : List Char) : Bool :=
  2 ≤ l.length && l.length ≤ 6 && l.all Char.isAlpha

/-- Domain: `(label\.)+tld\.?` as a whole-suffix match. -/
def domainOk (l : List Char) : Bool :=
  let parts := splitOnChar '.' l
  let core := fun (q : List (List Char)) =>
    match q.getLast? with
    | some t => 2 ≤ q.length && q.dropLast.all labelOk && tldOk t
    | Option.none => false
  match parts.getLast? with
  | some [] => core parts.dropLast
  | _ => core parts

/-- One IPv4 octet as the pattern `25[0-5]|2[0-4]\d|[0-1]?\d?\d` accepts
it. -/
def octetOk (l : List Char) : Bool :=
  match l with
  | [] => false
  | c :: _ =>
    l.all Char.isDigit &&
      (l.length ≤ 2 ||
        (l.length == 3 && (c == '0' || c == '1' ||
          (200 ≤ digitsToNat l && digitsToNat l ≤ 255))))

/-- The bracketed-IPv4 alternative of `email_re`. -/
def ipv4Ok (l : List Char) : Bool :=
  match l with
  | '[' :: rest =>
    (match rest.getLast? with
     | some ']' =>
       let parts := splitOnChar '.' rest.dropLast
       parts.length == 4 && parts.all octetOk
     | _ => false)
  | _ => false

/-- `local@domain` with a dot-atom or quoted-string local part. -/
def addrOk (l : List Char) : Bool :=
  match l with
  | '"' :: rest =>
    (match quotedSpan rest with
     | some ('@' :: dom) => domainOk dom
     | _ => false)
  | _ =>
    let (loc, rest) := l.span (fun c => isAtext c || c == '.')
    match rest with
    | '@' :: dom => dotAtomOk loc && domainOk dom
    | _ => false

/-- Acceptance of the module-level `email_re` pattern (an anchored match
is a whole-string match here, both alternatives ending in `$`). -/
def emailReMatch (s : String) : Bool :=
  addrOk s.toList || ipv4Ok s.toList

/-- `str.encode('idna')` to the fidelity the engine can observe: per-label
emptiness/length checks (raising `UnicodeError` as CPython's codec does),
returning byte values.  ToASCII of a non-ASCII label is abstracted to its
code points; the bytes are never observed by the engine before the
str/bytes `TypeError` of the `'@'.join` that follows. -/
def pyIdnaEncode (s : String) : Except Crash (List Nat) :=
  if s.isEmpty then .ok []
  else
    let labels := splitOnChar '.' s.toList
    if labels.dropLast.all (fun l => 0 < l.length && l.length < 64) &&
        (labels.getLastD []).length < 64 then
      .ok (s.toList.map Char.toNat)
    else .error .unicodeError

/-- The fields `strptime` collects before building the datetime. -/
structure DTFields where
  y : Nat := 1900
  mo : Nat := 1
  d : Nat := 1
  hh : Option Nat := Option.none
  h12 : Option Nat := Option.none
  mi : Nat := 0
  s : Nat := 0
  us : Nat := 0
  pm : Option Bool := Option.none
  deriving Repr

/-- Take exactly `k` digits from the front. -/
def takeDigits : Nat → List Char → Option (Nat × List Char)
  | 0, l => some (0, l)
  | _ + 1, [] => Option.none
  | k + 1, c :: rest =>
    if c.isDigit then
      (takeDigits k rest).map (fun (n, r) => ((c.toNat - 48) * 10 ^ k + n, r))
    else Option.none

/-- Which `DTFields` field a bounded numeric directive sets. -/
inductive FieldTag where
  | mT
  | dT
  | hT
  | iT
  | miT
  | sT

/-- Store a parsed directive value. -/
def setField : FieldTag → DTFields → Nat → DTFields
  | .mT, f, n => { f with mo := n }
  | .dT, f, n => { f with d := n }
  | .hT, f, n => { f with hh := some n }
  | .iT, f, n => { f with h12 := some n }
  | .miT, f, n => { f with mi := n }
  | .sT, f, n => { f with s := n }

/-- The value bounds of `_strptime`'s regex per directive (two-digit and
one-digit alternatives share them). -/
def dirSpec : Char → Option (FieldTag × Nat × Nat)
  | 'm' => some (.mT, 1, 12)
  | 'd' => some (.dT, 1, 31)
  | 'H' => some (.hT, 0, 23)
  | 'I' => some (.iT, 1, 12)
  | 'M' => some (.miT, 0, 59)
  | 'S' => some (.sT, 0, 61)
  | _ => Option.none

/-- `datetime.strptime`'s directive-by-directive match of a format against
an input, with the per-directive value ranges of `_strptime`'s table.  The
two-digit alternative of a bounded directive is tried before the one-digit
one, with backtracking, as the regex alternation orders them.  `%f` takes
its maximal digit run (at most six): in the module's format table `%f` is
never followed by a digit-consuming pattern, so greedy matching and the
regex are interchangeable there. -/
def fmtParse : List Char → List Char → DTFields → Option DTFields
  | [], [], f => some f
  | [], _ :: _, _ => Option.none
  | '%' :: d :: fr, inp, f =>
    (match dirSpec d with
     | some (tag, lo, hi) =>
       let two : Option DTFields :=
         match takeDigits 2 inp with
         | some (n, r) =>
           if lo ≤ n && n ≤ hi then fmtParse fr r (setField tag f n) else Option.none
         | Option.none => Option.none
       let one : Option DTFields :=
         match takeDigits 1 inp with
         | some (n, r) =>
           if lo ≤ n && n ≤ hi then fmtParse fr r (setField tag f n) else Option.none
         | Option.none => Option.none
       (match two with
        | some res => some res
        | Option.none => one)
     | Option.none =>
       match d with
       | 'Y' =>
         (match takeDigits 4 inp with
          | some (n, r) => fmtParse fr r { f with y := n }
          | Option.none => Option.none)
       | 'y' =>
         (match takeDigits 2 inp with
          | some (n, r) =>
            fmtParse fr r { f with y := if n ≤ 68 then 2000 + n else 1900 + n }
          | Option.none => Option.none)
       | 'f' =>
         let ds := inp.takeWhile Char.isDigit
         let k := min ds.length 6
         if k == 0 then Option.none
         else fmtParse fr (inp.drop k)
           { f with us := digitsToNat (inp.take k) * 10 ^ (6 - k) }
       | 'p' =>
         (match inp with
          | a :: m :: r =>
            if (a == 'A' || a == 'a') && (m == 'M' || m == 'm') then
              fmtParse fr r { f with pm := some false }
            else if (a == 'P' || a == 'p') && (m == 'M' || m == 'm') then
              fmtParse fr r { f with pm := some true }
            else Option.none
          | _ => Option.none)
       | _ => Option.none)
  | c :: fr, i :: ir, f => if c == i then fmtParse fr ir f else Option.none
  | _ :: _, [], _ => Option.none

/-- Days in a month of the proleptic Gregorian calendar. -/
def daysInMonth (y m : Nat) : Nat :=
  if m == 2 then
    if y % 4 == 0 && (y % 100 != 0 || y % 400 == 0) then 29 else 28
  else if m == 4 || m == 6 || m == 9 || m == 11 then 30
  else 31

/-- Build the datetime from parsed fields; `none` models the `ValueError`
the `datetime` constructor raises on out-of-range fields (year 0, day not
in month, leap seconds). -/
def dtAssemble (f : DTFields) : Option PyDateTime :=
  let hour :=
    match f.hh, f.h12 with
    | some h, _ => some h
    | Option.none, some i =>
      match f.pm with
      | some true => some (if i == 12 then 12 else i + 12)
      | some false => some (if i == 12 then 0 else i)
      | Option.none => some i
    | Option.none, Option.none => some 0
  match hour with
  | some h =>
    if 1 ≤ f.y && f.y ≤ 9999 && f.d ≤ daysInMonth f.y f.mo && f.s ≤ 59 && h ≤ 23 then
      some ⟨f.y, f.mo, f.d, h, f.mi, f.s, f.us, Option.none⟩
    else Option.none
  | Option.none => Option.none

/-- `datetime.strptime(value, fmt)` as an option (a `ValueError` is
`none`). -/
def pyStrptime (value fmt : String) : Option PyDateTime :=
  (fmtParse fmt.toList value.toList {}).bind dtAssemble

/-- The module's `DATETIME_INPUT_FORMATS` tuple, in order. -/
def DATETIME_INPUT_FORMATS : List String :=
  ["%Y-%m-%dT%H:%M:%S.%fZ",
   "%Y-%m-%dT%H:%M:%S.%f",
   "%Y-%m-%dT%H:%M:%S",
   "%Y-%m-%dT%H:%M:%S.%f+00:00",
   "%Y-%m-%dT%H:%M:%S+00:00",
   "%Y-%m-%dT%I:%M:%S.%f %pZ",
   "%Y-%m-%d %H:%M:%S",
   "%Y-%m-%d %H:%M",
   "%m/%d/%Y %H:%M:%S",
   "%m/%d/%Y %H:%M",
   "%m/%d/%y %H:%M:%S",
   "%m/%d/%y %H:%M",
   "%d.%m.%Y %H:%M:%S",
   "%d.%m.%Y %H:%M"]

/-- The `for spec in DATETIME_INPUT_FORMATS` loop of `parse_datetime`:
first format that parses wins; with `timezone_aware` the parsed (naive)
value is stamped with UTC. -/
def parseDatetimeLoop (fmts : List String) (value : String) (tzAware : Bool) :
    Option PyDateTime :=
  match fmts with
  | [] => Option.none
  | fmt :: rest =>
    match pyStrptime value fmt with
    | some d => some (if tzAware then { d with tz := some .utc } else d)
    | Option.none => parseDatetimeLoop rest value tzAware

/-- `parse_datetime(schema, value, path, timezone_aware)` (the model has
`pytz` available, so `UTC` is a real timezone object). -/
def parse_datetime (value : String) (p : PyPath) (tzAware : Bool) : Outcome Val :=
  match parseDatetimeLoop DATETIME_INPUT_FORMATS value tzAware with
  | some d => .ok (.datetime d)
  | Option.none =>
    .invalid (mkInvalid .invalid p "Please enter a valid date/time." [] (some (.str value)))

/-- The `EmailValidator.check` method.  In the source the IDN fallback does
`parts[-1] = parts[-1].encode('idna')` — under Python 3 that stores a
`bytes` object, so the following `'@'.join(parts)` raises `TypeError`
(str/bytes mix); a `UnicodeError` from the codec is re-raised.  Neither is
an `Invalid`, so both escape the engine. -/
def emailCheck (s : String) (p : PyPath) : Outcome Unit :=
  if emailReMatch s then .ok ()
  else if s.length != 0 && s.toList.contains '@' then
    match pyIdnaEncode ⟨((splitOnChar '@' s.toList).getLastD [])⟩ with
    | .error c => .crash c
    | .ok _ => .crash .typeError
  else if emailReMatch s then .ok ()
  else .invalid (mkInvalid .emailE p "Enter a valid e-mail address." [] (some (.str s)))

/-- The constraint checkers attachable to a schema node.  A callable
(zero-argument producer) threshold is pure in the model, so a threshold is
just the value it produces. -/
inductive Validator where
  | minLength (bound : Val)
  | maxLength (bound : Val)
  | minValue (bound : Val)
  | maxValue (bound : Val)
  | equals (value : Val)
  | inSet (choice : List Val)
  | emailV

/-- `validator.check(value, path)`. -/
def runValidator (val : Validator) (v : Val) (p : PyPath) : Outcome Unit :=
  match val with
  | .minLength bound =>
    match pyLen v with
    | Option.none => .crash .typeError
    | some L =>
      match pyLt (.int L) bound with
      | .error c => .crash c
      | .ok true =>
        .invalid (mkInvalid .minLengthE p
          ("Ensure this value has at most " ++ pyStrV bound ++ " entries (it has "
            ++ toString L ++ ").") [] (some v))
      | .ok false => .ok ()
  | .maxLength bound =>
    match pyLen v with
    | Option.none => .crash .typeError
    | some L =>
      match pyLt bound (.int L) with
      | .error c => .crash c
      | .ok true =>
        .invalid (mkInvalid .maxLengthE p
          ("Ensure this value has at most " ++ pyStrV bound ++ " entries (it has "
            ++ toString L ++ ").") [] (some v))
      | .ok false => .ok ()
  | .minValue bound =>
    match pyLt v bound with
    | .error c => .crash c
    | .ok true =>
      .invalid (mkInvalid .minValueE p
        ("This value must be larger than " ++ pyStrV bound ++ ".") [] (some v))
    | .ok false => .ok ()
  | .maxValue bound =>
    match pyLt bound v with
    | .error c => .crash c
    | .ok true =>
      .invalid (mkInvalid .maxValueE p
        ("This value must be smaller than " ++ pyStrV bound ++ ".") [] (some v))
    | .ok false => .ok ()
  | .equals w =>
    if !pyEq v w then
      .invalid (mkInvalid .equalsE p
        ("This value must be equal to " ++ pyRepr w ++ ".") [] (some v))
    else .ok ()
  | .inSet choice =>
    if !pyMemL v choice then
      .invalid (mkInvalid .inE p
        ("This value must be one of: " ++ String.intercalate ", " (choice.map pyRepr))
        [] (some v))
    else .ok ()
  | .emailV =>
    match v with
    | .str s => emailCheck s p
    | _ => .crash .typeError

/-- What the `for validator in self.validators` loop of `Schema.convert`
can come to. -/
inductive VLoopRes where
  | passed (errs : List Invalid)
  | defaulted
  | crashed (c : Crash)

/-- The validator loop: collect `Invalid` failures (short-circuiting to the
default when `use_default_for_invalid`), propagate anything else. -/
def validatorLoop (vs : List Validator) (useDefault : Bool) (v : Val) (p : PyPath)
    (acc : List Invalid) : VLoopRes :=
  match vs with
  | [] => .passed acc
  | val :: rest =>
    match runValidator val v p with
    | .ok _ => validatorLoop rest useDefault v p acc
    | .invalid e =>
      if useDefault then .defaulted else validatorLoop rest useDefault v p (acc ++ [e])
    | .crash c => .crashed c

/-- The guard predicates paired with `OneOf` candidates, as a little closed
language (the shapes the test-suite and spec use, plus an always-raising
one). -/
inductive Guard where
  | isDictG
  | isStrG
  | isIntG
  | isListG
  | constG (b : Bool)
  | raisesG

/-- Run a guard on the raw value; `Except.error` models the guard itself
raising. -/
def runGuard : Guard → Val → Except Unit Bool
  | .isDictG, v => .ok (match v with | .dict _ => true | _ => false)
  | .isStrG, v => .ok (match v with | .str _ => true | _ => false)
  | .isIntG, v => .ok (match v with | .int _ => true | _ => false)
  | .isListG, v => .ok (match v with | .list _ => true | _ => false)
  | .constG b, _ => .ok b
  | .raisesG, _ => .error ()

/-- The construction-time options every schema node shares
(`Schema.__init__`); `default = none` models the `_UNDEFINED` sentinel. -/
structure SBase where
  null : Bool := false
  optional : Bool := false
  default : Option Val := Option.none
  useDefaultForInvalid : Bool := false
  validators : List Validator := []

/-- Which concrete `IterableSchema` subclass a node is. -/
inductive IterKind where
  | listK
  | tupleK
  | setK
  deriving DecidableEq, Repr

mutual

/-- The schema node hierarchy of `sd.py` (the nodes the claims quantify
over): `OneOf`, `Dict`, the `IterableSchema` family (`List`/`Tuple`/`Set`
via `IterKind`), `String`, `Email`, `Int`, `Float`, `Bool`, `DateTime`. -/
inductive Schema where
  | oneOf (base : SBase) (choice : List (Option Guard × Schema))
  | dictS (base : SBase) (ignoreRest : Bool) (spec : Option DictSpec)
  | iterS (base : SBase) (kind : IterKind) (ignoreRest : Bool) (spec : Option IterSpec)
  | stringS (base : SBase) (blank : Bool) (stripWhitespace : Bool)
  | emailS (base : SBase) (blank : Bool) (stripWhitespace : Bool)
  | intS (base : SBase)
  | floatS (base : SBase)
  | boolS (base : SBase)
  | datetimeS (base : SBase) (timezoneAware : Bool)

/-- The two modes of `Dict.schema` (when not `None`): a (key-schema,
value-schema) pair, or a mapping of fixed keys to sub-schemas/literals. -/
inductive DictSpec where
  | homog (ks vs : Schema)
  | keyed (entries : List (Val × EntrySpec))

/-- A declared value in keyed mode: a literal (any non-`Schema` object) or
a nested schema node. -/
inductive EntrySpec where
  | lit (v : Val)
  | sub (s : Schema)

/-- The two modes of `IterableSchema.schema` (when not `None`). -/
inductive IterSpec where
  | fixed (subs : List Schema)
  | homog (s : Schema)

end


/-- The shared construction options of a node. -/
def Schema.base : Schema → SBase
  | .oneOf b _ => b
  | .dictS b _ _ => b
  | .iterS b _ _ _ => b
  | .stringS b _ _ => b
  | .emailS b _ _ => b
  | .intS b => b
  | .floatS b => b
  | .boolS b => b
  | .datetimeS b _ => b

/-- `Schema.get_default`: raises `Invalid` when no default is configured,
otherwise produces the (pure) default value. -/
def getDefault (b : SBase) (p : PyPath) : Outcome Val :=
  match b.default with
  | Option.none => .invalid (mkInvalid .invalid p "This value is required." [] Option.none)
  | some d => .ok d

/-- `self._type(result)` of the `IterableSchema` subclasses. -/
def mkContainer : IterKind → List Val → Val
  | .listK, xs => .list xs
  | .tupleK, xs => .tuple xs
  | .setK, xs => .set (pySetMk xs)

/-- The `_type_error` message of each subclass. -/
def iterTypeErrMsg : IterKind → String
  | .listK => "This value must be a list."
  | .tupleK => "This value must be a tuple."
  | .setK => "This value must be a set."

/-- `', '.join(keys)`: joining non-string keys raises `TypeError`.  (The
source joins a Python set difference; the model's order is input order.) -/
def joinKeys : List Val → Except Crash String
  | [] => .ok ""
  | [.str s] => .ok s
  | .str s :: rest => (joinKeys rest).map (fun r => s ++ ", " ++ r)
  | _ => .error .typeError

/-- The post-loop bookkeeping of keyed-mode `Dict._convert`: the
`UnconvertedValues` check against the seen keys, then the errors merge. -/
def keyedFinish (ir : Bool) (input : List (Val × Val)) (seen : List Val)
    (result : List (Val × Val)) (errors : List Invalid) (p : PyPath) (orig : Val) :
    Outcome Val :=
  let extras := (input.map Prod.fst).filter (fun k => !pyMemL k seen)
  if !ir && !extras.isEmpty then
    match joinKeys extras with
    | .error c => .crash c
    | .ok names =>
      let e := mkInvalid .unconvertedValues p ("Unconverted values: " ++ names) []
        (some orig)
      if errors.isEmpty then .invalid e else .invalid (e.addErrs errors)
  else if errors.isEmpty then .ok (.dict result)
  else .invalid ((mkInvalid .invalid p "" [] (some orig)).addErrs errors)

/-- The post-loop `if errors: raise` of `IterableSchema._convert`. -/
def iterFinish (kind : IterKind) (res : List Val) (errs : List Invalid) (p : PyPath)
    (orig : Val) : Outcome Val :=
  if errs.isEmpty then .ok (mkContainer kind res)
  else .invalid (mkInvalid .invalid p "" errs (some orig))

/-- The pre-step of `String.convert` (shared by `Email`): strip whitespace
from a truthy string, then decide blank / null / required for an empty
value.  `Except.error` carries an immediate return, `Except.ok` the value
to hand to the base method. -/
def stringPre (blank nullb strip : Bool) (v : Val) (p : PyPath) :
    Except (Outcome Val) Val :=
  let v := match v with
    | .str t => if strip && t.length != 0 then Val.str (pyStrip t) else Val.str t
    | w => w
  if pyEq v (.str "") then
    .error (if blank then .ok v
      else if nullb then .ok .none
      else .invalid (mkInvalid .invalid p "This value is required." [] Option.none))
  else .ok v

mutual

/-- `convert(value, path)`: the `String` family overrides the base method
with a blank/whitespace pre-step, every other node uses the base method
directly. -/
def convert (s : Schema) (v : Val) (p : PyPath) : Outcome Val :=
  match s with
  | .stringS b blank strip =>
    (match stringPre blank b.null strip v p with
     | .error r => r
     | .ok v2 => commonConvert (.stringS b blank strip) v2 p)
  | .emailS b blank strip =>
    (match stringPre blank b.null strip v p with
     | .error r => r
     | .ok v2 => commonConvert (.emailS b blank strip) v2 p)
  | .oneOf b c => commonConvert (.oneOf b c) v p
  | .dictS b ir sp => commonConvert (.dictS b ir sp) v p
  | .iterS b k ir sp => commonConvert (.iterS b k ir sp) v p
  | .intS b => commonConvert (.intS b) v p
  | .floatS b => commonConvert (.floatS b) v p
  | .boolS b => commonConvert (.boolS b) v p
  | .datetimeS b tz => commonConvert (.datetimeS b tz) v p
termination_by (sizeOf s, 2, 0)

/-- The base `Schema.convert`: empty string becomes `None`; `None` resolves
by `null`/default/required; otherwise `_convert` then the validator loop
(with `use_default_for_invalid` substitution). -/
def commonConvert (s : Schema) (v0 : Val) (p : PyPath) : Outcome Val :=
  let b := s.base
  let v := if pyEq v0 (.str "") then Val.none else v0
  match v with
  | .none =>
    if !b.null then
      if b.useDefaultForInvalid then getDefault b p
      else .invalid (mkInvalid .invalid p "This value is required." [] Option.none)
    else .ok .none
  | _ =>
    match sconvert s v p with
    | .ok w =>
      match validatorLoop b.validators b.useDefaultForInvalid w p [] with
      | .passed [] => .ok w
      | .passed errs => .invalid (mkInvalid .invalid p "" errs (some w))
      | .defaulted => getDefault b p
      | .crashed c => .crash c
    | .invalid e => if b.useDefaultForInvalid then getDefault b p else .invalid e
    | .crash c => .crash c
termination_by (sizeOf s, 1, 0)

/-- The variant-specific `_convert` methods. -/
def sconvert (s : Schema) (v : Val) (p : PyPath) : Outcome Val :=
  match s with
  | .oneOf _ choice =>
    (match oneOfLoop choice v p with
     | some r => r
     | Option.none =>
       .invalid (mkInvalid .invalid p "This value doesn't match any acceptable schema."
         [] (some v)))
  | .dictS _ ir spec =>
    (match v with
     | .dict items =>
       (match spec with
        | Option.none => .ok (.dict items)
        | some (.homog ks vs) =>
          (match dictHomogLoop ks vs items Option.none [] p v with
           | .ok res => .ok (.dict res)
           | .invalid e => .invalid e
           | .crash c => .crash c)
        | some (.keyed entries) =>
          (match keyedLoop entries items p [] [] [] with
           | .ok (seen, res, errs) => keyedFinish ir items seen res errs p v
           | .invalid e => .invalid e
           | .crash c => .crash c))
     | _ => .invalid (mkInvalid .invalid p "This value must be a dict." [] (some v)))
  | .iterS _ kind ir spec =>
    (match iterOK v with
     | Option.none => .invalid (mkInvalid .invalid p (iterTypeErrMsg kind) [] (some v))
     | some elems =>
       (match spec with
        | Option.none => .ok (mkContainer kind elems)
        | some (.fixed subs) =>
          (match (if ir then pySlice v subs.length else .ok elems) with
           | .error c => .crash c
           | .ok checked =>
             if checked.length != subs.length then
               iterFinish kind []
                 [mkInvalid .invalid p
                   ("This value must have " ++ toString subs.length ++ " entries.")
                   [] (some v)] p v
             else
               (match fixedLoop subs checked 0 p [] [] with
                | .ok (res, errs) => iterFinish kind res errs p v
                | .invalid e => .invalid e
                | .crash c => .crash c))
        | some (.homog sub) =>
          (match homogLoop sub elems 0 p [] [] with
           | .ok (res, errs) => iterFinish kind res errs p v
           | .invalid e => .invalid e
           | .crash c => .crash c)))
  | .stringS _ _ _ =>
    (match v with
     | .str t => .ok (.str t)
     | _ =>
       (match pyBytes v with
        | .error c => .crash c
        | .ok bs =>
          (match utf8Decode bs with
           | some t => .ok (.str t)
           | Option.none => .crash .unicodeError)))
  | .emailS _ _ _ =>
    (match v with
     | .str t => .ok (.str (pyLower t))
     | _ => .crash .attributeError)
  | .intS _ =>
    (match pyInt v with
     | .ok n => .ok (.int n)
     | .error .valueError => .invalid (mkInvalid .invalid p
         "This value must be an integer." [] Option.none)
     | .error .typeError => .invalid (mkInvalid .invalid p
         "This value must be an integer." [] Option.none)
     | .error c => .crash c)
  | .floatS _ =>
    (match pyFloat v with
     | .ok fv => .ok fv
     | .error .valueError => .invalid (mkInvalid .invalid p
         "This value must be a number." [] Option.none)
     | .error .typeError => .invalid (mkInvalid .invalid p
         "This value must be a number." [] Option.none)
     | .error c => .crash c)
  | .boolS _ =>
    (match v with
     | .str t => .ok (.bool (!(pyLower t == "0" || pyLower t == "false")))
     | _ => .ok (.bool (pyTruthy v)))
  | .datetimeS _ tzA =>
    (match v with
     | .str t => parse_datetime t p tzA
     | .datetime d => .ok (.datetime d)
     | _ => .invalid (mkInvalid .invalid p "Please provide a datetime object." []
         Option.none))
termination_by (sizeOf s, 0, 0)

/-- `OneOf._convert`'s candidate loop: `none` means the choice list was
exhausted without a match. -/
def oneOfLoop (choice : List (Option Guard × Schema)) (v : Val) (p : PyPath) :
    Option (Outcome Val) :=
  match choice with
  | [] => Option.none
  | (some g, sch) :: rest =>
    (match runGuard g v with
     | .error _ => oneOfLoop rest v p
     | .ok false => oneOfLoop rest v p
     | .ok true => some (convert sch v p))
  | (Option.none, sch) :: rest =>
    (match convert sch v p with
     | .ok w => some (.ok w)
     | .invalid _ => oneOfLoop rest v p
     | .crash c => some (.crash c))
termination_by (sizeOf choice, 3, 0)

/-- Homogeneous-mode `Dict._convert` entry loop.  Mirrors the source
exactly: the converted key is a loop-carried local (`lastKey`; unassigned
on the first iteration), the value conversion (the assignment's right-hand
side) runs before the target `result[result_key]` is evaluated, and the
`if errors: raise` stands inside the loop body. -/
def dictHomogLoop (ks vs : Schema) (items : List (Val × Val)) (lastKey : Option Val)
    (result : List (Val × Val)) (p : PyPath) (orig : Val) :
    Outcome (List (Val × Val)) :=
  match items with
  | [] => .ok result
  | (k, val) :: rest =>
    (match convert ks k (p ++ [k]) with
     | .crash c => .crash c
     | keyRes =>
       let keyErrs : List Invalid := match keyRes with | .invalid e => [e] | _ => []
       let curKey : Option Val := match keyRes with | .ok rk => some rk | _ => lastKey
       match convert vs val (p ++ [k]) with
       | .crash c => .crash c
       | .invalid e => .invalid (mkInvalid .invalid p "" (keyErrs ++ [e]) (some orig))
       | .ok w =>
         (match curKey with
          | Option.none => .crash .unboundLocal
          | some rk =>
            if keyErrs.isEmpty then
              dictHomogLoop ks vs rest (some rk) (dictInsert result rk w) p orig
            else .invalid (mkInvalid .invalid p "" keyErrs (some orig))))
termination_by (1 + sizeOf ks + sizeOf vs, 3, items.length)

/-- Keyed-mode `Dict._convert` declared-entry loop: accumulates the seen
keys, the result mapping and the per-key errors; only a foreign exception
stops it. -/
def keyedLoop (entries : List (Val × EntrySpec)) (input : List (Val × Val)) (p : PyPath)
    (seen : List Val) (result : List (Val × Val)) (errors : List Invalid) :
    Outcome (List Val × List (Val × Val) × List Invalid) :=
  match entries with
  | [] => .ok (seen, result, errors)
  | (key, .lit litv) :: rest =>
    let seen := seen ++ [key]
    (match pyLookup key input with
     | some cur =>
       if !pyEq litv cur then
         keyedLoop rest input p seen result (errors ++
           [mkInvalid .invalid (p ++ [key])
             ("This value must be equal to " ++ pyRepr litv ++ ".") [] Option.none])
       else keyedLoop rest input p seen (dictInsert result key cur) errors
     | Option.none =>
       keyedLoop rest input p seen result (errors ++
         [mkInvalid .invalid (p ++ [key])
           ("This value must be equal to " ++ pyRepr litv ++ ".") [] Option.none]))
  | (key, .sub sch) :: rest =>
    if sch.base.optional && !pyHasKey key input then
      keyedLoop rest input p seen result errors
    else
      let seen := seen ++ [key]
      (match pyLookup key input with
       | Option.none =>
         if sch.base.default.isSome then
           (match getDefault sch.base (p ++ [key]) with
            | .ok d => keyedLoop rest input p seen (dictInsert result key d) errors
            | .invalid e => keyedLoop rest input p seen result (errors ++ [e])
            | .crash c => .crash c)
         else
           keyedLoop rest input p seen result (errors ++
             [mkInvalid .missingEntry (p ++ [key])
               ("The " ++ pyRepr key ++ " entry is missing.") [] Option.none])
       | some cur =>
         (match convert sch cur (p ++ [key]) with
          | .ok w => keyedLoop rest input p seen (dictInsert result key w) errors
          | .invalid e => keyedLoop rest input p seen result (errors ++ [e])
          | .crash c => .crash c))
termination_by (sizeOf entries, 3, 0)

/-- Fixed-arity element loop of `IterableSchema._convert` (the caller has
already equalised the lengths). -/
def fixedLoop (subs : List Schema) (items : List Val) (i : Nat) (p : PyPath)
    (res : List Val) (errs : List Invalid) : Outcome (List Val × List Invalid) :=
  match subs, items with
  | sub :: subs', x :: xs =>
    (match convert sub x (p ++ [.int i]) with
     | .ok w => fixedLoop subs' xs (i + 1) p (res ++ [w]) errs
     | .invalid e => fixedLoop subs' xs (i + 1) p res (errs ++ [e])
     | .crash c => .crash c)
  | _, _ => .ok (res, errs)
termination_by (sizeOf subs, 3, 0)

/-- Homogeneous element loop of `IterableSchema._convert`. -/
def homogLoop (sub : Schema) (items : List Val) (i : Nat) (p : PyPath)
    (res : List Val) (errs : List Invalid) : Outcome (List Val × List Invalid) :=
  match items with
  | [] => .ok (res, errs)
  | x :: xs =>
    (match convert sub x (p ++ [.int i]) with
     | .ok w => homogLoop sub xs (i + 1) p (res ++ [w]) errs
     | .invalid e => homogLoop sub xs (i + 1) p res (errs ++ [e])
     | .crash c => .crash c)
termination_by (sizeOf sub, 2, items.length)

end

/-!
Default-configuration nodes (`Int()`, `Float()`, ...) used by the claims,
and small dispatch lemmas for the `convert` entry point.
-/

/-- `Int()` with default construction options. -/
def intDefault : Schema := .intS {}

/-- `Float()` with default construction options. -/
def floatDefault : Schema := .floatS {}

/-- `Email()` with default construction options: the class-level validator
list `[MaxLength(254), EmailValidator()]` copied into the instance. -/
def emailDefault : Schema := .emailS { validators := [.maxLength (.int 254), .emailV] } false true

theorem convert_intS (b : SBase) (v : Val) (p : PyPath) :
    convert (.intS b) v p = commonConvert (.intS b) v p := by
  simp [convert]

theorem convert_floatS (b : SBase) (v : Val) (p : PyPath) :
    convert (.floatS b) v p = commonConvert (.floatS b) v p := by
  simp [convert]

theorem convert_boolS (b : SBase) (v : Val) (p : PyPath) :
    convert (.boolS b) v p = commonConvert (.boolS b) v p := by
  simp [convert]

theorem convert_datetimeS (b : SBase) (tz : Bool) (v : Val) (p : PyPath) :
    convert (.datetimeS b tz) v p = commonConvert (.datetimeS b tz) v p := by
  simp [convert]

theorem convert_dictS (b : SBase) (ir : Bool) (sp : Option DictSpec) (v : Val) (p : PyPath) :
    convert (.dictS b ir sp) v p = commonConvert (.dictS b ir sp) v p := by
  simp [convert]

theorem convert_iterS (b : SBase) (k : IterKind) (ir : Bool) (sp : Option IterSpec)
    (v : Val) (p : PyPath) :
    convert (.iterS b k ir sp) v p = commonConvert (.iterS b k ir sp) v p := by
  simp [convert]

theorem convert_oneOf (b : SBase) (c : List (Option Guard × Schema)) (v : Val) (p : PyPath) :
    convert (.oneOf b c) v p = commonConvert (.oneOf b c) v p := by
  simp [convert]

theorem convert_stringS (b : SBase) (blank strip : Bool) (v : Val) (p : PyPath) :
    convert (.stringS b blank strip) v p =
      match stringPre blank b.null strip v p with
      | .error r => r
      | .ok v2 => commonConvert (.stringS b blank strip) v2 p := by
  simp [convert]

theorem convert_emailS (b : SBase) (blank strip : Bool) (v : Val) (p : PyPath) :
    convert (.emailS b blank strip) v p =
      match stringPre blank b.null strip v p with
      | .error r => r
      | .ok v2 => commonConvert (.emailS b blank strip) v2 p := by
  simp [convert]

/-- C3 (counterexample to the claim as stated): `Int().convert` of an
infinite float runs `int(value)`, which raises `OverflowError`;
`Number._convert` catches only `ValueError` and `TypeError`, so the
exception escapes to the caller instead of the structured error. -/
theorem c3_counterexample :
    convert intDefault (.inf true) [] = .crash .overflowError ∧
    convert intDefault (.inf false) [] = .crash .overflowError := by
  constructor <;>
    (simp +decide [intDefault, convert, commonConvert, sconvert, Schema.base] <;> rfl)

/-- C3 (amended): `Int().convert` returns a converted integer or raises
the structured `Invalid` on every input except the infinite floats, whose
`int()` raises `OverflowError` past the `(ValueError, TypeError)` handler;
`Float().convert` is total (a `float()` failure is always a caught
`ValueError`/`TypeError`, and `float()` of an infinity returns it). -/
theorem c3_amended (v : Val) (p : PyPath) :
    ((∃ n, convert intDefault v p = .ok (.int n)) ∨
      (∃ e, convert intDefault v p = .invalid e) ∨
      (∃ b2, v = .inf b2 ∧ convert intDefault v p = .crash .overflowError)) ∧
    ((∃ q, convert floatDefault v p = .ok (.float q)) ∨
      (∃ b2, convert floatDefault v p = .ok (.inf b2)) ∨
      (∃ e, convert floatDefault v p = .invalid e)) := by
  constructor
  · rw [intDefault, convert_intS]
    simp only [commonConvert, Schema.base]
    by_cases h : pyEq v (.str "") = true
    · simp only [h, if_true]
      exact Or.inr (Or.inl ⟨_, rfl⟩)
    · simp only [h, if_false, Bool.false_eq_true]
      cases v with
      | none => exact Or.inr (Or.inl ⟨_, rfl⟩)
      | inf b2 =>
        simp only [sconvert]
        exact Or.inr (Or.inr ⟨b2, rfl, rfl⟩)
      | str s =>
        simp only [sconvert, pyInt]
        rcases hp : parseIntStr s with _ | n
        · exact Or.inr (Or.inl ⟨_, by simp only [hp]; rfl⟩)
        · exact Or.inl ⟨_, by simp only [hp]; rfl⟩
      | _ =>
        simp only [sconvert]
        first
          | exact Or.inl ⟨_, rfl⟩
          | exact Or.inr (Or.inl ⟨_, rfl⟩)
  · rw [floatDefault, convert_floatS]
    simp only [commonConvert, Schema.base]
    by_cases h : pyEq v (.str "") = true
    · simp only [h, if_true]
      exact Or.inr (Or.inr ⟨_, rfl⟩)
    · simp only [h, if_false, Bool.false_eq_true]
      cases v with
      | none => exact Or.inr (Or.inr ⟨_, rfl⟩)
      | inf b2 =>
        simp only [sconvert, pyFloat]
        exact Or.inr (Or.inl ⟨b2, rfl⟩)
      | str s =>
        simp only [sconvert, pyFloat]
        rcases hinf : parseFloatInfStr s with _ | b2
        · rcases hp : parseFloatStr s with _ | q
          · exact Or.inr (Or.inr ⟨_, by simp only [hinf, hp]; rfl⟩)
          · exact Or.inl ⟨_, by simp only [hinf, hp]; rfl⟩
        · exact Or.inr (Or.inl ⟨_, by simp only [hinf]; rfl⟩)
      | _ =>
        simp only [sconvert]
        first
          | exact Or.inl ⟨_, rfl⟩
          | exact Or.inr (Or.inr ⟨_, rfl⟩)

/-- Whenever the format loop parses a string with `timezone_aware` set, the
returned datetime is stamped with UTC. -/
theorem parseDatetimeLoop_tz (fmts : List String) (v : String) (d : PyDateTime)
    (h : parseDatetimeLoop fmts v true = some d) : d.tz = some .utc := by
  induction fmts with
  | nil => simp [parseDatetimeLoop] at h
  | cons fmt rest ih =>
    rw [parseDatetimeLoop] at h
    rcases hp : pyStrptime v fmt with _ | d0 <;> rw [hp] at h
    · exact ih h
    · simp only [Option.some.injEq] at h
      rw [← h]
      rfl

/-- C10: with `timezone_aware=true`, `DateTime._convert` stamps UTC only
onto values parsed out of text: a successfully parsed string yields a
datetime whose tzinfo is UTC, while an input that is already a datetime
object is returned unchanged — in particular a naive datetime input yields
a naive result. -/
theorem c10_datetime_utc_stamping :
    (∀ (d : PyDateTime) (p : PyPath),
        convert (.datetimeS {} true) (.datetime d) p = .ok (.datetime d)) ∧
    (∀ (s : String) (d : PyDateTime) (p : PyPath),
        convert (.datetimeS {} true) (.str s) p = .ok (.datetime d) →
        d.tz = some .utc) := by
  constructor
  · intro d p
    rw [convert_datetimeS]
    simp only [commonConvert, Schema.base,
      show pyEq (Val.datetime d) (Val.str "") = false from rfl, Bool.false_eq_true,
      if_false]
    simp only [sconvert]
    rfl
  · intro s d p h
    rw [convert_datetimeS] at h
    simp only [commonConvert, Schema.base] at h
    by_cases hs : pyEq (Val.str s) (Val.str "") = true
    · simp only [hs, if_true] at h
      exact absurd h (by simp)
    · simp only [hs, Bool.false_eq_true, if_false] at h
      simp only [sconvert, parse_datetime] at h
      rcases hp : parseDatetimeLoop DATETIME_INPUT_FORMATS s true with _ | d0
      · rw [hp] at h
        exact absurd h (by simp)
      · simp only [hp, validatorLoop, Outcome.ok.injEq, Val.datetime.injEq] at h
        subst h
        exact parseDatetimeLoop_tz _ _ _ hp

/-- Witness for C10 at concrete inputs: a naive datetime object passes
through naive, and the parsed form of `2006-10-25T14:30:59` carries UTC. -/
theorem c10_witness :
    convert (.datetimeS {} true)
        (.datetime ⟨2006, 10, 25, 14, 30, 59, 0, Option.none⟩) []
      = .ok (.datetime ⟨2006, 10, 25, 14, 30, 59, 0, Option.none⟩) ∧
    (⟨2006, 10, 25, 14, 30, 59, 0, some .utc⟩ : PyDateTime).tz = some .utc := by
  constructor
  · exact c10_datetime_utc_stamping.1 _ []
  · exact c10_datetime_utc_stamping.2 "2006-10-25T14:30:59" _ []
      (by simp +decide [convert, commonConvert, sconvert, Schema.base, parse_datetime] <;> rfl)

/-- C5: `OneOf._convert` tries candidates in declared order.  For a guarded
candidate, a guard that raises or rejects skips to the next candidate
(never propagating the guard's exception); an accepting guard commits to
that candidate, whose outcome — success or failure — is returned without
trying later candidates.  An unguarded candidate's success returns
immediately and its `Invalid` failure falls through to the next candidate.
An exhausted candidate list makes `_convert` raise the
no-matching-schema error. -/
theorem c5_oneof_semantics (g : Guard) (sch : Schema)
    (rest : List (Option Guard × Schema)) (v : Val) (p : PyPath) :
    (runGuard g v = .error () →
      oneOfLoop ((some g, sch) :: rest) v p = oneOfLoop rest v p) ∧
    (runGuard g v = .ok false →
      oneOfLoop ((some g, sch) :: rest) v p = oneOfLoop rest v p) ∧
    (runGuard g v = .ok true →
      oneOfLoop ((some g, sch) :: rest) v p = some (convert sch v p)) ∧
    (∀ w, convert sch v p = .ok w →
      oneOfLoop ((Option.none, sch) :: rest) v p = some (.ok w)) ∧
    (∀ e, convert sch v p = .invalid e →
      oneOfLoop ((Option.none, sch) :: rest) v p = oneOfLoop rest v p) ∧
    (oneOfLoop ([] : List (Option Guard × Schema)) v p = Option.none) ∧
    (∀ (b : SBase) (choice : List (Option Guard × Schema)),
      sconvert (.oneOf b choice) v p =
        match oneOfLoop choice v p with
        | some r => r
        | Option.none =>
          .invalid (mkInvalid .invalid p
            "This value doesn't match any acceptable schema." [] (some v))) := by
  refine ⟨fun h => ?_, fun h => ?_, fun h => ?_, fun w h => ?_, fun e h => ?_, ?_,
    fun b choice => ?_⟩
  · rw [oneOfLoop, h]
  · rw [oneOfLoop, h]
  · rw [oneOfLoop, h]
  · rw [oneOfLoop, h]
  · rw [oneOfLoop, h]
  · rw [oneOfLoop]
  · simp only [sconvert]

/-- Witness for C5 at concrete inputs: a raising guard is skipped (its
exception does not propagate), and the exhausted list yields no match. -/
theorem c5_witness :
    runGuard .raisesG (Val.str "x") = .error () ∧
    oneOfLoop [(some .raisesG, intDefault)] (Val.str "x") [] =
      oneOfLoop [] (Val.str "x") [] ∧
    oneOfLoop [] (Val.str "x") [] = Option.none := by
  refine ⟨rfl, ?_, ?_⟩
  · exact (c5_oneof_semantics .raisesG intDefault [] (Val.str "x") []).1 rfl
  · exact (c5_oneof_semantics .raisesG intDefault [] (Val.str "x") []).2.2.2.2.2.1

/-- A sequence value: a Python list (`true`) or tuple (`false`). -/
def seqVal (c : Bool) (xs : List Val) : Val :=
  if c then .list xs else .tuple xs

/-- Erase the top-level offending value of an error outcome (the only part
of a fixed-arity conversion that records whether the input was trimmed). -/
def stripBad : Outcome Val → Outcome Val
  | .invalid e => .invalid { e with badValue := Option.none }
  | o => o

theorem stripBad_iterFinish (kind : IterKind) (res : List Val) (errs : List Invalid)
    (p : PyPath) (o1 o2 : Val) :
    stripBad (iterFinish kind res errs p o1) = stripBad (iterFinish kind res errs p o2) := by
  by_cases he : errs.isEmpty <;> simp [iterFinish, he, stripBad, mkInvalid]

/-- C7: fixed-arity collection conversion.  With `ignore_rest` the input
sequence is trimmed to the declared arity before the length check, so
extra trailing elements are tolerated (the outcome is that of converting
the trimmed input, up to the recorded offending value); without it, any
length mismatch — and with `ignore_rest` an input shorter than the arity —
raises a composite carrying exactly the length-violation leaf, with no
element-level conversion attempted. -/
theorem c7_fixed_arity (b : SBase) (kind : IterKind) (subs : List Schema)
    (xs : List Val) (p : PyPath) (c : Bool) :
    (xs.length ≥ subs.length →
      stripBad (sconvert (.iterS b kind true (some (.fixed subs))) (seqVal c xs) p) =
      stripBad (sconvert (.iterS b kind true (some (.fixed subs)))
        (seqVal c (xs.take subs.length)) p)) ∧
    (xs.length < subs.length →
      sconvert (.iterS b kind true (some (.fixed subs))) (seqVal c xs) p =
        .invalid (mkInvalid .invalid p ""
          [mkInvalid .invalid p
            ("This value must have " ++ toString subs.length ++ " entries.") []
            (some (seqVal c xs))] (some (seqVal c xs)))) ∧
    (xs.length ≠ subs.length →
      sconvert (.iterS b kind false (some (.fixed subs))) (seqVal c xs) p =
        .invalid (mkInvalid .invalid p ""
          [mkInvalid .invalid p
            ("This value must have " ++ toString subs.length ++ " entries.") []
            (some (seqVal c xs))] (some (seqVal c xs)))) := by
  have hiter : ∀ ys, iterOK (seqVal c ys) = some ys := by
    intro ys; cases c <;> rfl
  have hslice : ∀ ys n, pySlice (seqVal c ys) n = .ok (ys.take n) := by
    intro ys n; cases c <;> rfl
  refine ⟨fun hge => ?_, fun hlt => ?_, fun hne => ?_⟩
  · simp only [sconvert, hiter, hslice, if_true]
    have h1 : (xs.take subs.length).length = subs.length := by
      simp [List.length_take, Nat.min_eq_left (le_of_eq rfl)]
      omega
    have h2 : ((xs.take subs.length).take subs.length) = xs.take subs.length := by
      simp [List.take_take]
    rw [h2, h1]
    simp only [bne_self_eq_false, Bool.false_eq_true, if_false, ne_eq]
    rcases hl : fixedLoop subs (xs.take subs.length) 0 p [] [] with ⟨res, errs⟩ | e | cr
    · exact stripBad_iterFinish kind res errs p _ _
    · rfl
    · rfl
  · simp only [sconvert, hiter, hslice, if_true]
    have h1 : (xs.take subs.length).length = xs.length := by
      simp [List.length_take]
      omega
    rw [h1]
    have : (xs.length != subs.length) = true := by
      simp [bne]
      omega
    rw [this]
    simp [iterFinish, mkInvalid]
  · simp only [sconvert, hiter, if_false, Bool.false_eq_true]
    have : (xs.length != subs.length) = true := by
      simp [bne]
      exact hne
    rw [this]
    simp [iterFinish, mkInvalid]

/-- Witness for C7 at a concrete input: `(Int, Bool)` against a 3-element
list — trimmed with `ignore_rest`, a length-only composite without it. -/
theorem c7_witness :
    [Val.int 1, Val.int 0, Val.int 9].length ≥ 2 ∧
    stripBad (sconvert (.iterS {} .tupleK true (some (.fixed [intDefault, .boolS {}])))
        (seqVal true [.int 1, .int 0, .int 9]) []) =
      stripBad (sconvert (.iterS {} .tupleK true (some (.fixed [intDefault, .boolS {}])))
        (seqVal true [.int 1, .int 0]) []) ∧
    sconvert (.iterS {} .tupleK false (some (.fixed [intDefault, .boolS {}])))
        (seqVal true [.int 1, .int 0, .int 9]) [] =
      .invalid (mkInvalid .invalid [] ""
        [mkInvalid .invalid [] "This value must have 2 entries." []
          (some (seqVal true [.int 1, .int 0, .int 9]))]
        (some (seqVal true [.int 1, .int 0, .int 9]))) := by
  refine ⟨by decide, ?_, ?_⟩
  · exact (c7_fixed_arity {} .tupleK [intDefault, .boolS {}]
      [.int 1, .int 0, .int 9] [] true).1 (by decide)
  · exact (c7_fixed_arity {} .tupleK [intDefault, .boolS {}]
      [.int 1, .int 0, .int 9] [] true).2.2 (by decide)

/-- Entry step of the homogeneous dict loop: key and value both fail —
both errors are collected and the composite is raised at once. -/
theorem dictHomogLoop_kbad_vbad (ks vs : Schema) (k v : Val) (rest : List (Val × Val))
    (lk : Option Val) (res : List (Val × Val)) (p : PyPath) (orig : Val) (ek ev : Invalid)
    (hk : convert ks k (p ++ [k]) = .invalid ek)
    (hv : convert vs v (p ++ [k]) = .invalid ev) :
    dictHomogLoop ks vs ((k, v) :: rest) lk res p orig =
      .invalid (mkInvalid .invalid p "" [ek, ev] (some orig)) := by
  rw [dictHomogLoop, hk, hv]
  rfl

/-- Entry step: key converts, value fails — the composite carries the
value error. -/
theorem dictHomogLoop_kok_vbad (ks vs : Schema) (k v : Val) (rest : List (Val × Val))
    (lk : Option Val) (res : List (Val × Val)) (p : PyPath) (orig : Val) (rk : Val)
    (ev : Invalid)
    (hk : convert ks k (p ++ [k]) = .ok rk)
    (hv : convert vs v (p ++ [k]) = .invalid ev) :
    dictHomogLoop ks vs ((k, v) :: rest) lk res p orig =
      .invalid (mkInvalid .invalid p "" [ev] (some orig)) := by
  rw [dictHomogLoop, hk, hv]
  rfl

/-- Entry step: key fails but the value converts — the assignment target
reads the loop-carried converted-key local: unassigned on the first
iteration (`UnboundLocalError`), stale afterwards (the key error alone is
raised). -/
theorem dictHomogLoop_kbad_vok (ks vs : Schema) (k v : Val) (rest : List (Val × Val))
    (lk : Option Val) (res : List (Val × Val)) (p : PyPath) (orig : Val) (ek : Invalid)
    (w : Val)
    (hk : convert ks k (p ++ [k]) = .invalid ek)
    (hv : convert vs v (p ++ [k]) = .ok w) :
    dictHomogLoop ks vs ((k, v) :: rest) lk res p orig =
      match lk with
      | Option.none => .crash .unboundLocal
      | some rk => .invalid (mkInvalid .invalid p "" [ek] (some orig)) := by
  rw [dictHomogLoop, hk, hv]
  cases lk <;> rfl

/-- Entry step: key and value both convert — the loop continues on the
remaining entries with the converted entry stored. -/
theorem dictHomogLoop_kok_vok (ks vs : Schema) (k v : Val) (rest : List (Val × Val))
    (lk : Option Val) (res : List (Val × Val)) (p : PyPath) (orig : Val) (rk w : Val)
    (hk : convert ks k (p ++ [k]) = .ok rk)
    (hv : convert vs v (p ++ [k]) = .ok w) :
    dictHomogLoop ks vs ((k, v) :: rest) lk res p orig =
      dictHomogLoop ks vs rest (some rk) (dictInsert res rk w) p orig := by
  rw [dictHomogLoop, hk, hv]
  rfl

/-- A fully successful prefix only advances the loop state: the loop on
`pre ++ items` continues on `items` from the accumulated result, with the
converted-key local set to some key once the prefix is nonempty. -/
theorem dictHomogLoop_append (ks vs : Schema) (pre : List (Val × Val)) :
    ∀ (items : List (Val × Val)) (lk : Option Val) (res res' : List (Val × Val))
      (p : PyPath) (orig : Val),
      dictHomogLoop ks vs pre lk res p orig = .ok res' →
      ∃ lk', (pre = [] → lk' = lk ∧ res' = res) ∧
        (pre ≠ [] → ∃ rk, lk' = some rk) ∧
        dictHomogLoop ks vs (pre ++ items) lk res p orig =
          dictHomogLoop ks vs items lk' res' p orig := by
  induction pre with
  | nil =>
    intro items lk res res' p orig h
    rw [dictHomogLoop] at h
    cases h
    exact ⟨lk, fun _ => ⟨rfl, rfl⟩, fun hne => absurd rfl hne, rfl⟩
  | cons kv pre' ih =>
    intro items lk res res' p orig h
    obtain ⟨k, v⟩ := kv
    rcases hk : convert ks k (p ++ [k]) with rk | ek | ck <;>
      rcases hv : convert vs v (p ++ [k]) with w | ev | cv
    all_goals
      first
        | (rw [dictHomogLoop_kok_vok ks vs k v pre' lk res p orig _ _ hk hv] at h
           obtain ⟨lk', h1, h2, h3⟩ := ih items _ _ _ p orig h
           refine ⟨lk', fun hc => absurd hc (by simp), fun _ => ?_, ?_⟩
           · rcases hpre : pre' with _ | ⟨e2, r2⟩
             · rw [hpre] at h1
               exact ⟨rk, (h1 rfl).1⟩
             · rw [hpre] at h2
               exact h2 (by simp)
           · rw [List.cons_append,
               dictHomogLoop_kok_vok ks vs k v (pre' ++ items) lk res p orig _ _ hk hv]
             exact h3)
        | (exfalso
           rw [dictHomogLoop] at h
           rw [hk] at h
           first
             | (rw [hv] at h; revert h; cases lk <;> simp)
             | (revert h; simp))

/-- C1 (amended): homogeneous-mode `Dict._convert` converts entries in
input order; within one entry the key failure and the value failure are
both collected; but the composite error is raised at the end of the first
entry that has any failure, so entries after it are never attempted (the
conclusion does not depend on `post`).  When the failing entry's key is
rejected while its value converts, the raised composite carries only the
key error — unless that entry is the first, in which case the conversion
aborts with an `UnboundLocalError` instead.  The last conjunct ties the
loop to `Dict._convert`. -/
theorem c1_amended (ks vs : Schema) (pre : List (Val × Val)) (k v : Val)
    (post : List (Val × Val)) (p : PyPath) (orig : Val) (res' : List (Val × Val))
    (hpre : dictHomogLoop ks vs pre Option.none [] p orig = .ok res') :
    (∀ ek ev, convert ks k (p ++ [k]) = .invalid ek →
      convert vs v (p ++ [k]) = .invalid ev →
      dictHomogLoop ks vs (pre ++ (k, v) :: post) Option.none [] p orig =
        .invalid (mkInvalid .invalid p "" [ek, ev] (some orig))) ∧
    (∀ rk ev, convert ks k (p ++ [k]) = .ok rk →
      convert vs v (p ++ [k]) = .invalid ev →
      dictHomogLoop ks vs (pre ++ (k, v) :: post) Option.none [] p orig =
        .invalid (mkInvalid .invalid p "" [ev] (some orig))) ∧
    (∀ ek w, convert ks k (p ++ [k]) = .invalid ek →
      convert vs v (p ++ [k]) = .ok w → pre = [] →
      dictHomogLoop ks vs (pre ++ (k, v) :: post) Option.none [] p orig =
        .crash .unboundLocal) ∧
    (∀ ek w, convert ks k (p ++ [k]) = .invalid ek →
      convert vs v (p ++ [k]) = .ok w → pre ≠ [] →
      dictHomogLoop ks vs (pre ++ (k, v) :: post) Option.none [] p orig =
        .invalid (mkInvalid .invalid p "" [ek] (some orig))) ∧
    (∀ (b : SBase) (ir : Bool) (items : List (Val × Val)),
      sconvert (.dictS b ir (some (.homog ks vs))) (.dict items) p =
        match dictHomogLoop ks vs items Option.none [] p (.dict items) with
        | .ok r => .ok (.dict r)
        | .invalid e => .invalid e
        | .crash c => .crash c) := by
  obtain ⟨lk', h1, h2, h3⟩ :=
    dictHomogLoop_append ks vs pre ((k, v) :: post) Option.none [] res' p orig hpre
  refine ⟨fun ek ev hk hv => ?_, fun rk ev hk hv => ?_, fun ek w hk hv hnil => ?_,
    fun ek w hk hv hne => ?_, fun b ir items => ?_⟩
  · rw [h3, dictHomogLoop_kbad_vbad ks vs k v post lk' res' p orig ek ev hk hv]
  · rw [h3, dictHomogLoop_kok_vbad ks vs k v post lk' res' p orig rk ev hk hv]
  · rw [h3, dictHomogLoop_kbad_vok ks vs k v post lk' res' p orig ek w hk hv,
      (h1 hnil).1]
  · obtain ⟨rk, hrk⟩ := h2 hne
    rw [h3, dictHomogLoop_kbad_vok ks vs k v post lk' res' p orig ek w hk hv, hrk]
  · simp only [sconvert]

set_option maxHeartbeats 1000000 in
/-- Counterexample to C1 as stated: with schema `(String(), Int())` and
input `{a: x, b: y}` the value of the first entry fails, the composite is
raised immediately, and it mentions only the path `a` — the second entry's
failure is not collected (the claim asserts every entry is attempted). -/
theorem c1_counterexample :
    convert (.dictS {} false (some (.homog (.stringS {} false true) intDefault)))
        (.dict [(.str "a", .str "x"), (.str "b", .str "y")]) []
      = .invalid (mkInvalid .invalid [] ""
          [mkInvalid .invalid [.str "a"] "This value must be an integer." []
            Option.none]
          (some (.dict [(.str "a", .str "x"), (.str "b", .str "y")]))) ∧
    (mkInvalid .invalid [] ""
        [mkInvalid .invalid [.str "a"] "This value must be an integer." []
          Option.none]
        (some (.dict [(.str "a", .str "x"), (.str "b", .str "y")]))).children
      = [([Val.str "a"],
          [⟨.invalid, "This value must be an integer.", Option.none⟩])] := by
  constructor
  · simp +decide [intDefault, convert, stringPre, commonConvert, sconvert,
      dictHomogLoop, Schema.base] <;> rfl
  · rfl

/-- Witness for C1 (amended) at a concrete input: the successful prefix
`{1: 2}`, then the entry `{x: y}` whose key and value both fail under
`(Int(), Int())`; both errors of that entry are raised as one composite
and the trailing entry `{3: 4}` is never reached. -/
theorem c1_witness :
    dictHomogLoop intDefault intDefault [(Val.int 1, Val.int 2)] Option.none [] []
        (.dict [(.int 1, .int 2), (.str "x", .str "y"), (.int 3, .int 4)])
      = .ok [(.int 1, .int 2)] ∧
    dictHomogLoop intDefault intDefault
        [(Val.int 1, Val.int 2), (Val.str "x", Val.str "y"), (Val.int 3, Val.int 4)]
        Option.none [] []
        (.dict [(.int 1, .int 2), (.str "x", .str "y"), (.int 3, .int 4)])
      = .invalid (mkInvalid .invalid [] ""
          [mkInvalid .invalid [.str "x"] "This value must be an integer." []
            Option.none,
           mkInvalid .invalid [.str "x"] "This value must be an integer." []
            Option.none]
          (some (.dict [(.int 1, .int 2), (.str "x", .str "y"), (.int 3, .int 4)]))) := by
  have hpre : dictHomogLoop intDefault intDefault [(Val.int 1, Val.int 2)] Option.none
      [] [] (.dict [(.int 1, .int 2), (.str "x", .str "y"), (.int 3, .int 4)])
      = .ok [(.int 1, .int 2)] := by
    simp +decide [intDefault, dictHomogLoop, convert, commonConvert, sconvert,
      Schema.base, dictInsert] <;> rfl
  refine ⟨hpre, ?_⟩
  have := (c1_amended intDefault intDefault [(Val.int 1, Val.int 2)] (Val.str "x")
    (Val.str "y") [(Val.int 3, Val.int 4)] []
    (.dict [(.int 1, .int 2), (.str "x", .str "y"), (.int 3, .int 4)])
    [(.int 1, .int 2)] hpre).1
    (mkInvalid .invalid [.str "x"] "This value must be an integer." [] Option.none)
    (mkInvalid .invalid [.str "x"] "This value must be an integer." [] Option.none)
    (by simp +decide [intDefault, convert, commonConvert, sconvert, Schema.base] <;> rfl)
    (by simp +decide [intDefault, convert, commonConvert, sconvert, Schema.base] <;> rfl)
  exact this

/-- C9 (amended): in homogeneous mode, when the key schema rejects the key
of the first input entry *and* the value conversion succeeds, the
assignment `result[result_key] = ...` reads the never-assigned local
`result_key` (the right-hand side having been evaluated first), so the
whole `convert` call aborts with an `UnboundLocalError` instead of a
structured error. -/
theorem c9_amended (b : SBase) (ir : Bool) (ks vs : Schema) (k v : Val)
    (rest : List (Val × Val)) (p : PyPath) (ek : Invalid) (w : Val)
    (hk : convert ks k (p ++ [k]) = .invalid ek)
    (hv : convert vs v (p ++ [k]) = .ok w) :
    convert (.dictS b ir (some (.homog ks vs))) (.dict ((k, v) :: rest)) p =
      .crash .unboundLocal := by
  rw [convert_dictS]
  simp only [commonConvert, Schema.base,
    show pyEq (Val.dict ((k, v) :: rest)) (Val.str "") = false from rfl,
    Bool.false_eq_true, if_false]
  simp only [sconvert,
    dictHomogLoop_kbad_vok ks vs k v rest Option.none [] p (.dict ((k, v) :: rest))
      ek w hk hv]

/-- Counterexample to C9 as stated: when the first entry's key is rejected
and its value conversion *also* fails, the value error is caught like any
`Invalid` (the assignment target is never evaluated), and the call raises
the structured composite — not a name-resolution error.  Input
`{x: y}` against `(Int(), Int())`. -/
theorem c9_counterexample :
    convert (.dictS {} false (some (.homog intDefault intDefault)))
        (.dict [(.str "x", .str "y")]) []
      = .invalid (mkInvalid .invalid [] ""
          [mkInvalid .invalid [.str "x"] "This value must be an integer." []
            Option.none,
           mkInvalid .invalid [.str "x"] "This value must be an integer." []
            Option.none]
          (some (.dict [(.str "x", .str "y")]))) := by
  simp +decide [intDefault, convert, commonConvert, sconvert, dictHomogLoop,
    Schema.base] <;> rfl

/-- Witness for C9 (amended): `{x: 5}` against `(Int(), Int())` — the key
`x` is rejected, the value `5` converts, and the call crashes with the
unbound-local error. -/
theorem c9_witness :
    convert (.dictS {} false (some (.homog intDefault intDefault)))
        (.dict [(.str "x", .int 5)]) []
      = .crash .unboundLocal := by
  exact c9_amended {} false intDefault intDefault (.str "x") (.int 5) [] []
    (mkInvalid .invalid [.str "x"] "This value must be an integer." [] Option.none)
    (.int 5)
    (by simp +decide [intDefault, convert, commonConvert, sconvert, Schema.base] <;> rfl)
    (by simp +decide [intDefault, convert, commonConvert, sconvert, Schema.base] <;> rfl)

/-- A text-family node with `blank=true` (the one family whose `convert`
override returns `''` itself rather than a null result). -/
def isBlankText : Schema → Bool
  | .stringS _ blank _ => blank
  | .emailS _ blank _ => blank
  | _ => false

/-- C8 (amended): for every schema with `null=true`, `convert(None)`
returns the null result, and `convert('')` returns without raising — the
null result for every node except a text-family node with `blank=true`,
which returns `''` itself (the blank check precedes the null check in
`String.convert`). -/
theorem c8_amended (s : Schema) (p : PyPath) (h : s.base.null = true) :
    convert s Val.none p = .ok Val.none ∧
    convert s (.str "") p = .ok (if isBlankText s then Val.str "" else Val.none) := by
  cases s with
  | stringS b blank strip =>
    simp only [Schema.base] at h
    constructor
    · rw [convert_stringS]
      simp only [stringPre, commonConvert, Schema.base, h]
      rfl
    · rw [convert_stringS]
      simp only [stringPre, isBlankText, h]
      cases blank <;> cases strip <;> rfl
  | emailS b blank strip =>
    simp only [Schema.base] at h
    constructor
    · rw [convert_emailS]
      simp only [stringPre, commonConvert, Schema.base, h]
      rfl
    · rw [convert_emailS]
      simp only [stringPre, isBlankText, h]
      cases blank <;> cases strip <;> rfl
  | oneOf b c =>
    simp only [Schema.base] at h
    rw [convert_oneOf, convert_oneOf]
    simp only [commonConvert, Schema.base, h]
    exact ⟨rfl, rfl⟩
  | dictS b ir sp =>
    simp only [Schema.base] at h
    rw [convert_dictS, convert_dictS]
    simp only [commonConvert, Schema.base, h]
    exact ⟨rfl, rfl⟩
  | iterS b k ir sp =>
    simp only [Schema.base] at h
    rw [convert_iterS, convert_iterS]
    simp only [commonConvert, Schema.base, h]
    exact ⟨rfl, rfl⟩
  | intS b =>
    simp only [Schema.base] at h
    rw [convert_intS, convert_intS]
    simp only [commonConvert, Schema.base, h]
    exact ⟨rfl, rfl⟩
  | floatS b =>
    simp only [Schema.base] at h
    rw [convert_floatS, convert_floatS]
    simp only [commonConvert, Schema.base, h]
    exact ⟨rfl, rfl⟩
  | boolS b =>
    simp only [Schema.base] at h
    rw [convert_boolS, convert_boolS]
    simp only [commonConvert, Schema.base, h]
    exact ⟨rfl, rfl⟩
  | datetimeS b tz =>
    simp only [Schema.base] at h
    rw [convert_datetimeS, convert_datetimeS]
    simp only [commonConvert, Schema.base, h]
    exact ⟨rfl, rfl⟩

/-- Counterexample to C8 as stated: `String(null=true, blank=true)` has
`null=true`, yet `convert('')` returns `''`, not a null result. -/
theorem c8_counterexample :
    convert (.stringS { null := true } true true) (.str "") [] = .ok (.str "") ∧
    (Outcome.ok (Val.str "") : Outcome Val) ≠ .ok Val.none := by
  constructor
  · rw [convert_stringS]
    rfl
  · intro h
    injection h with h2
    cases h2

/-- Witness for C8 (amended): `Int(null=true)` maps both `None` and `''`
to the null result; `String(null=true, blank=true)` maps `''` to `''`. -/
theorem c8_witness :
    convert (.intS { null := true }) Val.none [] = .ok Val.none ∧
    convert (.intS { null := true }) (.str "") [] = .ok Val.none ∧
    convert (.stringS { null := true } true true) (.str "") [] = .ok (.str "") := by
  refine ⟨(c8_amended (.intS { null := true }) [] rfl).1, ?_, ?_⟩
  · exact (c8_amended (.intS { null := true }) [] rfl).2
  · exact (c8_amended (.stringS { null := true } true true) [] rfl).2

/-- C2: what the Email format check actually does in the source.  The
IDN fallback stores `parts[-1].encode('idna')` — a `bytes` object under
Python 3 — into the parts list, so the `'@'.join(parts)` that follows
raises `TypeError` (and a codec failure re-raises `UnicodeError`); the
retry and the `EmailValidatorError` after it are unreachable whenever the
fallback runs.  Concretely, the two-`@` address `a@b@c.com` and the
non-ASCII-domain address `someone@exämple.com` both escape `convert` as a
`TypeError` crash instead of converting or raising the structured error;
in general every value that fails the pattern while containing `@`
crashes. -/
theorem c2_email_idna_fallback_crashes :
    convert emailDefault (.str "a@b@c.com") [] = .crash .typeError ∧
    convert emailDefault (.str "someone@exämple.com") [] = .crash .typeError ∧
    (∀ (s : String) (p : PyPath), emailReMatch s = false → (s.length != 0) = true →
      s.toList.contains '@' = true → ∃ c, emailCheck s p = .crash c) := by
  refine ⟨?_, ?_, ?_⟩
  · rw [emailDefault, convert_emailS]
    have h1 : stringPre false false true (.str "a@b@c.com") [] =
        .ok (.str "a@b@c.com") := rfl
    rw [h1]
    simp only [commonConvert, Schema.base,
      show pyEq (Val.str "a@b@c.com") (Val.str "") = false from rfl,
      Bool.false_eq_true, if_false]
    simp only [sconvert]
    rfl
  · rw [emailDefault, convert_emailS]
    have h1 : stringPre false false true (.str "someone@exämple.com") [] =
        .ok (.str "someone@exämple.com") := rfl
    rw [h1]
    simp only [commonConvert, Schema.base,
      show pyEq (Val.str "someone@exämple.com") (Val.str "") = false from rfl,
      Bool.false_eq_true, if_false]
    simp only [sconvert]
    rfl
  · intro s p h1 h2 h3
    rw [emailCheck]
    simp only [h1, h2, h3, Bool.false_eq_true, if_false, Bool.and_self, if_true]
    rcases he : pyIdnaEncode ⟨(splitOnChar '@' s.toList).getLastD []⟩ with bs | c <;>
      simp [he]

/-- The error contribution of one declared key, computed independently of
every other declared key (the pointwise reading of the keyed loop). -/
def keyedEntryErr (input : List (Val × Val)) (p : PyPath) :
    Val × EntrySpec → Option Invalid
  | (key, .lit litv) =>
    (match pyLookup key input with
     | some cur =>
       if !pyEq litv cur then
         some (mkInvalid .invalid (p ++ [key])
           ("This value must be equal to " ++ pyRepr litv ++ ".") [] Option.none)
       else Option.none
     | Option.none =>
       some (mkInvalid .invalid (p ++ [key])
         ("This value must be equal to " ++ pyRepr litv ++ ".") [] Option.none))
  | (key, .sub sch) =>
    if sch.base.optional && !pyHasKey key input then Option.none
    else
      (match pyLookup key input with
       | Option.none =>
         if sch.base.default.isSome then Option.none
         else
           some (mkInvalid .missingEntry (p ++ [key])
             ("The " ++ pyRepr key ++ " entry is missing.") [] Option.none)
       | some cur =>
         (match convert sch cur (p ++ [key]) with
          | .ok _ => Option.none
          | .invalid e => some e
          | .crash _ => Option.none))

/-- When the keyed loop runs to completion, its error list is exactly the
pointwise error of every declared entry, appended in declaration order to
the incoming accumulator: no declared key's failure prevents another from
being attempted. -/
theorem keyedLoop_errors (input : List (Val × Val)) (p : PyPath) :
    ∀ (entries : List (Val × EntrySpec)) (seen0 : List Val)
      (res0 : List (Val × Val)) (errs0 : List Invalid)
      (out : List Val × List (Val × Val) × List Invalid),
      keyedLoop entries input p seen0 res0 errs0 = .ok out →
      out.2.2 = errs0 ++ entries.filterMap (keyedEntryErr input p) := by
  intro entries
  induction entries with
  | nil =>
    intro seen0 res0 errs0 out h
    rw [keyedLoop] at h
    cases h
    simp
  | cons e rest ih =>
    intro seen0 res0 errs0 out h
    obtain ⟨key, spec⟩ := e
    cases spec with
    | lit litv =>
      rw [keyedLoop] at h
      rcases hl : pyLookup key input with _ | cur <;> simp only [hl] at h
      · simp only [List.filterMap_cons, keyedEntryErr, hl]
        have := ih _ _ _ _ h
        simpa using this
      · by_cases hne : (!pyEq litv cur) = true
        · rw [if_pos hne] at h
          simp only [List.filterMap_cons, keyedEntryErr, hl, if_pos hne]
          have := ih _ _ _ _ h
          simpa using this
        · rw [if_neg hne] at h
          simp only [List.filterMap_cons, keyedEntryErr, hl, if_neg hne]
          exact ih _ _ _ _ h
    | sub sch =>
      rw [keyedLoop] at h
      by_cases hopt : (sch.base.optional && !pyHasKey key input) = true
      · rw [if_pos hopt] at h
        simp only [List.filterMap_cons, keyedEntryErr, if_pos hopt]
        exact ih _ _ _ _ h
      · rw [if_neg hopt] at h
        rcases hl : pyLookup key input with _ | cur <;> simp only [hl] at h
        · by_cases hd : sch.base.default.isSome = true
          · rw [if_pos hd] at h
            rcases hdv : sch.base.default with _ | d
            · rw [hdv] at hd
              simp at hd
            · simp only [getDefault, hdv] at h
              simp only [List.filterMap_cons, keyedEntryErr, if_neg hopt, hl,
                if_pos hd]
              exact ih _ _ _ _ h
          · rw [if_neg hd] at h
            simp only [List.filterMap_cons, keyedEntryErr, if_neg hopt, hl,
              if_neg hd]
            have := ih _ _ _ _ h
            simpa using this
        · rcases hc : convert sch cur (p ++ [key]) with w | ev | cc <;> simp only [hc] at h
          · simp only [List.filterMap_cons, keyedEntryErr, if_neg hopt, hl, hc]
            exact ih _ _ _ _ h
          · simp only [List.filterMap_cons, keyedEntryErr, if_neg hopt, hl, hc]
            have := ih _ _ _ _ h
            simpa using this
          · exact absurd h (by simp)

/-- `', '.join` on plain names, in the shape the loop produces. -/
def joinNames : List String → String
  | [] => ""
  | [s] => s
  | s :: rest => s ++ ", " ++ joinNames rest

/-- `joinKeys` on string keys succeeds and joins every name. -/
theorem joinKeys_strs (xs : List String) :
    joinKeys (xs.map Val.str) = .ok (joinNames xs) := by
  induction xs with
  | nil => rfl
  | cons s rest ih =>
    cases rest with
    | nil => rfl
    | cons r t =>
      rw [show ((s :: r :: t).map Val.str) = .str s :: (r :: t).map Val.str from rfl,
        joinKeys]
      · rw [ih]
        rfl
      · simp

/-- The keyed-mode schema of the spec's concrete example: `{a: Int()}`. -/
def c6Schema (ir : Bool) : Schema :=
  .dictS {} ir (some (.keyed [(.str "a", .sub intDefault)]))

/-- C6: keyed-mode `Dict._convert`.  (i) The loop's error list is the
pointwise error of every declared key (a key's failure never prevents
another key from being attempted, and all per-key errors accumulate into
the one composite).  (ii) With `ignore_rest` unset, input keys outside the
seen set raise `UnconvertedValues` whose message lists every extra key,
with the per-key errors merged in.  (iii) With `ignore_rest` set the
extras are silently dropped.  (iv) ties the loop and finish to
`_convert`; (v)/(vi) are the spec's `{a:1, b:1}` example both ways. -/
theorem c6_keyed_dict (entries : List (Val × EntrySpec)) (input : List (Val × Val))
    (p : PyPath) (out : List Val × List (Val × Val) × List Invalid) :
    (keyedLoop entries input p [] [] [] = .ok out →
      out.2.2 = entries.filterMap (keyedEntryErr input p)) ∧
    (∀ (seen : List Val) (res : List (Val × Val)) (errs : List Invalid) (orig : Val)
      (names : List String),
      (input.map Prod.fst).filter (fun k => !pyMemL k seen) = names.map Val.str →
      names ≠ [] →
      keyedFinish false input seen res errs p orig =
        .invalid ((mkInvalid .unconvertedValues p
          ("Unconverted values: " ++ joinNames names) [] (some orig)).addErrs errs)) ∧
    (∀ (seen : List Val) (res : List (Val × Val)) (orig : Val),
      keyedFinish true input seen res [] p orig = .ok (.dict res)) ∧
    (∀ (b : SBase) (ir : Bool),
      sconvert (.dictS b ir (some (.keyed entries))) (.dict input) p =
        match keyedLoop entries input p [] [] [] with
        | .ok (seen, res, errs) => keyedFinish ir input seen res errs p (.dict input)
        | .invalid e => .invalid e
        | .crash c => .crash c) ∧
    convert (c6Schema false) (.dict [(.str "a", .int 1), (.str "b", .int 1)]) []
      = .invalid (mkInvalid .unconvertedValues [] "Unconverted values: b" []
          (some (.dict [(.str "a", .int 1), (.str "b", .int 1)]))) ∧
    convert (c6Schema true) (.dict [(.str "a", .int 1), (.str "b", .int 1)]) []
      = .ok (.dict [(.str "a", .int 1)]) := by
  refine ⟨fun h => by simpa using keyedLoop_errors input p entries [] [] [] out h,
    ?_, ?_, fun b ir => by simp only [sconvert], ?_, ?_⟩
  · intro seen res errs orig names hex hne
    rw [keyedFinish, hex, joinKeys_strs]
    have hne2 : (names.map Val.str).isEmpty = false := by
      cases names with
      | nil => exact absurd rfl hne
      | cons a t => rfl
    rw [hne2]
    simp only [Bool.not_false, Bool.and_self, if_true, Bool.not_true]
    by_cases he : errs.isEmpty = true
    · rw [if_pos he]
      rcases errs with _ | ⟨e0, es⟩
      · rfl
      · simp at he
    · rw [if_neg he]
  · intro seen res orig
    rw [keyedFinish]
    rfl
  · simp +decide [c6Schema, intDefault, convert, commonConvert, sconvert, keyedLoop,
      keyedFinish, Schema.base] <;> rfl
  · simp +decide [c6Schema, intDefault, convert, commonConvert, sconvert, keyedLoop,
      keyedFinish, Schema.base] <;> rfl

/-- Witness for C6 at the spec's example: against `{a: Int()}` with input
`{a: 1, b: 1}`, the completed loop has no per-key error, and the finish
raises `UnconvertedValues` naming `b`. -/
theorem c6_witness :
    keyedLoop [(Val.str "a", .sub intDefault)]
        [(Val.str "a", Val.int 1), (Val.str "b", Val.int 1)] [] [] [] []
      = .ok ([Val.str "a"], [(Val.str "a", Val.int 1)], []) ∧
    ([] : List Invalid) =
      [(Val.str "a", EntrySpec.sub intDefault)].filterMap
        (keyedEntryErr [(Val.str "a", Val.int 1), (Val.str "b", Val.int 1)] []) ∧
    keyedFinish false [(Val.str "a", Val.int 1), (Val.str "b", Val.int 1)]
        [Val.str "a"] [(Val.str "a", Val.int 1)] [] []
        (.dict [(.str "a", .int 1), (.str "b", .int 1)])
      = .invalid ((mkInvalid .unconvertedValues []
          ("Unconverted values: " ++ joinNames ["b"]) []
          (some (.dict [(.str "a", .int 1), (.str "b", .int 1)]))).addErrs []) := by
  have hloop : keyedLoop [(Val.str "a", .sub intDefault)]
      [(Val.str "a", Val.int 1), (Val.str "b", Val.int 1)] [] [] [] []
      = .ok ([Val.str "a"], [(Val.str "a", Val.int 1)], []) := by
    simp +decide [intDefault, keyedLoop, convert, commonConvert, sconvert,
      Schema.base, dictInsert] <;> rfl
  refine ⟨hloop, ?_, ?_⟩
  · exact (c6_keyed_dict [(Val.str "a", .sub intDefault)]
      [(Val.str "a", Val.int 1), (Val.str "b", Val.int 1)] []
      ([Val.str "a"], [(Val.str "a", Val.int 1)], [])).1 hloop
  · exact (c6_keyed_dict [(Val.str "a", .sub intDefault)]
      [(Val.str "a", Val.int 1), (Val.str "b", Val.int 1)] []
      ([Val.str "a"], [(Val.str "a", Val.int 1)], [])).2.1
      [Val.str "a"] [(Val.str "a", Val.int 1)] []
      (.dict [(.str "a", .int 1), (.str "b", .int 1)]) ["b"] (by rfl)
      (by intro hx; cases hx)

/-!
Groundwork for the idempotence analysis (claim C4): `pyEq` is
fuel-monotone on `true` and reflexive, and the container helpers behave
as expected.
-/

theorem pyEqF_mono :
    ∀ fu : Nat,
      (∀ a b, pyEqF fu a b = true → pyEqF (fu + 1) a b = true) ∧
      (∀ a b, pyEqLF fu a b = true → pyEqLF (fu + 1) a b = true) ∧
      (∀ a b, pySubsetF fu a b = true → pySubsetF (fu + 1) a b = true) ∧
      (∀ x b, pyMemLF fu x b = true → pyMemLF (fu + 1) x b = true) ∧
      (∀ a b, pyDictLeF fu a b = true → pyDictLeF (fu + 1) a b = true) ∧
      (∀ k v b, pyPairMemF fu k v b = true → pyPairMemF (fu + 1) k v b = true) := by
  intro fu
  induction fu with
  | zero =>
    refine ⟨?_, ?_, ?_, ?_, ?_, ?_⟩ <;> intros <;> simp_all [pyEqF, pyEqLF,
      pySubsetF, pyMemLF, pyDictLeF, pyPairMemF]
  | succ n ih =>
    obtain ⟨ihE, ihL, ihS, ihM, ihD, ihP⟩ := ih
    refine ⟨?_, ?_, ?_, ?_, ?_, ?_⟩
    · intro a b h
      simp only [pyEqF] at h ⊢
      cases a <;> cases b <;>
        first
          | exact h
          | exact ihL _ _ h
          | (simp only [Bool.and_eq_true] at h ⊢
             exact ⟨⟨h.1.1, ihS _ _ h.1.2⟩, ihS _ _ h.2⟩)
          | (simp only [Bool.and_eq_true] at h ⊢
             exact ⟨h.1, ihD _ _ h.2⟩)
    · intro a b h
      simp only [pyEqLF] at h ⊢
      cases a <;> cases b <;>
        first
          | exact h
          | (simp only [Bool.and_eq_true] at h ⊢
             exact ⟨ihE _ _ h.1, ihL _ _ h.2⟩)
    · intro a b h
      simp only [pySubsetF] at h ⊢
      cases a with
      | nil => rfl
      | cons x xs =>
        simp only [Bool.and_eq_true] at h ⊢
        exact ⟨ihM _ _ h.1, ihS _ _ h.2⟩
    · intro x b h
      simp only [pyMemLF] at h ⊢
      cases b with
      | nil => exact h
      | cons y ys =>
        simp only [Bool.or_eq_true] at h ⊢
        rcases h with h | h
        · exact Or.inl (ihE _ _ h)
        · exact Or.inr (ihM _ _ h)
    · intro a b h
      simp only [pyDictLeF] at h ⊢
      cases a with
      | nil => rfl
      | cons kv rest =>
        obtain ⟨k, v⟩ := kv
        simp only [Bool.and_eq_true] at h ⊢
        exact ⟨ihP _ _ _ h.1, ihD _ _ h.2⟩
    · intro k v b h
      simp only [pyPairMemF] at h ⊢
      cases b with
      | nil => exact h
      | cons kw ys =>
        obtain ⟨k2, w⟩ := kw
        simp only [Bool.or_eq_true, Bool.and_eq_true] at h ⊢
        rcases h with ⟨h1, h2⟩ | h
        · exact Or.inl ⟨ihE _ _ h1, ihE _ _ h2⟩
        · exact Or.inr (ihP _ _ _ h)

theorem pyEqF_mono_le {fu fu' : Nat} (h : fu ≤ fu') :
    ∀ a b, pyEqF fu a b = true → pyEqF fu' a b = true := by
  induction h with
  | refl => intro a b h2; exact h2
  | step _ ih =>
    intro a b h2
    exact (pyEqF_mono _).1 _ _ (ih _ _ h2)

theorem pyMemLF_mono_le {fu fu' : Nat} (h : fu ≤ fu') :
    ∀ x b, pyMemLF fu x b = true → pyMemLF fu' x b = true := by
  induction h with
  | refl => intro x b h2; exact h2
  | step _ ih =>
    intro x b h2
    exact (pyEqF_mono _).2.2.2.1 _ _ (ih _ _ h2)

theorem valSize_pos : ∀ a, 1 ≤ valSize a := by
  intro a; cases a <;> simp [valSize]

theorem valSizeL_pos : ∀ l, 1 ≤ valSizeL l := by
  intro l; cases l <;> simp [valSizeL] <;> omega

theorem valSizeD_pos : ∀ l, 1 ≤ valSizeD l := by
  intro l; cases l with
  | nil => simp [valSizeD]
  | cons kv rest => obtain ⟨k, v⟩ := kv; simp [valSizeD]; omega

theorem valSizeL_append : ∀ a b, valSizeL (a ++ b) + 1 = valSizeL a + valSizeL b := by
  intro a b
  induction a with
  | nil => simp [valSizeL]; omega
  | cons x xs ih => simp [valSizeL]; omega

theorem valSizeD_append : ∀ a b, valSizeD (a ++ b) + 1 = valSizeD a + valSizeD b := by
  intro a b
  induction a with
  | nil => simp [valSizeD]; omega
  | cons kv xs ih => obtain ⟨k, v⟩ := kv; simp [valSizeD]; omega

theorem length_lt_valSizeL : ∀ l : List Val, l.length < valSizeL l := by
  intro l
  induction l with
  | nil => simp [valSizeL]
  | cons x xs ih => simp [valSizeL]; have := valSize_pos x; omega

theorem length_lt_valSizeD : ∀ l : List (Val × Val), l.length < valSizeD l := by
  intro l
  induction l with
  | nil => simp [valSizeD]
  | cons kv xs ih =>
    obtain ⟨k, v⟩ := kv
    simp [valSizeD]; have := valSize_pos k; have := valSize_pos v; omega

theorem valSize_lt_of_mem : ∀ {x : Val} {l : List Val}, x ∈ l → valSize x < valSizeL l := by
  intro x l h
  induction l with
  | nil => cases h
  | cons y ys ih =>
    rcases List.mem_cons.mp h with h | h
    · subst h; have := valSizeL_pos ys; simp [valSizeL]; omega
    · have := ih h; simp [valSizeL]; have := valSize_pos y; omega

theorem valSize_lt_of_memD : ∀ {k v : Val} {l : List (Val × Val)}, (k, v) ∈ l →
    valSize k < valSizeD l ∧ valSize v < valSizeD l := by
  intro k v l h
  induction l with
  | nil => cases h
  | cons kv ys ih =>
    obtain ⟨k2, w⟩ := kv
    rcases List.mem_cons.mp h with h | h
    · obtain ⟨h1, h2⟩ := Prod.mk.injEq .. ▸ h
      subst h1; subst h2
      have := valSizeD_pos ys
      have := valSize_pos k; have := valSize_pos v
      constructor <;> (simp [valSizeD]; omega)
    · have := ih h
      have := valSize_pos k2; have := valSize_pos w
      constructor <;> (simp [valSizeD]; omega)

theorem pyEqLF_refl_of (l : List Val)
    (hx : ∀ x ∈ l, ∀ fu, 2 * valSize x ≤ fu → pyEqF fu x x = true) :
    ∀ fu, 2 * valSizeL l ≤ fu → pyEqLF fu l l = true := by
  induction l with
  | nil =>
    intro fu h
    have hfu : 1 ≤ fu := by simp [valSizeL] at h; omega
    match fu, hfu with
    | f + 1, _ => rfl
  | cons x xs ih =>
    intro fu h
    have hL := valSizeL_pos xs
    have hX := valSize_pos x
    have hfu : 1 ≤ fu := by simp [valSizeL] at h; omega
    match fu, hfu, h with
    | f + 1, _, h =>
      simp only [pyEqLF, Bool.and_eq_true]
      constructor
      · exact hx x (List.mem_cons_self ..) f (by simp [valSizeL] at h; omega)
      · exact ih (fun y hy => hx y (List.mem_cons_of_mem _ hy)) f
          (by simp [valSizeL] at h; omega)

theorem pyMemLF_self (x : Val) (l1 l2 : List Val)
    (hx : ∀ fu, 2 * valSize x ≤ fu → pyEqF fu x x = true) :
    ∀ fu, l1.length + 2 * valSize x < fu → pyMemLF fu x (l1 ++ x :: l2) = true := by
  induction l1 with
  | nil =>
    intro fu h
    have hfu : 1 ≤ fu := by have := valSize_pos x; omega
    match fu, hfu, h with
    | f + 1, _, h =>
      simp only [List.nil_append, pyMemLF, Bool.or_eq_true]
      exact Or.inl (hx f (by simp at h; omega))
  | cons y ys ih =>
    intro fu h
    have hfu : 1 ≤ fu := by have := valSize_pos x; omega
    match fu, hfu, h with
    | f + 1, _, h =>
      simp only [List.cons_append, pyMemLF, Bool.or_eq_true]
      exact Or.inr (ih f (by simp at h; omega))

theorem pySubsetF_self (post : List Val) :
    ∀ pre fu, (∀ x ∈ pre ++ post, ∀ fu', 2 * valSize x ≤ fu' → pyEqF fu' x x = true) →
      valSizeL pre + 2 * valSizeL post ≤ fu + 1 → pySubsetF fu post (pre ++ post) = true := by
  induction post with
  | nil =>
    intro pre fu _ h
    have := valSizeL_pos pre
    match fu, (show 1 ≤ fu by simp [valSizeL] at h; omega) with
    | f + 1, _ => rfl
  | cons x rest ih =>
    intro pre fu hx h
    have hpreLen := length_lt_valSizeL pre
    have hrest := valSizeL_pos rest
    have hX := valSize_pos x
    simp only [valSizeL] at h
    match fu, (show 1 ≤ fu by omega) with
    | f + 1, _ =>
      simp only [pySubsetF, Bool.and_eq_true]
      constructor
      · exact pyMemLF_self x pre rest
          (hx x (by simp)) f (by omega)
      · have hre : pre ++ x :: rest = (pre ++ [x]) ++ rest := by simp
        rw [hre]
        refine ih (pre ++ [x]) f (by rw [← hre]; exact hx) ?_
        have := valSizeL_append pre [x]
        simp [valSizeL] at this
        omega

theorem pyPairMemF_self (k v : Val) (l1 l2 : List (Val × Val))
    (hk : ∀ fu, 2 * valSize k ≤ fu → pyEqF fu k k = true)
    (hv : ∀ fu, 2 * valSize v ≤ fu → pyEqF fu v v = true) :
    ∀ fu, l1.length + 2 * valSize k + 2 * valSize v < fu →
      pyPairMemF fu k v (l1 ++ (k, v) :: l2) = true := by
  induction l1 with
  | nil =>
    intro fu h
    have hfu : 1 ≤ fu := by have := valSize_pos k; omega
    match fu, hfu, h with
    | f + 1, _, h =>
      simp only [List.nil_append, pyPairMemF, Bool.or_eq_true, Bool.and_eq_true]
      exact Or.inl ⟨hk f (by simp at h; omega), hv f (by simp at h; omega)⟩
  | cons kv ys ih =>
    obtain ⟨k2, w⟩ := kv
    intro fu h
    have hfu : 1 ≤ fu := by have := valSize_pos k; omega
    match fu, hfu, h with
    | f + 1, _, h =>
      simp only [List.cons_append, pyPairMemF, Bool.or_eq_true]
      exact Or.inr (ih f (by simp at h; omega))

theorem pyDictLeF_self (post : List (Val × Val)) :
    ∀ pre fu,
      (∀ p ∈ pre ++ post, (∀ fu', 2 * valSize p.1 ≤ fu' → pyEqF fu' p.1 p.1 = true) ∧
        (∀ fu', 2 * valSize p.2 ≤ fu' → pyEqF fu' p.2 p.2 = true)) →
      valSizeD pre + 2 * valSizeD post ≤ fu + 1 → pyDictLeF fu post (pre ++ post) = true := by
  induction post with
  | nil =>
    intro pre fu _ h
    have := valSizeD_pos pre
    match fu, (show 1 ≤ fu by simp [valSizeD] at h; omega) with
    | f + 1, _ => rfl
  | cons kv rest ih =>
    obtain ⟨k, v⟩ := kv
    intro pre fu hx h
    have hpreLen := length_lt_valSizeD pre
    have hrest := valSizeD_pos rest
    have hK := valSize_pos k
    have hV := valSize_pos v
    simp only [valSizeD] at h
    match fu, (show 1 ≤ fu by omega) with
    | f + 1, _ =>
      simp only [pyDictLeF, Bool.and_eq_true]
      constructor
      · exact pyPairMemF_self k v pre rest
          (hx (k, v) (by simp)).1 (hx (k, v) (by simp)).2 f (by omega)
      · have hre : pre ++ (k, v) :: rest = (pre ++ [(k, v)]) ++ rest := by simp
        rw [hre]
        refine ih (pre ++ [(k, v)]) f (by rw [← hre]; exact hx) ?_
        have := valSizeD_append pre [(k, v)]
        simp [valSizeD] at this
        omega

theorem pyEqF_refl_master :
    ∀ N a, valSize a ≤ N → ∀ fu, 2 * valSize a ≤ fu → pyEqF fu a a = true := by
  intro N
  induction N with
  | zero => intro a h; have := valSize_pos a; omega
  | succ n ih =>
    intro a hN fu hfu
    have hfu1 : 1 ≤ fu := by have := valSize_pos a; omega
    match fu, hfu1, hfu with
    | f + 1, _, hfu =>
      cases a with
      | none => rfl
      | bool x => simp [pyEqF, numView]
      | int x => simp [pyEqF, numView]
      | float q => simp [pyEqF, numView]
      | inf b => simp [pyEqF]
      | str s => simp [pyEqF]
      | datetime d => simp [pyEqF]
      | list xs =>
        simp only [pyEqF]
        refine pyEqLF_refl_of xs ?_ f ?_
        · intro x hx
          have h1 := valSize_lt_of_mem hx
          exact ih x (by simp [valSize] at hN; omega)
        · simp [valSize] at hfu; omega
      | tuple xs =>
        simp only [pyEqF]
        refine pyEqLF_refl_of xs ?_ f ?_
        · intro x hx
          have h1 := valSize_lt_of_mem hx
          exact ih x (by simp [valSize] at hN; omega)
        · simp [valSize] at hfu; omega
      | set xs =>
        simp only [pyEqF, Bool.and_eq_true, beq_self_eq_true, true_and]
        have hsub : pySubsetF f xs xs = true := by
          have := pySubsetF_self xs [] f ?hx ?hb
          case hx =>
            intro x hx
            simp only [List.nil_append] at hx
            have h1 := valSize_lt_of_mem hx
            exact ih x (by simp [valSize] at hN; omega)
          case hb =>
            simp [valSizeL, valSize] at hfu ⊢; omega
          simpa using this
        exact ⟨hsub, hsub⟩
      | dict xs =>
        simp only [pyEqF, Bool.and_eq_true, beq_self_eq_true, true_and]
        have := pyDictLeF_self xs [] f ?hx ?hb
        case hx =>
          intro p hp
          simp only [List.nil_append] at hp
          obtain ⟨k, v⟩ := p
          have h1 := valSize_lt_of_memD hp
          exact ⟨ih k (by simp [valSize] at hN; omega),
                 ih v (by simp [valSize] at hN; omega)⟩
        case hb =>
          simp [valSizeD, valSize] at hfu ⊢; omega
        simpa using this

theorem pyEqF_refl (a : Val) : ∀ fu, 2 * valSize a ≤ fu → pyEqF fu a a = true :=
  pyEqF_refl_master (valSize a) a le_rfl

theorem pyEq_refl (a : Val) : pyEq a a = true :=
  pyEqF_refl a _ (by omega)

theorem pyMemL_of_mem {x : Val} {l : List Val} (h : x ∈ l) : pyMemL x l = true := by
  obtain ⟨l1, l2, rfl⟩ := List.append_of_mem h
  have hlen := length_lt_valSizeL l1
  have happ := valSizeL_append l1 (x :: l2)
  have hpos := valSizeL_pos l2
  refine pyMemLF_self x l1 l2 (pyEqF_refl x) _ ?_
  simp [valSizeL] at happ ⊢
  omega

/-!
A checker's verdict depends on the value only; the path is threaded purely
into error payloads.  Hence a value that passed a node's validators at one
path passes them at every path.
-/

theorem runValidator_ok_path {val : Validator} {v : Val} {p q : PyPath}
    (h : runValidator val v p = .ok ()) : runValidator val v q = .ok () := by
  cases val with
  | minLength bound =>
    simp only [runValidator] at h ⊢
    rcases hL : pyLen v with _ | L <;> simp only [hL] at h ⊢
    · simp at h
    · rcases hlt : pyLt (.int L) bound with c | b <;> simp only [hlt] at h ⊢
      · simp at h
      · cases b <;> simp_all
  | maxLength bound =>
    simp only [runValidator] at h ⊢
    rcases hL : pyLen v with _ | L <;> simp only [hL] at h ⊢
    · simp at h
    · rcases hlt : pyLt bound (.int L) with c | b <;> simp only [hlt] at h ⊢
      · simp at h
      · cases b <;> simp_all
  | minValue bound =>
    simp only [runValidator] at h ⊢
    rcases hlt : pyLt v bound with c | b <;> simp only [hlt] at h ⊢
    · simp at h
    · cases b <;> simp_all
  | maxValue bound =>
    simp only [runValidator] at h ⊢
    rcases hlt : pyLt bound v with c | b <;> simp only [hlt] at h ⊢
    · simp at h
    · cases b <;> simp_all
  | equals w =>
    simp only [runValidator] at h ⊢
    rcases he : pyEq v w <;> simp only [he] at h ⊢ <;> simp_all
  | inSet choice =>
    simp only [runValidator] at h ⊢
    rcases he : pyMemL v choice <;> simp only [he] at h ⊢ <;> simp_all
  | emailV =>
    cases v
    case str s =>
      simp only [runValidator, emailCheck] at h ⊢
      rcases hm : emailReMatch s <;> simp only [hm] at h ⊢
      · rcases hc : (s.length != 0 && s.toList.contains '@') <;> simp only [hc] at h ⊢
        · simp_all
        · rcases hi : pyIdnaEncode ⟨((splitOnChar '@' s.toList).getLastD [])⟩ with c | u <;>
            simp only [hi] at h <;> simp_all
      · simp_all
    all_goals simp only [runValidator] at h ⊢ <;> simp_all

theorem validatorLoop_acc {vs : List Validator} {ud : Bool} {v : Val} {p : PyPath} :
    ∀ {acc res : List Invalid}, validatorLoop vs ud v p acc = .passed res →
      ∃ extra, res = acc ++ extra := by
  induction vs with
  | nil =>
    intro acc res h
    simp only [validatorLoop] at h
    cases h
    exact ⟨[], by simp⟩
  | cons val rest ih =>
    intro acc res h
    simp only [validatorLoop] at h
    rcases hrv : runValidator val v p with _ | e | c <;> rw [hrv] at h
    · exact ih h
    · rcases hud : ud <;> subst hud
      · simp only [Bool.false_eq_true, if_false] at h
        obtain ⟨extra, he⟩ := ih h
        exact ⟨e :: extra, by simpa using he⟩
      · simp at h
    · simp at h

theorem validatorLoop_path {vs : List Validator} {ud : Bool} {v : Val} {p q : PyPath}
    (h : validatorLoop vs ud v p [] = .passed []) :
    validatorLoop vs ud v q [] = .passed [] := by
  induction vs with
  | nil => rfl
  | cons val rest ih =>
    simp only [validatorLoop] at h ⊢
    rcases hrv : runValidator val v p with u | e | c <;> rw [hrv] at h
    · cases u
      rw [runValidator_ok_path hrv]
      exact ih h
    · rcases hud : ud <;> subst hud
      · simp only [Bool.false_eq_true, if_false] at h
        obtain ⟨extra, he⟩ := validatorLoop_acc h
        simp at he
      · simp at h
    · simp at h

/-!
Above the `valSize` threshold the fuelled `==` family no longer depends on
the exact fuel, so the canonical-fuel wrappers satisfy the expected
one-step unfolding laws.
-/

theorem pyEqF_fuel :
    ∀ n : Nat,
      (∀ fu fu' a b, fu ≤ n → valSize a + valSize b ≤ fu → valSize a + valSize b ≤ fu' →
        pyEqF fu a b = pyEqF fu' a b) ∧
      (∀ fu fu' a b, fu ≤ n → valSizeL a + valSizeL b ≤ fu → valSizeL a + valSizeL b ≤ fu' →
        pyEqLF fu a b = pyEqLF fu' a b) ∧
      (∀ fu fu' a b, fu ≤ n → valSizeL a + valSizeL b ≤ fu → valSizeL a + valSizeL b ≤ fu' →
        pySubsetF fu a b = pySubsetF fu' a b) ∧
      (∀ fu fu' x b, fu ≤ n → valSize x + valSizeL b ≤ fu → valSize x + valSizeL b ≤ fu' →
        pyMemLF fu x b = pyMemLF fu' x b) ∧
      (∀ fu fu' a b, fu ≤ n → valSizeD a + valSizeD b ≤ fu → valSizeD a + valSizeD b ≤ fu' →
        pyDictLeF fu a b = pyDictLeF fu' a b) ∧
      (∀ fu fu' k v b, fu ≤ n → valSize k + valSize v + valSizeD b ≤ fu →
        valSize k + valSize v + valSizeD b ≤ fu' →
        pyPairMemF fu k v b = pyPairMemF fu' k v b) := by
  intro n
  induction n with
  | zero =>
    refine ⟨?_, ?_, ?_, ?_, ?_, ?_⟩
    · intro fu fu' a b hn h1 h2
      have := valSize_pos a; have := valSize_pos b; omega
    · intro fu fu' a b hn h1 h2
      have := valSizeL_pos a; have := valSizeL_pos b; omega
    · intro fu fu' a b hn h1 h2
      have := valSizeL_pos a; have := valSizeL_pos b; omega
    · intro fu fu' x b hn h1 h2
      have := valSize_pos x; have := valSizeL_pos b; omega
    · intro fu fu' a b hn h1 h2
      have := valSizeD_pos a; have := valSizeD_pos b; omega
    · intro fu fu' k v b hn h1 h2
      have := valSize_pos k; have := valSize_pos v; have := valSizeD_pos b; omega
  | succ m ih =>
    obtain ⟨ihE, ihL, ihS, ihM, ihD, ihP⟩ := ih
    refine ⟨?_, ?_, ?_, ?_, ?_, ?_⟩
    · intro fu fu' a b hn h1 h2
      have ha := valSize_pos a; have hb := valSize_pos b
      match fu, fu', (show 1 ≤ fu by omega), (show 1 ≤ fu' by omega) with
      | f + 1, f' + 1, _, _ =>
        cases a <;> cases b <;> simp only [pyEqF] <;>
          first
            | rfl
            | (rename_i x y
               simp only [valSize] at h1 h2
               exact ihL f f' x y (by omega) (by omega) (by omega))
            | (rename_i x y
               simp only [valSize] at h1 h2
               rw [ihS f f' x y (by omega) (by omega) (by omega),
                   ihS f f' y x (by omega) (by omega) (by omega)])
            | (rename_i x y
               simp only [valSize] at h1 h2
               rw [ihD f f' x y (by omega) (by omega) (by omega)])
    · intro fu fu' a b hn h1 h2
      have ha := valSizeL_pos a; have hb := valSizeL_pos b
      match fu, fu', (show 1 ≤ fu by omega), (show 1 ≤ fu' by omega) with
      | f + 1, f' + 1, _, _ =>
        cases a <;> cases b <;> simp only [pyEqLF] <;>
          first
            | rfl
            | (rename_i x xs y ys
               simp only [valSizeL] at h1 h2
               have hx := valSize_pos x; have hy := valSize_pos y
               have hxs := valSizeL_pos xs; have hys := valSizeL_pos ys
               rw [ihE f f' x y (by omega) (by omega) (by omega),
                   ihL f f' xs ys (by omega) (by omega) (by omega)])
    · intro fu fu' a b hn h1 h2
      have ha := valSizeL_pos a; have hb := valSizeL_pos b
      match fu, fu', (show 1 ≤ fu by omega), (show 1 ≤ fu' by omega) with
      | f + 1, f' + 1, _, _ =>
        cases a with
        | nil => rfl
        | cons x xs =>
          simp only [pySubsetF]
          simp only [valSizeL] at h1 h2
          have hx := valSize_pos x; have hxs := valSizeL_pos xs
          rw [ihM f f' x b (by omega) (by omega) (by omega),
              ihS f f' xs b (by omega) (by omega) (by omega)]
    · intro fu fu' x b hn h1 h2
      have ha := valSize_pos x; have hb := valSizeL_pos b
      match fu, fu', (show 1 ≤ fu by omega), (show 1 ≤ fu' by omega) with
      | f + 1, f' + 1, _, _ =>
        cases b with
        | nil => rfl
        | cons y ys =>
          simp only [pyMemLF]
          simp only [valSizeL] at h1 h2
          have hy := valSize_pos y; have hys := valSizeL_pos ys
          rw [ihE f f' x y (by omega) (by omega) (by omega),
              ihM f f' x ys (by omega) (by omega) (by omega)]
    · intro fu fu' a b hn h1 h2
      have ha := valSizeD_pos a; have hb := valSizeD_pos b
      match fu, fu', (show 1 ≤ fu by omega), (show 1 ≤ fu' by omega) with
      | f + 1, f' + 1, _, _ =>
        cases a with
        | nil => rfl
        | cons kv xs =>
          obtain ⟨k, v⟩ := kv
          simp only [pyDictLeF]
          simp only [valSizeD] at h1 h2
          have hk := valSize_pos k; have hv := valSize_pos v
          have hxs := valSizeD_pos xs
          rw [ihP f f' k v b (by omega) (by omega) (by omega),
              ihD f f' xs b (by omega) (by omega) (by omega)]
    · intro fu fu' k v b hn h1 h2
      have ha := valSize_pos k; have hv := valSize_pos v; have hb := valSizeD_pos b
      match fu, fu', (show 1 ≤ fu by omega), (show 1 ≤ fu' by omega) with
      | f + 1, f' + 1, _, _ =>
        cases b with
        | nil => rfl
        | cons kw ys =>
          obtain ⟨k2, w⟩ := kw
          simp only [pyPairMemF]
          simp only [valSizeD] at h1 h2
          have hk2 := valSize_pos k2; have hw := valSize_pos w
          have hys := valSizeD_pos ys
          rw [ihE f f' k k2 (by omega) (by omega) (by omega),
              ihE f f' v w (by omega) (by omega) (by omega),
              ihP f f' k v ys (by omega) (by omega) (by omega)]

theorem pyEqF_canon {fu : Nat} {a b : Val} (h : valSize a + valSize b ≤ fu) :
    pyEqF fu a b = pyEq a b :=
  (pyEqF_fuel fu).1 fu (valSize a + valSize b) a b le_rfl h le_rfl

theorem pyMemLF_canon {fu : Nat} {x : Val} {b : List Val}
    (h : valSize x + valSizeL b ≤ fu) : pyMemLF fu x b = pyMemL x b :=
  (pyEqF_fuel fu).2.2.2.1 fu (valSize x + valSizeL b) x b le_rfl h le_rfl

theorem pyMemL_nil (x : Val) : pyMemL x [] = false := rfl

theorem pyMemL_cons (x y : Val) (ys : List Val) :
    pyMemL x (y :: ys) = (pyEq x y || pyMemL x ys) := by
  have hx := valSize_pos x; have hy := valSize_pos y; have hys := valSizeL_pos ys
  have h1 : valSize x + valSizeL (y :: ys) ≤ valSize x + valSize y + valSizeL ys + 1 + 1 := by
    simp [valSizeL]; omega
  rw [← pyMemLF_canon h1]
  rw [show pyMemLF (valSize x + valSize y + valSizeL ys + 1 + 1) x (y :: ys) =
        (pyEqF (valSize x + valSize y + valSizeL ys + 1) x y ||
         pyMemLF (valSize x + valSize y + valSizeL ys + 1) x ys) from rfl]
  rw [pyEqF_canon (by omega), pyMemLF_canon (by omega)]

theorem pyEq_empty_elim {v : Val} (h : pyEq v (.str "") = true) : v = .str "" := by
  cases v
  case str s => exact congrArg Val.str (eq_of_beq h)
  all_goals exact Bool.noConfusion h

theorem pyEq_empty_of_ne {v : Val} (hne : v ≠ .str "") : pyEq v (.str "") = false := by
  cases he : pyEq v (.str "")
  · rfl
  · exact absurd (pyEq_empty_elim he) hne

theorem pyMemL_append (x : Val) (a b : List Val) :
    pyMemL x (a ++ b) = (pyMemL x a || pyMemL x b) := by
  induction a with
  | nil => simp [pyMemL_nil]
  | cons y ys ih => simp [pyMemL_cons, ih, Bool.or_assoc]

theorem pyLookup_append_left {k : Val} {a : List (Val × Val)} {v : Val}
    (h : pyLookup k a = some v) (b : List (Val × Val)) :
    pyLookup k (a ++ b) = some v := by
  induction a with
  | nil => simp [pyLookup] at h
  | cons kv rest ih =>
    obtain ⟨k2, w⟩ := kv
    simp only [pyLookup, List.cons_append] at h ⊢
    rcases he : pyEq k k2 <;> rw [he] at h <;> simp_all

theorem pyLookup_append_right {k : Val} {a : List (Val × Val)}
    (h : pyLookup k a = Option.none) (b : List (Val × Val)) :
    pyLookup k (a ++ b) = pyLookup k b := by
  induction a with
  | nil => rfl
  | cons kv rest ih =>
    obtain ⟨k2, w⟩ := kv
    simp only [pyLookup, List.cons_append] at h ⊢
    rcases he : pyEq k k2 <;> rw [he] at h <;> simp_all

theorem pyHasKey_append (k : Val) (a b : List (Val × Val)) :
    pyHasKey k (a ++ b) = (pyHasKey k a || pyHasKey k b) := by
  unfold pyHasKey
  rcases h : pyLookup k a with _ | v
  · rw [pyLookup_append_right h]; simp
  · rw [pyLookup_append_left h]; simp

theorem dictInsert_of_not_hasKey {k : Val} {xs : List (Val × Val)}
    (h : pyHasKey k xs = false) (v : Val) : dictInsert xs k v = xs ++ [(k, v)] := by
  induction xs with
  | nil => rfl
  | cons kv rest ih =>
    obtain ⟨k2, w⟩ := kv
    simp only [pyHasKey, pyLookup] at h
    simp only [dictInsert, List.cons_append]
    rcases he : pyEq k k2 <;> rw [he] at h
    · simp only [Bool.false_eq_true, if_false]
      rw [ih (by simpa [pyHasKey] using h)]
    · simp at h

theorem dictInsert_keys_of_hasKey {k : Val} {xs : List (Val × Val)}
    (h : pyHasKey k xs = true) (v : Val) :
    (dictInsert xs k v).map Prod.fst = xs.map Prod.fst := by
  induction xs with
  | nil => simp [pyHasKey, pyLookup] at h
  | cons kv rest ih =>
    obtain ⟨k2, w⟩ := kv
    simp only [pyHasKey, pyLookup] at h
    simp only [dictInsert]
    rcases he : pyEq k k2 <;> rw [he] at h
    · simp only [Bool.false_eq_true, if_false, List.map_cons]
      rw [ih (by simpa [pyHasKey] using h)]
    · simp

theorem dictInsert_mem {xs : List (Val × Val)} {k v a bv : Val}
    (h : (a, bv) ∈ dictInsert xs k v) :
    (a, bv) ∈ xs ∨ (bv = v ∧ (a = k ∨ ∃ c, (a, c) ∈ xs)) := by
  induction xs with
  | nil =>
    simp only [dictInsert, List.mem_singleton] at h
    obtain ⟨h1, h2⟩ := Prod.mk.injEq .. ▸ h
    exact Or.inr ⟨h2, Or.inl h1⟩
  | cons kv rest ih =>
    obtain ⟨k2, w⟩ := kv
    simp only [dictInsert] at h
    rcases he : pyEq k k2 <;> rw [he] at h <;> simp only [if_true, if_false,
      Bool.false_eq_true] at h
    · rcases List.mem_cons.mp h with h | h
      · exact Or.inl (by simp [h])
      · rcases ih h with h | ⟨h1, h2⟩
        · exact Or.inl (List.mem_cons_of_mem _ h)
        · refine Or.inr ⟨h1, ?_⟩
          rcases h2 with h2 | ⟨c, hc⟩
          · exact Or.inl h2
          · exact Or.inr ⟨c, List.mem_cons_of_mem _ hc⟩
    · rcases List.mem_cons.mp h with h | h
      · obtain ⟨h1, h2⟩ := Prod.mk.injEq .. ▸ h
        exact Or.inr ⟨h2, Or.inr ⟨w, by simp [h1]⟩⟩
      · exact Or.inl (List.mem_cons_of_mem _ h)

theorem pyHasKey_map_fst (k : Val) (xs : List (Val × Val)) :
    pyHasKey k xs = pyMemL k (xs.map Prod.fst) := by
  induction xs with
  | nil => simp [pyHasKey, pyLookup, pyMemL_nil]
  | cons kv rest ih =>
    obtain ⟨k2, w⟩ := kv
    simp only [pyHasKey, pyLookup, List.map_cons, pyMemL_cons]
    rcases he : pyEq k k2 <;> simp_all [pyHasKey]

/-- The accumulator discipline of Python `set` insertion: every element is
`==`-fresh relative to the elements before it (prefixed by `pre`). -/
def freshA (pre : List Val) : List Val → Bool
  | [] => true
  | x :: rest => !pyMemL x pre && freshA (pre ++ [x]) rest

theorem freshA_append_one : ∀ (l pre : List Val) (x : Val),
    freshA pre (l ++ [x]) = (freshA pre l && !pyMemL x (pre ++ l)) := by
  intro l
  induction l with
  | nil => intro pre x; simp [freshA]
  | cons y l' ih =>
    intro pre x
    simp only [List.cons_append, List.append_eq, freshA, ih, Bool.and_assoc,
      List.append_assoc, List.singleton_append, List.nil_append]

theorem setFold_fresh : ∀ (xs acc : List Val), freshA [] acc = true →
    freshA [] (List.foldl (fun acc x => if pyMemL x acc then acc else acc ++ [x]) acc xs)
      = true := by
  intro xs
  induction xs with
  | nil => intro acc h; exact h
  | cons x rest ih =>
    intro acc h
    simp only [List.foldl_cons]
    rcases hm : pyMemL x acc
    · simp only [Bool.false_eq_true, if_false]
      refine ih (acc ++ [x]) ?_
      rw [freshA_append_one]
      simp [h, hm]
    · simp only [if_true]
      exact ih acc h

theorem setFold_mem : ∀ (xs acc : List Val) (y : Val),
    y ∈ List.foldl (fun acc x => if pyMemL x acc then acc else acc ++ [x]) acc xs →
    y ∈ acc ∨ y ∈ xs := by
  intro xs
  induction xs with
  | nil => intro acc y h; exact Or.inl h
  | cons x rest ih =>
    intro acc y h
    simp only [List.foldl_cons] at h
    rcases hm : pyMemL x acc <;> rw [hm] at h
    · simp only [Bool.false_eq_true, if_false] at h
      rcases ih (acc ++ [x]) y h with h | h
      · rcases List.mem_append.mp h with h | h
        · exact Or.inl h
        · simp at h; simp [h]
      · simp [h]
    · simp only [if_true] at h
      rcases ih acc y h with h | h
      · exact Or.inl h
      · simp [h]

theorem setFold_of_fresh : ∀ (xs acc : List Val), freshA acc xs = true →
    List.foldl (fun acc x => if pyMemL x acc then acc else acc ++ [x]) acc xs
      = acc ++ xs := by
  intro xs
  induction xs with
  | nil => intro acc _; simp
  | cons x rest ih =>
    intro acc h
    simp only [freshA, Bool.and_eq_true, Bool.not_eq_eq_eq_not, Bool.not_true] at h
    simp only [List.foldl_cons, h.1, Bool.false_eq_true, if_false]
    rw [ih (acc ++ [x]) h.2]
    simp

theorem pySetMk_fresh (xs : List Val) : freshA [] (pySetMk xs) = true :=
  setFold_fresh xs [] rfl

theorem pySetMk_of_fresh {xs : List Val} (h : freshA [] xs = true) : pySetMk xs = xs := by
  unfold pySetMk
  rw [setFold_of_fresh xs [] h]
  simp

theorem pySetMk_idem (xs : List Val) : pySetMk (pySetMk xs) = pySetMk xs :=
  pySetMk_of_fresh (pySetMk_fresh xs)

theorem pySetMk_mem {xs : List Val} {y : Val} (h : y ∈ pySetMk xs) : y ∈ xs := by
  rcases setFold_mem xs [] y h with h | h
  · cases h
  · exact h

theorem dictInsert_keys_fresh {xs : List (Val × Val)} {k : Val}
    (h : freshA [] (xs.map Prod.fst) = true) (v : Val) :
    freshA [] ((dictInsert xs k v).map Prod.fst) = true := by
  rcases hk : pyHasKey k xs
  · rw [dictInsert_of_not_hasKey hk v]
    simp only [List.map_append, List.map_cons, List.map_nil]
    rw [freshA_append_one]
    simp only [List.nil_append, h, Bool.true_and, Bool.not_eq_eq_eq_not, Bool.not_false]
    rw [← pyHasKey_map_fst]
    exact hk
  · rw [dictInsert_keys_of_hasKey hk v]
    exact h

theorem pyLookup_not_found {k : Val} {xs : List (Val × Val)}
    (h : ∀ y ∈ xs.map Prod.fst, pyEq k y = false) : pyLookup k xs = Option.none := by
  induction xs with
  | nil => rfl
  | cons kv rest ih =>
    obtain ⟨k2, w⟩ := kv
    simp only [pyLookup]
    rw [h k2 (by simp)]
    simp only [Bool.false_eq_true, if_false]
    exact ih (fun y hy => h y (by simp [hy]))

theorem pyLookup_self {k w : Val} {l1 : List (Val × Val)}
    (h : pyLookup k l1 = Option.none) (l2 : List (Val × Val)) :
    pyLookup k (l1 ++ (k, w) :: l2) = some w := by
  rw [pyLookup_append_right h]
  simp [pyLookup, pyEq_refl]

/-!
The schema fragment whose conversion is idempotent (the amended claim C4).
Outside the fragment stand the features whose converted output can change
on reconversion: `OneOf` nodes (re-dispatch can pick another branch),
configured defaults, fixed-arity `Set` mode (dedup shrinks the arity and
sets do not slice), plain `String` nodes unless `blank ∧ ¬strip_whitespace`
(decoding can produce `''` or padded text), `Email` with stripping, and
keyed mappings with `==`-duplicate declared keys.
-/

/-- The shared options are idempotence-safe: no configured default (a
default need not be a fixed point of the node). -/
def stableB (b : SBase) : Bool := b.default.isNone

/-- Declared keys of a keyed mapping are pairwise `!=` (both ways, matching
every lookup orientation the loop performs). -/
def keysDistinct : List (Val × EntrySpec) → Bool
  | [] => true
  | (k, _) :: rest =>
    rest.all (fun e => !pyEq k e.1 && !pyEq e.1 k) && keysDistinct rest

mutual

/-- The idempotent fragment of the schema language (claim C4's amended
scope). -/
def stable : Schema → Bool
  | .oneOf _ _ => false
  | .dictS b _ sp => stableB b && stableDS sp
  | .iterS b kind _ sp => stableB b && stableIS kind sp
  | .stringS b blank strip => stableB b && blank && !strip
  | .emailS b _ strip => stableB b && !strip
  | .intS b => stableB b
  | .floatS b => stableB b
  | .boolS b => stableB b
  | .datetimeS b _ => stableB b

def stableDS : Option DictSpec → Bool
  | Option.none => true
  | some d => stableD d

def stableD : DictSpec → Bool
  | .homog ks vs => stable ks && stable vs
  | .keyed es => keysDistinct es && stableE es

def stableE : List (Val × EntrySpec) → Bool
  | [] => true
  | (_, es) :: rest => stableES es && stableE rest

def stableES : EntrySpec → Bool
  | .lit _ => true
  | .sub s => stable s

def stableIS (kind : IterKind) : Option IterSpec → Bool
  | Option.none => true
  | some i => stableI kind i

def stableI (kind : IterKind) : IterSpec → Bool
  | .fixed subs => !(kind == .setK) && stableL subs
  | .homog sub => stable sub

def stableL : List Schema → Bool
  | [] => true
  | s :: rest => stable s && stableL rest

end

/-!
Reusable facts about the base `Schema.convert` wrapper: how it runs on
non-empty values, what its `None` path does, and a generic idempotence
argument parameterised by the node-specific `_convert` behaviour.
-/

theorem commonConvert_run {s : Schema} {v : Val} {p : PyPath} (hne : v ≠ Val.none)
    (hemp : pyEq v (.str "") = false) :
    commonConvert s v p =
      (match sconvert s v p with
       | .ok w =>
         (match validatorLoop s.base.validators s.base.useDefaultForInvalid w p [] with
          | .passed [] => .ok w
          | .passed errs => .invalid (mkInvalid .invalid p "" errs (some w))
          | .defaulted => getDefault s.base p
          | .crashed c => .crash c)
       | .invalid e =>
         if s.base.useDefaultForInvalid then getDefault s.base p else .invalid e
       | .crash c => .crash c) := by
  cases v
  case none => exact absurd rfl hne
  all_goals (simp only [commonConvert, hemp, Bool.false_eq_true, if_false]; try rfl)

theorem commonConvert_none_ok {s : Schema} {q : PyPath} (hnull : s.base.null = true) :
    commonConvert s Val.none q = .ok Val.none := by
  simp only [commonConvert]
  rw [pyEq_empty_of_ne (fun hh => Val.noConfusion hh)]
  simp [hnull]

theorem commonConvert_none_inv {s : Schema} {p : PyPath} {v' : Val}
    (hdef : s.base.default = Option.none)
    (h : commonConvert s Val.none p = .ok v') : s.base.null = true ∧ v' = Val.none := by
  simp only [commonConvert] at h
  rw [pyEq_empty_of_ne (fun hh => Val.noConfusion hh)] at h
  simp only [Bool.false_eq_true, if_false] at h
  rcases hnull : s.base.null <;> rw [hnull] at h
  · rcases hud : s.base.useDefaultForInvalid <;> rw [hud] at h
    · simp at h
    · simp [getDefault, hdef] at h
  · simp only [Bool.not_true, Bool.false_eq_true, if_false] at h
    injection h with hw
    exact ⟨rfl, hw.symm⟩

theorem commonConvert_empty {s : Schema} {v : Val} {p : PyPath}
    (hveq : pyEq v (.str "") = true) :
    commonConvert s v p = commonConvert s Val.none p := by
  simp only [commonConvert, hveq, if_true]
  rw [pyEq_empty_of_ne (fun hh => Val.noConfusion hh)]
  simp only [Bool.false_eq_true, if_false]

theorem commonConvert_idem {s : Schema}
    (hdef : s.base.default = Option.none)
    (hshape : ∀ v1 p1 w, v1 ≠ Val.none → pyEq v1 (.str "") = false →
        sconvert s v1 p1 = .ok w → w ≠ Val.none ∧ pyEq w (.str "") = false)
    (hfix : ∀ v1 p1 w q1, v1 ≠ Val.none → pyEq v1 (.str "") = false →
        sconvert s v1 p1 = .ok w → sconvert s w q1 = .ok w)
    {v v' : Val} {p q : PyPath}
    (h : commonConvert s v p = .ok v') : commonConvert s v' q = .ok v' := by
  rcases hveq : pyEq v (.str "")
  · by_cases hvn : v = Val.none
    · subst hvn
      obtain ⟨hnull, rfl⟩ := commonConvert_none_inv hdef h
      exact commonConvert_none_ok hnull
    · rw [commonConvert_run hvn hveq] at h
      rcases hsc : sconvert s v p with w | e | c <;> rw [hsc] at h
      · rcases hvl : validatorLoop s.base.validators s.base.useDefaultForInvalid w p []
          with errs | _ | c
        · cases errs with
          | nil =>
            simp only [hvl] at h
            injection h with hw
            subst hw
            obtain ⟨hwn, hwe⟩ := hshape v p w hvn hveq hsc
            rw [commonConvert_run hwn hwe]
            simp only [hfix v p w q hvn hveq hsc,
              @validatorLoop_path s.base.validators s.base.useDefaultForInvalid w p q hvl]
          | cons e es => simp only [hvl] at h; simp at h
        · simp only [hvl] at h; simp [getDefault, hdef] at h
        · simp only [hvl] at h; simp at h
      · rcases hud : s.base.useDefaultForInvalid <;> rw [hud] at h
        · simp at h
        · simp [getDefault, hdef] at h
      · simp at h
  · rw [commonConvert_empty hveq] at h
    obtain ⟨hnull, rfl⟩ := commonConvert_none_inv hdef h
    exact commonConvert_none_ok hnull

/-!
Per-node `_convert` output shapes and fixed points (the leaf nodes first).
-/

theorem sconvert_intS_shape {b : SBase} {v1 : Val} {p : PyPath} {w : Val}
    (h : sconvert (.intS b) v1 p = .ok w) : ∃ n, w = Val.int n := by
  simp only [sconvert] at h
  rcases hpi : pyInt v1 with c | n <;> rw [hpi] at h
  · cases c <;> simp at h
  · injection h with hw
    exact ⟨n, hw.symm⟩

theorem sconvert_intS_fix {b : SBase} {n : Int} {q : PyPath} :
    sconvert (.intS b) (.int n) q = .ok (.int n) := by
  simp only [sconvert]
  rfl

theorem pyFloat_shape {v : Val} {fv : Val} (h : pyFloat v = .ok fv) :
    (∃ x, fv = Val.float x) ∨ (∃ b2, fv = Val.inf b2) := by
  cases v
  case str s =>
    simp only [pyFloat] at h
    rcases hinf : parseFloatInfStr s with _ | b2 <;> simp only [hinf] at h
    · rcases hfin : parseFloatStr s with _ | x <;> simp only [hfin] at h
      · simp at h
      · injection h with hw
        exact Or.inl ⟨x, hw.symm⟩
    · injection h with hw
      exact Or.inr ⟨b2, hw.symm⟩
  all_goals
    (simp only [pyFloat] at h
     first
       | (injection h with hw; exact Or.inl ⟨_, hw.symm⟩)
       | (injection h with hw; exact Or.inr ⟨_, hw.symm⟩)
       | simp at h)

theorem sconvert_floatS_shape {b : SBase} {v1 : Val} {p : PyPath} {w : Val}
    (h : sconvert (.floatS b) v1 p = .ok w) :
    (∃ x, w = Val.float x) ∨ (∃ b2, w = Val.inf b2) := by
  simp only [sconvert] at h
  rcases hpf : pyFloat v1 with c | fv <;> rw [hpf] at h
  · cases c <;> simp at h
  · injection h with hw
    exact hw ▸ pyFloat_shape hpf

theorem sconvert_floatS_fix {b : SBase} {x : Rat} {q : PyPath} :
    sconvert (.floatS b) (.float x) q = .ok (.float x) := by
  simp only [sconvert]
  rfl

theorem sconvert_floatS_fix_inf {b : SBase} {x : Bool} {q : PyPath} :
    sconvert (.floatS b) (.inf x) q = .ok (.inf x) := by
  simp only [sconvert]
  rfl

theorem sconvert_boolS_shape {b : SBase} {v1 : Val} {p : PyPath} {w : Val}
    (h : sconvert (.boolS b) v1 p = .ok w) : ∃ x, w = Val.bool x := by
  cases v1 <;> simp only [sconvert] at h <;> injection h with hw <;> exact ⟨_, hw.symm⟩

theorem sconvert_boolS_fix {b : SBase} {x : Bool} {q : PyPath} :
    sconvert (.boolS b) (.bool x) q = .ok (.bool x) := by
  simp only [sconvert]
  rfl

theorem sconvert_datetimeS_shape {b : SBase} {tzA : Bool} {v1 : Val} {p : PyPath} {w : Val}
    (h : sconvert (.datetimeS b tzA) v1 p = .ok w) : ∃ d, w = Val.datetime d := by
  cases v1 <;> simp only [sconvert] at h <;>
    first
      | (injection h with hw; exact ⟨_, hw.symm⟩)
      | (simp only [parse_datetime] at h
         rcases hl : parseDatetimeLoop DATETIME_INPUT_FORMATS _ tzA with _ | d <;>
           rw [hl] at h
         · simp at h
         · injection h with hw
           exact ⟨d, hw.symm⟩)
      | simp at h

theorem sconvert_datetimeS_fix {b : SBase} {tzA : Bool} {d : PyDateTime} {q : PyPath} :
    sconvert (.datetimeS b tzA) (.datetime d) q = .ok (.datetime d) := by
  simp only [sconvert]


theorem convert_intS_idem {b : SBase} (hdef : b.default = Option.none)
    {v v' : Val} {p q : PyPath}
    (h : convert (.intS b) v p = .ok v') : convert (.intS b) v' q = .ok v' := by
  rw [convert_intS] at h
  rw [convert_intS]
  refine commonConvert_idem ?_ ?_ ?_ h
  · exact hdef
  · intro v1 p1 w _ _ hsc
    obtain ⟨n, rfl⟩ := sconvert_intS_shape hsc
    exact ⟨fun hh => Val.noConfusion hh, pyEq_empty_of_ne (fun hh => Val.noConfusion hh)⟩
  · intro v1 p1 w q1 _ _ hsc
    obtain ⟨n, rfl⟩ := sconvert_intS_shape hsc
    exact sconvert_intS_fix

theorem convert_floatS_idem {b : SBase} (hdef : b.default = Option.none)
    {v v' : Val} {p q : PyPath}
    (h : convert (.floatS b) v p = .ok v') : convert (.floatS b) v' q = .ok v' := by
  rw [convert_floatS] at h
  rw [convert_floatS]
  refine commonConvert_idem ?_ ?_ ?_ h
  · exact hdef
  · intro v1 p1 w _ _ hsc
    rcases sconvert_floatS_shape hsc with ⟨x, rfl⟩ | ⟨b2, rfl⟩ <;>
      exact ⟨fun hh => Val.noConfusion hh, pyEq_empty_of_ne (fun hh => Val.noConfusion hh)⟩
  · intro v1 p1 w q1 _ _ hsc
    rcases sconvert_floatS_shape hsc with ⟨x, rfl⟩ | ⟨b2, rfl⟩
    · exact sconvert_floatS_fix
    · exact sconvert_floatS_fix_inf

theorem convert_boolS_idem {b : SBase} (hdef : b.default = Option.none)
    {v v' : Val} {p q : PyPath}
    (h : convert (.boolS b) v p = .ok v') : convert (.boolS b) v' q = .ok v' := by
  rw [convert_boolS] at h
  rw [convert_boolS]
  refine commonConvert_idem ?_ ?_ ?_ h
  · exact hdef
  · intro v1 p1 w _ _ hsc
    obtain ⟨x, rfl⟩ := sconvert_boolS_shape hsc
    exact ⟨fun hh => Val.noConfusion hh, pyEq_empty_of_ne (fun hh => Val.noConfusion hh)⟩
  · intro v1 p1 w q1 _ _ hsc
    obtain ⟨x, rfl⟩ := sconvert_boolS_shape hsc
    exact sconvert_boolS_fix

theorem convert_datetimeS_idem {b : SBase} {tzA : Bool} (hdef : b.default = Option.none)
    {v v' : Val} {p q : PyPath}
    (h : convert (.datetimeS b tzA) v p = .ok v') : convert (.datetimeS b tzA) v' q = .ok v' := by
  rw [convert_datetimeS] at h
  rw [convert_datetimeS]
  refine commonConvert_idem ?_ ?_ ?_ h
  · exact hdef
  · intro v1 p1 w _ _ hsc
    obtain ⟨d, rfl⟩ := sconvert_datetimeS_shape hsc
    exact ⟨fun hh => Val.noConfusion hh, pyEq_empty_of_ne (fun hh => Val.noConfusion hh)⟩
  · intro v1 p1 w q1 _ _ hsc
    obtain ⟨d, rfl⟩ := sconvert_datetimeS_shape hsc
    exact sconvert_datetimeS_fix

theorem sconvert_dictS_none_shape {b : SBase} {ir : Bool} {v1 : Val} {p : PyPath} {w : Val}
    (h : sconvert (.dictS b ir Option.none) v1 p = .ok w) : ∃ xs, w = Val.dict xs := by
  cases v1 <;> simp only [sconvert] at h <;>
    first
      | (injection h with hw; exact ⟨_, hw.symm⟩)
      | simp at h

theorem sconvert_dictS_none_fix {b : SBase} {ir : Bool} {xs : List (Val × Val)} {q : PyPath} :
    sconvert (.dictS b ir Option.none) (.dict xs) q = .ok (.dict xs) := by
  simp only [sconvert]

theorem convert_dictS_none_idem {b : SBase} {ir : Bool} (hdef : b.default = Option.none)
    {v v' : Val} {p q : PyPath}
    (h : convert (.dictS b ir Option.none) v p = .ok v') :
    convert (.dictS b ir Option.none) v' q = .ok v' := by
  rw [convert_dictS] at h
  rw [convert_dictS]
  refine commonConvert_idem ?_ ?_ ?_ h
  · exact hdef
  · intro v1 p1 w _ _ hsc
    obtain ⟨xs, rfl⟩ := sconvert_dictS_none_shape hsc
    exact ⟨fun hh => Val.noConfusion hh, pyEq_empty_of_ne (fun hh => Val.noConfusion hh)⟩
  · intro v1 p1 w q1 _ _ hsc
    obtain ⟨xs, rfl⟩ := sconvert_dictS_none_shape hsc
    exact sconvert_dictS_none_fix

theorem sconvert_iterS_none_shape {b : SBase} {kind : IterKind} {ir : Bool} {v1 : Val}
    {p : PyPath} {w : Val}
    (h : sconvert (.iterS b kind ir Option.none) v1 p = .ok w) :
    ∃ elems, w = mkContainer kind elems := by
  simp only [sconvert] at h
  rcases hio : iterOK v1 with _ | elems <;> rw [hio] at h
  · simp at h
  · injection h with hw
    exact ⟨elems, hw.symm⟩

theorem sconvert_iterS_none_fix {b : SBase} {kind : IterKind} {ir : Bool}
    {elems : List Val} {q : PyPath} :
    sconvert (.iterS b kind ir Option.none) (mkContainer kind elems) q
      = .ok (mkContainer kind elems) := by
  cases kind <;> simp only [sconvert, mkContainer, iterOK, pySetMk_idem]

theorem mkContainer_ne_none {kind : IterKind} {elems : List Val} :
    mkContainer kind elems ≠ Val.none := by
  cases kind <;> exact fun hh => Val.noConfusion hh

theorem mkContainer_ne_empty {kind : IterKind} {elems : List Val} :
    pyEq (mkContainer kind elems) (.str "") = false := by
  cases kind <;> exact pyEq_empty_of_ne (fun hh => Val.noConfusion hh)

theorem convert_iterS_none_idem {b : SBase} {kind : IterKind} {ir : Bool}
    (hdef : b.default = Option.none) {v v' : Val} {p q : PyPath}
    (h : convert (.iterS b kind ir Option.none) v p = .ok v') :
    convert (.iterS b kind ir Option.none) v' q = .ok v' := by
  rw [convert_iterS] at h
  rw [convert_iterS]
  refine commonConvert_idem ?_ ?_ ?_ h
  · exact hdef
  · intro v1 p1 w _ _ hsc
    obtain ⟨elems, rfl⟩ := sconvert_iterS_none_shape hsc
    exact ⟨mkContainer_ne_none, mkContainer_ne_empty⟩
  · intro v1 p1 w q1 _ _ hsc
    obtain ⟨elems, rfl⟩ := sconvert_iterS_none_shape hsc
    exact sconvert_iterS_none_fix

/-!
`str.lower()` facts: lowering is idempotent and length-preserving, so the
`Email` node's lowered output is itself a fixed point of lowering.
-/

theorem lowerChar_idem (c : Char) : lowerChar (lowerChar c) = lowerChar c := by
  unfold lowerChar
  by_cases h : 65 ≤ c.toNat ∧ c.toNat ≤ 90
  · have hcond : ((decide (65 ≤ c.toNat) && decide (c.toNat ≤ 90)) = true) := by
      simp [h.1, h.2]
    have h1 : (Char.ofNat (c.toNat + 32)).toNat = c.toNat + 32 := by
      unfold Char.ofNat
      rw [dif_pos]
      · rfl
      · constructor
        omega
    rw [if_pos hcond, h1]
    rw [if_neg (by simp only [Bool.and_eq_true, decide_eq_true_eq]; omega)]
  · have hcond : ¬((decide (65 ≤ c.toNat) && decide (c.toNat ≤ 90)) = true) := by
      simp only [Bool.and_eq_true, decide_eq_true_eq]
      omega
    rw [if_neg hcond, if_neg hcond]

theorem pyLower_idem (s : String) : pyLower (pyLower s) = pyLower s := by
  unfold pyLower
  rw [show (String.mk (s.toList.map lowerChar)).toList = s.toList.map lowerChar from rfl]
  rw [List.map_map]
  exact congrArg String.mk (List.map_congr_left (fun c _ => lowerChar_idem c))

theorem pyLower_ne_empty {s : String} (h : s ≠ "") : pyLower s ≠ "" := by
  intro he
  apply h
  unfold pyLower at he
  have hd : (s.toList.map lowerChar) = ([] : List Char) := congrArg String.toList he
  have hnil := List.map_eq_nil_iff.mp hd
  cases s with
  | mk data =>
    cases data with
    | nil => rfl
    | cons c cs => simp at hnil

theorem commonConvert_ok_inv {s : Schema} {v : Val} {p : PyPath} {v' : Val}
    (hdef : s.base.default = Option.none)
    (hvn : v ≠ Val.none) (hveq : pyEq v (.str "") = false)
    (h : commonConvert s v p = .ok v') :
    sconvert s v p = .ok v' ∧
    validatorLoop s.base.validators s.base.useDefaultForInvalid v' p [] = .passed [] := by
  rw [commonConvert_run hvn hveq] at h
  rcases hsc : sconvert s v p with w | e | c <;> rw [hsc] at h
  · rcases hvl : validatorLoop s.base.validators s.base.useDefaultForInvalid w p []
      with errs | _ | c
    · cases errs with
      | nil =>
        simp only [hvl] at h
        injection h with hw
        subst hw
        exact ⟨rfl, hvl⟩
      | cons e es => simp only [hvl] at h; simp at h
    · simp only [hvl] at h
      simp [getDefault, hdef] at h
    · simp only [hvl] at h; simp at h
  · rcases hud : s.base.useDefaultForInvalid <;> rw [hud] at h
    · simp at h
    · simp [getDefault, hdef] at h
  · simp at h

theorem commonConvert_ok_build {s : Schema} {v' : Val} {q : PyPath}
    (hvn : v' ≠ Val.none) (hveq : pyEq v' (.str "") = false)
    (hsc : sconvert s v' q = .ok v')
    (hvl : validatorLoop s.base.validators s.base.useDefaultForInvalid v' q [] = .passed []) :
    commonConvert s v' q = .ok v' := by
  rw [commonConvert_run hvn hveq]
  simp only [hsc, hvl]

/-!
The `String`/`Email` overrides: stable configurations are `blank` without
whitespace-stripping for `String`, and no stripping for `Email`.
-/

theorem stringPre_nostrip (blank nullb : Bool) (v : Val) (p : PyPath) :
    stringPre blank nullb false v p =
      if pyEq v (.str "") then
        .error (if blank then .ok v
          else if nullb then .ok Val.none
          else .invalid (mkInvalid .invalid p "This value is required." [] Option.none))
      else .ok v := by
  cases v <;> simp [stringPre]

theorem sconvert_stringS_shape {b : SBase} {bl st : Bool} {v1 : Val} {p : PyPath} {w : Val}
    (h : sconvert (.stringS b bl st) v1 p = .ok w) : ∃ t, w = Val.str t := by
  cases v1 <;> simp only [sconvert] at h <;>
    first
      | (injection h with hw; exact ⟨_, hw.symm⟩)
      | (split at h
         · simp at h
         · split at h
           · injection h with hw; exact ⟨_, hw.symm⟩
           · simp at h)

theorem sconvert_stringS_fix {b : SBase} {bl st : Bool} {t : String} {q : PyPath} :
    sconvert (.stringS b bl st) (.str t) q = .ok (.str t) := by
  simp only [sconvert]

theorem convert_stringS_idem {b : SBase} (hdef : b.default = Option.none)
    {v v' : Val} {p q : PyPath}
    (h : convert (.stringS b true false) v p = .ok v') :
    convert (.stringS b true false) v' q = .ok v' := by
  have hdefS : (Schema.base (.stringS b true false)).default = Option.none := hdef
  rw [convert_stringS] at h
  rw [convert_stringS]
  rw [stringPre_nostrip] at h
  rw [stringPre_nostrip]
  rcases hveq : pyEq v (.str "") <;> rw [hveq] at h
  · simp only [Bool.false_eq_true, if_false] at h
    by_cases hvn : v = Val.none
    · subst hvn
      obtain ⟨hnull, rfl⟩ := commonConvert_none_inv hdefS h
      rw [pyEq_empty_of_ne (fun hh => Val.noConfusion hh)]
      simp only [Bool.false_eq_true, if_false]
      exact commonConvert_none_ok hnull
    · obtain ⟨hsc, hvl⟩ := commonConvert_ok_inv hdefS hvn hveq h
      obtain ⟨t2, rfl⟩ := sconvert_stringS_shape hsc
      by_cases ht2 : t2 = ""
      · subst ht2
        rw [show pyEq (Val.str "") (.str "") = true from rfl]
        simp
      · rw [pyEq_empty_of_ne (fun hh => ht2 (Val.str.injEq .. ▸ hh))]
        simp only [Bool.false_eq_true, if_false]
        exact commonConvert_ok_build (fun hh => Val.noConfusion hh)
          (pyEq_empty_of_ne (fun hh => ht2 (Val.str.injEq .. ▸ hh)))
          sconvert_stringS_fix (validatorLoop_path hvl)
  · simp only [if_true] at h
    injection h with hw
    subst hw
    have hv : v = .str "" := pyEq_empty_elim hveq
    subst hv
    rw [show pyEq (Val.str "") (.str "") = true from rfl]
    simp

theorem sconvert_emailS_inv {b : SBase} {bl st : Bool} {v1 : Val} {p : PyPath} {w : Val}
    (h : sconvert (.emailS b bl st) v1 p = .ok w) :
    ∃ t, v1 = Val.str t ∧ w = Val.str (pyLower t) := by
  cases v1 <;> simp only [sconvert] at h <;>
    first
      | (injection h with hw; exact ⟨_, rfl, hw.symm⟩)
      | simp at h

theorem sconvert_emailS_fix {b : SBase} {bl st : Bool} {t : String} {q : PyPath} :
    sconvert (.emailS b bl st) (.str (pyLower t)) q = .ok (.str (pyLower t)) := by
  simp only [sconvert, pyLower_idem]

theorem convert_emailS_idem {b : SBase} {blank : Bool} (hdef : b.default = Option.none)
    {v v' : Val} {p q : PyPath}
    (h : convert (.emailS b blank false) v p = .ok v') :
    convert (.emailS b blank false) v' q = .ok v' := by
  have hdefE : (Schema.base (.emailS b blank false)).default = Option.none := hdef
  rw [convert_emailS] at h
  rw [convert_emailS]
  rw [stringPre_nostrip] at h
  rw [stringPre_nostrip]
  rcases hveq : pyEq v (.str "") <;> rw [hveq] at h
  · simp only [Bool.false_eq_true, if_false] at h
    by_cases hvn : v = Val.none
    · subst hvn
      obtain ⟨hnull, rfl⟩ := commonConvert_none_inv hdefE h
      rw [pyEq_empty_of_ne (fun hh => Val.noConfusion hh)]
      simp only [Bool.false_eq_true, if_false]
      exact commonConvert_none_ok hnull
    · obtain ⟨hsc, hvl⟩ := commonConvert_ok_inv hdefE hvn hveq h
      obtain ⟨t, hv1, rfl⟩ := sconvert_emailS_inv hsc
      subst hv1
      have ht : t ≠ "" := fun hh => by rw [hh] at hveq; exact Bool.noConfusion hveq
      have hlow : pyLower t ≠ "" := pyLower_ne_empty ht
      rw [pyEq_empty_of_ne (fun hh => hlow (Val.str.injEq .. ▸ hh))]
      simp only [Bool.false_eq_true, if_false]
      exact commonConvert_ok_build (fun hh => Val.noConfusion hh)
        (pyEq_empty_of_ne (fun hh => hlow (Val.str.injEq .. ▸ hh)))
        sconvert_emailS_fix (validatorLoop_path hvl)
  · simp only [if_true] at h
    rcases hbl : blank <;> rw [hbl] at h
    · rcases hnull : b.null <;> rw [hnull] at h
      · simp at h
      · injection h with hw
        subst hw
        rw [pyEq_empty_of_ne (fun hh => Val.noConfusion hh)]
        simp only [Bool.false_eq_true, if_false]
        exact commonConvert_none_ok hnull
    · injection h with hw
      subst hw
      have hv : v = .str "" := pyEq_empty_elim hveq
      subst hv
      rw [show pyEq (Val.str "") (.str "") = true from rfl]
      simp

/-!
Success facts and reruns of the element loops: a successful loop converts
elements pointwise, and rerunning it on pointwise-fixed elements
reproduces the output.
-/

theorem homogLoop_ok_facts (sub : Schema) :
    ∀ (items : List Val) (i : Nat) (p : PyPath) (res0 : List Val)
      (errs0 : List Invalid) (res' : List Val),
      homogLoop sub items i p res0 errs0 = .ok (res', []) →
      errs0 = [] ∧ ∃ ws, res' = res0 ++ ws ∧
        ∀ w ∈ ws, ∃ x pp, convert sub x pp = .ok w := by
  intro items
  induction items with
  | nil =>
    intro i p res0 errs0 res' h
    simp only [homogLoop] at h
    injection h with hpair
    obtain ⟨h1, h2⟩ := Prod.mk.injEq .. ▸ hpair
    exact ⟨h2, [], by simp [h1.symm]⟩
  | cons x xs ih =>
    intro i p res0 errs0 res' h
    simp only [homogLoop] at h
    rcases hc : convert sub x (p ++ [.int i]) with w | e | c <;> simp only [hc] at h
    · obtain ⟨he, ws', hres, hmem⟩ := ih (i + 1) p (res0 ++ [w]) errs0 res' h
      refine ⟨he, w :: ws', by simp [hres], ?_⟩
      intro w2 hw2
      rcases List.mem_cons.mp hw2 with hw2 | hw2
      · exact ⟨x, p ++ [.int i], hw2 ▸ hc⟩
      · exact hmem w2 hw2
    · obtain ⟨he, _⟩ := ih (i + 1) p res0 (errs0 ++ [e]) res' h
      simp at he
    · simp at h

theorem homogLoop_rerun (sub : Schema) :
    ∀ (ws : List Val) (i : Nat) (q : PyPath) (res0 : List Val),
      (∀ w ∈ ws, ∀ pp, convert sub w pp = .ok w) →
      homogLoop sub ws i q res0 [] = .ok (res0 ++ ws, []) := by
  intro ws
  induction ws with
  | nil => intro i q res0 _; simp only [homogLoop]; simp
  | cons w ws' ih =>
    intro i q res0 hfix
    simp only [homogLoop]
    rw [hfix w (List.mem_cons_self ..)]
    show homogLoop sub ws' (i + 1) q (res0 ++ [w]) [] = _
    rw [ih (i + 1) q (res0 ++ [w]) (fun w2 hw2 => hfix w2 (List.mem_cons_of_mem _ hw2))]
    simp

theorem fixedLoop_ok_facts :
    ∀ (subs : List Schema) (items : List Val) (i : Nat) (p : PyPath) (res0 : List Val)
      (errs0 : List Invalid) (res' : List Val),
      items.length = subs.length →
      fixedLoop subs items i p res0 errs0 = .ok (res', []) →
      errs0 = [] ∧ ∃ ws, res' = res0 ++ ws ∧
        List.Forall₂ (fun (sub : Schema) w => ∃ x pp, convert sub x pp = .ok w) subs ws := by
  intro subs
  induction subs with
  | nil =>
    intro items i p res0 errs0 res' hlen h
    cases items with
    | nil =>
      simp only [fixedLoop] at h
      injection h with hpair
      obtain ⟨h1, h2⟩ := Prod.mk.injEq .. ▸ hpair
      exact ⟨h2, [], by simp [h1.symm], List.Forall₂.nil⟩
    | cons x xs => simp at hlen
  | cons sub subs' ih =>
    intro items i p res0 errs0 res' hlen h
    cases items with
    | nil => simp at hlen
    | cons x xs =>
      simp only [fixedLoop] at h
      rcases hc : convert sub x (p ++ [.int i]) with w | e | c <;> simp only [hc] at h
      · obtain ⟨he, ws', hres, hfa⟩ := ih xs (i + 1) p (res0 ++ [w]) errs0 res'
          (by simpa using hlen) h
        exact ⟨he, w :: ws', by simp [hres],
          List.Forall₂.cons ⟨x, p ++ [.int i], hc⟩ hfa⟩
      · obtain ⟨he, _⟩ := ih xs (i + 1) p res0 (errs0 ++ [e]) res'
          (by simpa using hlen) h
        simp at he
      · simp at h

theorem fixedLoop_rerun :
    ∀ {subs : List Schema} {ws : List Val},
      List.Forall₂ (fun (sub : Schema) w => ∀ pp, convert sub w pp = .ok w) subs ws →
      ∀ (i : Nat) (q : PyPath) (res0 : List Val),
      fixedLoop subs ws i q res0 [] = .ok (res0 ++ ws, []) := by
  intro subs ws h
  induction h with
  | nil => intro i q res0; simp only [fixedLoop]; simp
  | cons hfix _ ih =>
    intro i q res0
    simp only [fixedLoop]
    rename_i sub w subs' ws' _
    rw [hfix]
    show fixedLoop subs' ws' (i + 1) q (res0 ++ [w]) [] = _
    rw [ih (i + 1) q (res0 ++ [w])]
    simp

theorem dictHomogLoop_ok_facts (ks vs : Schema) :
    ∀ (items : List (Val × Val)) (lk : Option Val) (res0 : List (Val × Val)) (p : PyPath)
      (orig : Val) (res' : List (Val × Val)),
      dictHomogLoop ks vs items lk res0 p orig = .ok res' →
      (∀ a b2, (a, b2) ∈ res0 →
        (∃ x pp, convert ks x pp = .ok a) ∧ (∃ y pp, convert vs y pp = .ok b2)) →
      freshA [] (res0.map Prod.fst) = true →
      (∀ a b2, (a, b2) ∈ res' →
        (∃ x pp, convert ks x pp = .ok a) ∧ (∃ y pp, convert vs y pp = .ok b2)) ∧
      freshA [] (res'.map Prod.fst) = true := by
  intro items
  induction items with
  | nil =>
    intro lk res0 p orig res' h hinv hfresh
    simp only [dictHomogLoop] at h
    injection h with hres
    subst hres
    exact ⟨hinv, hfresh⟩
  | cons kv rest ih =>
    obtain ⟨k, val⟩ := kv
    intro lk res0 p orig res' h hinv hfresh
    simp only [dictHomogLoop] at h
    rcases hk : convert ks k (p ++ [k]) with rk | e | c <;> simp only [hk] at h
    · rcases hv : convert vs val (p ++ [k]) with w | e | c <;> simp only [hv] at h
      · simp only [List.isEmpty_nil, if_true] at h
        refine ih (some rk) (dictInsert res0 rk w) p orig res' h ?_ ?_
        · intro a b2 hab
          rcases dictInsert_mem hab with hab | ⟨hb2, hka⟩
          · exact hinv a b2 hab
          · subst hb2
            refine ⟨?_, ⟨val, p ++ [k], hv⟩⟩
            rcases hka with rfl | ⟨c2, hc2⟩
            · exact ⟨k, p ++ [k], hk⟩
            · exact (hinv a c2 hc2).1
        · exact dictInsert_keys_fresh hfresh w
      · simp at h
      · simp at h
    · rcases hv : convert vs val (p ++ [k]) with w | e2 | c <;> simp only [hv] at h
      · cases lk <;> simp at h
      · simp at h
      · simp at h
    · simp at h

theorem dictHomogLoop_rerun (ks vs : Schema) :
    ∀ (items : List (Val × Val)) (lk : Option Val) (res0 : List (Val × Val)) (q : PyPath)
      (orig : Val),
      (∀ a b2, (a, b2) ∈ items →
        (∀ pp, convert ks a pp = .ok a) ∧ (∀ pp, convert vs b2 pp = .ok b2)) →
      freshA (res0.map Prod.fst) (items.map Prod.fst) = true →
      dictHomogLoop ks vs items lk res0 q orig = .ok (res0 ++ items) := by
  intro items
  induction items with
  | nil =>
    intro lk res0 q orig _ _
    simp only [dictHomogLoop]
    simp
  | cons kv rest ih =>
    obtain ⟨k, w⟩ := kv
    intro lk res0 q orig hfix hfresh
    simp only [List.map_cons, freshA, Bool.and_eq_true, Bool.not_eq_eq_eq_not,
      Bool.not_true] at hfresh
    have hnk : pyHasKey k res0 = false := by
      rw [pyHasKey_map_fst]
      exact hfresh.1
    simp only [dictHomogLoop]
    rw [(hfix k w (List.mem_cons_self ..)).1 (q ++ [k])]
    rw [(hfix k w (List.mem_cons_self ..)).2 (q ++ [k])]
    show (if (List.isEmpty []) = true then
        dictHomogLoop ks vs rest (some k) (dictInsert res0 k w) q orig
      else _) = _
    simp only [List.isEmpty_nil, if_true]
    rw [dictInsert_of_not_hasKey hnk w]
    rw [ih (some k) (res0 ++ [(k, w)]) q orig
      (fun a b2 hab => hfix a b2 (List.mem_cons_of_mem _ hab))
      (by simpa using hfresh.2)]
    simp

/-!
Keyed-mode machinery: what a successful declared-entry loop stored, and
why rerunning it on its own output reproduces that output when the
declared keys are pairwise distinct.
-/

theorem pyMemL_true_iff {x : Val} {l : List Val} :
    pyMemL x l = true ↔ ∃ y ∈ l, pyEq x y = true := by
  induction l with
  | nil => simp [pyMemL_nil]
  | cons y ys ih =>
    rw [pyMemL_cons]
    simp only [Bool.or_eq_true, ih, List.mem_cons]
    constructor
    · rintro (h | ⟨z, hz, he⟩)
      · exact ⟨y, Or.inl rfl, h⟩
      · exact ⟨z, Or.inr hz, he⟩
    · rintro ⟨z, hz | hz, he⟩
      · exact Or.inl (hz ▸ he)
      · exact Or.inr ⟨z, hz, he⟩

theorem pyMemL_false_of {x : Val} {l : List Val}
    (h : ∀ y ∈ l, pyEq x y = false) : pyMemL x l = false := by
  rcases hm : pyMemL x l
  · rfl
  · obtain ⟨y, hy, he⟩ := pyMemL_true_iff.mp hm
    rw [h y hy] at he
    exact he.symm

/-- The distinctness relation on declared keys, as a `Pairwise` predicate. -/
def keyNE (a b : Val) : Prop := pyEq a b = false ∧ pyEq b a = false

theorem keyNE_symm : Symmetric keyNE := fun _ _ h => ⟨h.2, h.1⟩

theorem keysDistinct_pairwise {entries : List (Val × EntrySpec)}
    (h : keysDistinct entries = true) : (entries.map Prod.fst).Pairwise keyNE := by
  induction entries with
  | nil => exact List.Pairwise.nil
  | cons kv rest ih =>
    obtain ⟨k, spec⟩ := kv
    simp only [keysDistinct, Bool.and_eq_true, List.all_eq_true] at h
    refine List.pairwise_cons.mpr ⟨?_, ih h.2⟩
    intro y hy
    obtain ⟨⟨k2, s2⟩, hmem, rfl⟩ := List.mem_map.mp hy
    have := h.1 (k2, s2) hmem
    simp only [Bool.and_eq_true, Bool.not_eq_eq_eq_not, Bool.not_true] at this
    exact ⟨this.1, this.2⟩

theorem pyLookup_of_pairwise {δ : List (Val × Val)}
    (hp : (δ.map Prod.fst).Pairwise keyNE) {k x : Val} (hmem : (k, x) ∈ δ) :
    pyLookup k δ = some x := by
  induction δ with
  | nil => cases hmem
  | cons kv rest ih =>
    obtain ⟨k2, y⟩ := kv
    simp only [List.map_cons, List.pairwise_cons] at hp
    rcases List.mem_cons.mp hmem with hmem | hmem
    · obtain ⟨h1, h2⟩ := Prod.mk.injEq .. ▸ hmem
      subst h1; subst h2
      simp [pyLookup, pyEq_refl]
    · have hk2 : pyEq k k2 = false := by
        have hkmem : k ∈ rest.map Prod.fst := List.mem_map.mpr ⟨(k, x), hmem, rfl⟩
        exact (hp.1 k hkmem).2
      simp only [pyLookup, hk2, Bool.false_eq_true, if_false]
      exact ih hp.2 hmem

theorem pyHasKey_false_of {k : Val} {xs : List (Val × Val)}
    (h : ∀ y ∈ xs.map Prod.fst, pyEq k y = false) : pyHasKey k xs = false := by
  rw [pyHasKey_map_fst]
  exact pyMemL_false_of h

/-- What one successful keyed-mode pass over `input` recorded: the seen
keys `σ` and the stored entries `δ`, in declaration order. -/
inductive KeyedOut (input : List (Val × Val)) :
    List (Val × EntrySpec) → List Val → List (Val × Val) → Prop where
  | nil : KeyedOut input [] [] []
  | lit {key litv cur : Val} {rest : List (Val × EntrySpec)} {σ : List Val}
      {δ : List (Val × Val)} :
      pyLookup key input = some cur → pyEq litv cur = true →
      KeyedOut input rest σ δ →
      KeyedOut input ((key, .lit litv) :: rest) (key :: σ) ((key, cur) :: δ)
  | subSkip {key : Val} {sch : Schema} {rest : List (Val × EntrySpec)} {σ : List Val}
      {δ : List (Val × Val)} :
      sch.base.optional = true → pyHasKey key input = false →
      KeyedOut input rest σ δ →
      KeyedOut input ((key, .sub sch) :: rest) σ δ
  | subConv {key cur w : Val} {sch : Schema} {rest : List (Val × EntrySpec)} {σ : List Val}
      {δ : List (Val × Val)} :
      pyLookup key input = some cur → (∃ pp, convert sch cur pp = .ok w) →
      KeyedOut input rest σ δ →
      KeyedOut input ((key, .sub sch) :: rest) (key :: σ) ((key, w) :: δ)

theorem keyedOut_sublist {input : List (Val × Val)} {entries : List (Val × EntrySpec)}
    {σ : List Val} {δ : List (Val × Val)} (h : KeyedOut input entries σ δ) :
    (δ.map Prod.fst).Sublist (entries.map Prod.fst) := by
  induction h with
  | nil => exact List.Sublist.refl _
  | lit _ _ _ ih => exact List.Sublist.cons₂ _ ih
  | subSkip _ _ _ ih => exact List.Sublist.cons _ ih
  | subConv _ _ _ ih => exact List.Sublist.cons₂ _ ih

theorem keyedOut_seen_sublist {input : List (Val × Val)} {entries : List (Val × EntrySpec)}
    {σ : List Val} {δ : List (Val × Val)} (h : KeyedOut input entries σ δ) :
    σ.Sublist (entries.map Prod.fst) := by
  induction h with
  | nil => exact List.Sublist.refl _
  | lit _ _ _ ih => exact List.Sublist.cons₂ _ ih
  | subSkip _ _ _ ih => exact List.Sublist.cons _ ih
  | subConv _ _ _ ih => exact List.Sublist.cons₂ _ ih

theorem keyedOut_stored_mem {input : List (Val × Val)} {entries : List (Val × EntrySpec)}
    {σ : List Val} {δ : List (Val × Val)} (h : KeyedOut input entries σ δ) :
    ∀ y x, (y, x) ∈ δ →
      (∃ spec, (y, spec) ∈ entries) ∧ pyHasKey y input = true ∧ y ∈ σ := by
  induction h with
  | nil => intro y x hm; cases hm
  | lit hlk _ _ ih =>
    intro y x hm
    rcases List.mem_cons.mp hm with hm | hm
    · obtain ⟨h1, h2⟩ := Prod.mk.injEq .. ▸ hm
      subst h1
      exact ⟨⟨_, List.mem_cons_self ..⟩, by simp [pyHasKey, hlk], List.mem_cons_self ..⟩
    · obtain ⟨⟨spec, hs⟩, hk, hσ⟩ := ih y x hm
      exact ⟨⟨spec, List.mem_cons_of_mem _ hs⟩, hk, List.mem_cons_of_mem _ hσ⟩
  | subSkip _ _ _ ih =>
    intro y x hm
    obtain ⟨⟨spec, hs⟩, hk, hσ⟩ := ih y x hm
    exact ⟨⟨spec, List.mem_cons_of_mem _ hs⟩, hk, hσ⟩
  | subConv hlk _ _ ih =>
    intro y x hm
    rcases List.mem_cons.mp hm with hm | hm
    · obtain ⟨h1, h2⟩ := Prod.mk.injEq .. ▸ hm
      subst h1
      exact ⟨⟨_, List.mem_cons_self ..⟩, by simp [pyHasKey, hlk], List.mem_cons_self ..⟩
    · obtain ⟨⟨spec, hs⟩, hk, hσ⟩ := ih y x hm
      exact ⟨⟨spec, List.mem_cons_of_mem _ hs⟩, hk, List.mem_cons_of_mem _ hσ⟩

theorem entries_unique {entries : List (Val × EntrySpec)}
    (hd : keysDistinct entries = true) :
    ∀ key s1 s2, (key, s1) ∈ entries → (key, s2) ∈ entries → s1 = s2 := by
  induction entries with
  | nil => intro key s1 s2 h1; cases h1
  | cons kv rest ih =>
    obtain ⟨k, s⟩ := kv
    simp only [keysDistinct, Bool.and_eq_true, List.all_eq_true] at hd
    intro key s1 s2 h1 h2
    rcases List.mem_cons.mp h1 with h1a | h1b
    · obtain ⟨ha, hb⟩ := Prod.mk.injEq .. ▸ h1a
      rcases List.mem_cons.mp h2 with h2a | h2b
      · obtain ⟨hc, hdd⟩ := Prod.mk.injEq .. ▸ h2a
        rw [hb, hdd]
      · have hne := hd.1 (key, s2) h2b
        simp only [Bool.and_eq_true, Bool.not_eq_eq_eq_not, Bool.not_true] at hne
        rw [← ha] at hne
        exact absurd (pyEq_refl key) (by simp [hne.1])
    · rcases List.mem_cons.mp h2 with h2a | h2b
      · obtain ⟨hc, hdd⟩ := Prod.mk.injEq .. ▸ h2a
        have hne := hd.1 (key, s1) h1b
        simp only [Bool.and_eq_true, Bool.not_eq_eq_eq_not, Bool.not_true] at hne
        rw [← hc] at hne
        exact absurd (pyEq_refl key) (by simp [hne.1])
      · exact ih hd.2 key s1 s2 h1b h2b

theorem keyedOut_stored_conv {input : List (Val × Val)} {entries : List (Val × EntrySpec)}
    {σ : List Val} {δ : List (Val × Val)} (h : KeyedOut input entries σ δ) :
    ∀ key w, (key, w) ∈ δ →
      (∃ litv, (key, EntrySpec.lit litv) ∈ entries) ∨
      (∃ sch cur pp, (key, EntrySpec.sub sch) ∈ entries ∧ convert sch cur pp = .ok w) := by
  induction h with
  | nil => intro key w hm; cases hm
  | lit hlk hpe _ ih =>
    intro key w hm
    rcases List.mem_cons.mp hm with hm | hm
    · obtain ⟨h1, h2⟩ := Prod.mk.injEq .. ▸ hm
      subst h1
      exact Or.inl ⟨_, List.mem_cons_self ..⟩
    · rcases ih key w hm with ⟨litv, hl⟩ | ⟨sch, cur, pp, hs, hc⟩
      · exact Or.inl ⟨litv, List.mem_cons_of_mem _ hl⟩
      · exact Or.inr ⟨sch, cur, pp, List.mem_cons_of_mem _ hs, hc⟩
  | subSkip _ _ _ ih =>
    intro key w hm
    rcases ih key w hm with ⟨litv, hl⟩ | ⟨sch, cur, pp, hs, hc⟩
    · exact Or.inl ⟨litv, List.mem_cons_of_mem _ hl⟩
    · exact Or.inr ⟨sch, cur, pp, List.mem_cons_of_mem _ hs, hc⟩
  | subConv hlk hcw _ ih =>
    intro key w hm
    rcases List.mem_cons.mp hm with hm | hm
    · obtain ⟨h1, h2⟩ := Prod.mk.injEq .. ▸ hm
      subst h1
      obtain ⟨pp, hc⟩ := hcw
      exact Or.inr ⟨_, _, pp, List.mem_cons_self .., h2 ▸ hc⟩
    · rcases ih key w hm with ⟨litv, hl⟩ | ⟨sch, cur, pp, hs, hc⟩
      · exact Or.inl ⟨litv, List.mem_cons_of_mem _ hl⟩
      · exact Or.inr ⟨sch, cur, pp, List.mem_cons_of_mem _ hs, hc⟩

theorem keyedLoop_ok_keyedOut :
    ∀ (entries : List (Val × EntrySpec)) (input : List (Val × Val)) (p : PyPath)
      (seen0 : List Val) (res0 : List (Val × Val)) (seen : List Val)
      (res : List (Val × Val)),
      (∀ key sch, (key, EntrySpec.sub sch) ∈ entries → sch.base.default = Option.none) →
      (∀ kv ∈ entries, pyHasKey kv.1 res0 = false) →
      keysDistinct entries = true →
      keyedLoop entries input p seen0 res0 [] = .ok (seen, res, []) →
      ∃ σ δ, KeyedOut input entries σ δ ∧ seen = seen0 ++ σ ∧ res = res0 ++ δ := by
  intro entries
  induction entries with
  | nil =>
    intro input p seen0 res0 seen res _ _ _ h
    rw [keyedLoop] at h
    injection h with htrip
    obtain ⟨h1, h2⟩ := Prod.mk.injEq .. ▸ htrip
    obtain ⟨h3, h4⟩ := Prod.mk.injEq .. ▸ h2
    exact ⟨[], [], KeyedOut.nil, by simp [h1.symm], by simp [h3.symm]⟩
  | cons kv rest ih =>
    obtain ⟨key, spec⟩ := kv
    intro input p seen0 res0 seen res hdefs hfresh hdist h
    have hdist' : keysDistinct rest = true := by
      simp only [keysDistinct, Bool.and_eq_true, List.all_eq_true] at hdist
      exact hdist.2
    have hdistH := by
      simp only [keysDistinct, Bool.and_eq_true, List.all_eq_true] at hdist
      exact hdist.1
    have hfreshH : pyHasKey key res0 = false := hfresh (key, spec) (List.mem_cons_self ..)
    cases spec with
    | lit litv =>
      rw [keyedLoop] at h
      rcases hl : pyLookup key input with _ | cur <;> simp only [hl] at h
      · have := keyedLoop_errors input p rest _ _ _ _ h
        simp at this
      · by_cases hne : (!pyEq litv cur) = true
        · rw [if_pos hne] at h
          have := keyedLoop_errors input p rest _ _ _ _ h
          simp at this
        · rw [if_neg hne] at h
          rw [dictInsert_of_not_hasKey hfreshH cur] at h
          have hfresh2 : ∀ kv2 ∈ rest, pyHasKey kv2.1 (res0 ++ [(key, cur)]) = false := by
            intro kv2 hm
            rw [pyHasKey_append]
            have hd2 := hdistH kv2 hm
            simp only [Bool.and_eq_true, Bool.not_eq_eq_eq_not, Bool.not_true] at hd2
            rw [hfresh kv2 (List.mem_cons_of_mem _ hm)]
            simp [pyHasKey, pyLookup, hd2.2]
          obtain ⟨σ', δ', ho, hseen, hres⟩ := ih input p (seen0 ++ [key])
            (res0 ++ [(key, cur)]) seen res
            (fun k2 sch2 hm => hdefs k2 sch2 (List.mem_cons_of_mem _ hm))
            hfresh2 hdist' h
          exact ⟨key :: σ', (key, cur) :: δ',
            KeyedOut.lit hl (by simpa using hne) ho, by simp [hseen], by simp [hres]⟩
    | sub sch =>
      rw [keyedLoop] at h
      by_cases hskip : (sch.base.optional && !pyHasKey key input) = true
      · rw [if_pos hskip] at h
        obtain ⟨σ', δ', ho, hseen, hres⟩ := ih input p seen0 res0 seen res
          (fun k2 sch2 hm => hdefs k2 sch2 (List.mem_cons_of_mem _ hm))
          (fun kv2 hm => hfresh kv2 (List.mem_cons_of_mem _ hm)) hdist' h
        simp only [Bool.and_eq_true, Bool.not_eq_eq_eq_not, Bool.not_true] at hskip
        exact ⟨σ', δ', KeyedOut.subSkip hskip.1 hskip.2 ho, hseen, hres⟩
      · rw [if_neg hskip] at h
        rcases hl : pyLookup key input with _ | cur <;> simp only [hl] at h
        · rw [hdefs key sch (List.mem_cons_self ..)] at h
          simp only [Option.isSome_none, Bool.false_eq_true, if_false] at h
          have := keyedLoop_errors input p rest _ _ _ _ h
          simp at this
        · rcases hc : convert sch cur (p ++ [key]) with w | e | c <;> simp only [hc] at h
          · rw [dictInsert_of_not_hasKey hfreshH w] at h
            have hfresh2 : ∀ kv2 ∈ rest, pyHasKey kv2.1 (res0 ++ [(key, w)]) = false := by
              intro kv2 hm
              rw [pyHasKey_append]
              have hd2 := hdistH kv2 hm
              simp only [Bool.and_eq_true, Bool.not_eq_eq_eq_not, Bool.not_true] at hd2
              rw [hfresh kv2 (List.mem_cons_of_mem _ hm)]
              simp [pyHasKey, pyLookup, hd2.2]
            obtain ⟨σ', δ', ho, hseen, hres⟩ := ih input p (seen0 ++ [key])
              (res0 ++ [(key, w)]) seen res
              (fun k2 sch2 hm => hdefs k2 sch2 (List.mem_cons_of_mem _ hm))
              hfresh2 hdist' h
            exact ⟨key :: σ', (key, w) :: δ',
              KeyedOut.subConv hl ⟨p ++ [key], hc⟩ ho, by simp [hseen], by simp [hres]⟩
          · have := keyedLoop_errors input p rest _ _ _ _ h
            simp at this
          · simp at h

theorem keyedLoop_rerun {R : List (Val × Val)} :
    ∀ {input : List (Val × Val)} {entries : List (Val × EntrySpec)} {σ : List Val}
      {δ : List (Val × Val)},
      KeyedOut input entries σ δ →
      (δ.map Prod.fst).Pairwise keyNE →
      (∀ k x, (k, x) ∈ δ → pyLookup k R = some x) →
      (∀ key sch, (key, EntrySpec.sub sch) ∈ entries → pyHasKey key input = false →
        pyHasKey key R = false) →
      (∀ key sch w, (key, EntrySpec.sub sch) ∈ entries → (key, w) ∈ δ →
        ∀ pp, convert sch w pp = .ok w) →
      ∀ (q : PyPath) (seen0 : List Val) (res0 : List (Val × Val)),
        (∀ k ∈ δ.map Prod.fst, pyHasKey k res0 = false) →
        keyedLoop entries R q seen0 res0 [] = .ok (seen0 ++ σ, res0 ++ δ, []) := by
  intro input entries σ δ ho
  induction ho with
  | nil =>
    intro _ _ _ _ q seen0 res0 _
    rw [keyedLoop]
    simp
  | lit hlk hpe ho' ih =>
    rename_i key litv cur rest σ1 δ1
    intro hpw P1 P3 P5 q seen0 res0 hres0
    rw [keyedLoop]
    simp only [P1 key cur (List.mem_cons_self ..), hpe, Bool.not_true, Bool.false_eq_true,
      if_false]
    simp only [List.map_cons, List.pairwise_cons] at hpw
    have hne : pyHasKey key res0 = false := hres0 key (by simp)
    rw [dictInsert_of_not_hasKey hne]
    rw [ih hpw.2 (fun k x hm => P1 k x (List.mem_cons_of_mem _ hm))
      (fun k2 s2 hm ha => P3 k2 s2 (List.mem_cons_of_mem _ hm) ha)
      (fun k2 s2 w2 hm hmd => P5 k2 s2 w2 (List.mem_cons_of_mem _ hm)
        (List.mem_cons_of_mem _ hmd))
      q (seen0 ++ [key]) (res0 ++ [(key, cur)]) ?_]
    · simp
    · intro k hk
      rw [pyHasKey_append]
      rw [hres0 k (by simp [hk])]
      have hknekey := (hpw.1 k hk).2
      simp [pyHasKey, pyLookup, hknekey]
  | subSkip hopt hnik ho' ih =>
    rename_i key sch rest σ1 δ1
    intro hpw P1 P3 P5 q seen0 res0 hres0
    rw [keyedLoop]
    have hcond : (sch.base.optional && !pyHasKey key R) = true := by
      rw [hopt, P3 key sch (List.mem_cons_self ..) hnik]
      rfl
    rw [if_pos hcond]
    exact ih hpw P1
      (fun k2 s2 hm ha => P3 k2 s2 (List.mem_cons_of_mem _ hm) ha)
      (fun k2 s2 w2 hm hmd => P5 k2 s2 w2 (List.mem_cons_of_mem _ hm) hmd)
      q seen0 res0 hres0
  | subConv hlk hcw ho' ih =>
    rename_i key cur w sch rest σ1 δ1
    intro hpw P1 P3 P5 q seen0 res0 hres0
    rw [keyedLoop]
    have hlkR := P1 key w (List.mem_cons_self ..)
    have hhk : pyHasKey key R = true := by simp [pyHasKey, hlkR]
    rw [if_neg (by simp [hhk])]
    simp only [hlkR]
    rw [P5 key sch w (List.mem_cons_self ..) (List.mem_cons_self ..)]
    simp only [List.map_cons, List.pairwise_cons] at hpw
    have hne : pyHasKey key res0 = false := hres0 key (by simp)
    show keyedLoop rest R q (seen0 ++ [key]) (dictInsert res0 key w) [] = _
    rw [dictInsert_of_not_hasKey hne]
    rw [ih hpw.2 (fun k x hm => P1 k x (List.mem_cons_of_mem _ hm))
      (fun k2 s2 hm ha => P3 k2 s2 (List.mem_cons_of_mem _ hm) ha)
      (fun k2 s2 w2 hm hmd => P5 k2 s2 w2 (List.mem_cons_of_mem _ hm)
        (List.mem_cons_of_mem _ hmd))
      q (seen0 ++ [key]) (res0 ++ [(key, w)]) ?_]
    · simp
    · intro k hk
      rw [pyHasKey_append]
      rw [hres0 k (by simp [hk])]
      have hknekey := (hpw.1 k hk).2
      simp [pyHasKey, pyLookup, hknekey]

/-!
Inversion lemmas for the composite `_convert`s, and facts about the
`stable` fragment.
-/

theorem iterFinish_ok_inv {kind : IterKind} {res : List Val} {errs : List Invalid}
    {p : PyPath} {orig : Val} {w : Val} (h : iterFinish kind res errs p orig = .ok w) :
    errs = [] ∧ w = mkContainer kind res := by
  unfold iterFinish at h
  rcases he : errs.isEmpty <;> rw [he] at h
  · simp at h
  · simp only [if_true] at h
    injection h with hw
    exact ⟨List.isEmpty_iff.mp he, hw.symm⟩

theorem keyedFinish_ok_inv {ir : Bool} {input : List (Val × Val)} {seen : List Val}
    {res : List (Val × Val)} {errs : List Invalid} {p : PyPath} {orig : Val} {w : Val}
    (h : keyedFinish ir input seen res errs p orig = .ok w) :
    errs = [] ∧ w = .dict res := by
  unfold keyedFinish at h
  by_cases h1 : (!ir && !(((input.map Prod.fst).filter (fun k => !pyMemL k seen)).isEmpty))
      = true
  · rw [if_pos h1] at h
    rcases hj : joinKeys ((input.map Prod.fst).filter (fun k => !pyMemL k seen))
      with c | names <;> rw [hj] at h
    · simp at h
    · rcases he : errs.isEmpty <;> rw [he] at h <;> simp at h
  · rw [if_neg h1] at h
    rcases he : errs.isEmpty <;> rw [he] at h
    · simp at h
    · simp only [if_true] at h
      injection h with hw
      exact ⟨List.isEmpty_iff.mp he, hw.symm⟩

theorem keyedFinish_rerun {ir : Bool} {δ : List (Val × Val)} {σ : List Val}
    {q : PyPath} {orig : Val}
    (hmem : ∀ y ∈ δ.map Prod.fst, pyMemL y σ = true) :
    keyedFinish ir δ σ δ [] q orig = .ok (.dict δ) := by
  have hex : (δ.map Prod.fst).filter (fun k => !pyMemL k σ) = [] := by
    refine List.filter_eq_nil_iff.mpr ?_
    intro a ha
    simp [hmem a ha]
  unfold keyedFinish
  rw [hex]
  simp

theorem sconvert_dict_homog_inv {b : SBase} {ir : Bool} {ks vs : Schema} {v1 : Val}
    {p : PyPath} {w : Val}
    (h : sconvert (.dictS b ir (some (.homog ks vs))) v1 p = .ok w) :
    ∃ items res, v1 = .dict items ∧
      dictHomogLoop ks vs items Option.none [] p v1 = .ok res ∧ w = .dict res := by
  cases v1
  case dict items =>
    simp only [sconvert] at h
    rcases hl : dictHomogLoop ks vs items Option.none [] p (.dict items) with res | e | c <;>
      simp only [hl] at h
    · injection h with hw
      exact ⟨items, res, rfl, hl, hw.symm⟩
    · simp at h
    · simp at h
  all_goals (simp only [sconvert] at h; simp at h)

theorem sconvert_dict_keyed_inv {b : SBase} {ir : Bool} {es : List (Val × EntrySpec)}
    {v1 : Val} {p : PyPath} {w : Val}
    (h : sconvert (.dictS b ir (some (.keyed es))) v1 p = .ok w) :
    ∃ items seen res, v1 = .dict items ∧
      keyedLoop es items p [] [] [] = .ok (seen, res, []) ∧ w = .dict res := by
  cases v1
  case dict items =>
    simp only [sconvert] at h
    rcases hl : keyedLoop es items p [] [] [] with tri | e | c <;> simp only [hl] at h
    · obtain ⟨seen, res, errs⟩ := tri
      obtain ⟨herrs, hw⟩ := keyedFinish_ok_inv h
      subst herrs
      exact ⟨items, seen, res, rfl, hl, hw⟩
    · simp at h
    · simp at h
  all_goals (simp only [sconvert] at h; simp at h)

theorem sconvert_iter_fixed_inv {b : SBase} {kind : IterKind} {ir : Bool}
    {subs : List Schema} {v1 : Val} {p : PyPath} {w : Val}
    (h : sconvert (.iterS b kind ir (some (.fixed subs))) v1 p = .ok w) :
    ∃ elems checked res, iterOK v1 = some elems ∧
      (if ir then pySlice v1 subs.length else .ok elems) = .ok checked ∧
      checked.length = subs.length ∧ fixedLoop subs checked 0 p [] [] = .ok (res, []) ∧
      w = mkContainer kind res := by
  simp only [sconvert] at h
  rcases hio : iterOK v1 with _ | elems <;> simp only [hio] at h
  · simp at h
  · rcases hsl : (if ir then pySlice v1 subs.length else .ok elems) with c | checked <;>
      rw [hsl] at h
    · simp at h
    · simp only [] at h
      rcases hlen : (checked.length != subs.length) <;> rw [hlen] at h
      · simp only [Bool.false_eq_true, if_false] at h
        rcases hfl : fixedLoop subs checked 0 p [] [] with pr | e | c <;> simp only [hfl] at h
        · obtain ⟨res, errs⟩ := pr
          obtain ⟨herrs, hw⟩ := iterFinish_ok_inv h
          subst herrs
          exact ⟨elems, checked, res, rfl, hsl, by simpa using hlen, hfl, hw⟩
        · simp at h
        · simp at h
      · simp only [if_true] at h
        obtain ⟨herrs, _⟩ := iterFinish_ok_inv h
        simp at herrs

theorem sconvert_iter_homog_inv {b : SBase} {kind : IterKind} {ir : Bool}
    {sub : Schema} {v1 : Val} {p : PyPath} {w : Val}
    (h : sconvert (.iterS b kind ir (some (.homog sub))) v1 p = .ok w) :
    ∃ elems res, iterOK v1 = some elems ∧
      homogLoop sub elems 0 p [] [] = .ok (res, []) ∧ w = mkContainer kind res := by
  simp only [sconvert] at h
  rcases hio : iterOK v1 with _ | elems <;> simp only [hio] at h
  · simp at h
  · rcases hfl : homogLoop sub elems 0 p [] [] with pr | e | c <;> simp only [hfl] at h
    · obtain ⟨res, errs⟩ := pr
      obtain ⟨herrs, hw⟩ := iterFinish_ok_inv h
      subst herrs
      exact ⟨elems, res, rfl, hfl, hw⟩
    · simp at h
    · simp at h

theorem stable_default {s : Schema} (h : stable s = true) :
    (Schema.base s).default = Option.none := by
  cases s <;> simp only [stable, stableB, Bool.and_eq_true, Option.isNone_iff_eq_none,
    Schema.base] at h ⊢ <;> tauto

theorem stableE_mem {es : List (Val × EntrySpec)} (h : stableE es = true) :
    ∀ key sch, (key, EntrySpec.sub sch) ∈ es → stable sch = true := by
  induction es with
  | nil => intro key sch hm; cases hm
  | cons kv rest ih =>
    obtain ⟨k, spec⟩ := kv
    intro key sch hm
    simp only [stableE] at h
    rcases List.mem_cons.mp hm with hma | hmb
    · obtain ⟨h1, h2⟩ := Prod.mk.injEq .. ▸ hma
      cases spec with
      | lit litv => exact absurd h2.symm (by intro hh; exact EntrySpec.noConfusion hh)
      | sub s2 =>
        injection h2.symm with hs2
        subst hs2
        simp only [stableES, Bool.and_eq_true] at h
        exact h.1
    · cases spec with
      | lit litv =>
        simp only [stableES, Bool.true_and] at h
        exact ih h key sch hmb
      | sub s2 =>
        simp only [stableES, Bool.and_eq_true] at h
        exact ih h.2 key sch hmb

theorem stableL_mem {subs : List Schema} (h : stableL subs = true) :
    ∀ sub ∈ subs, stable sub = true := by
  induction subs with
  | nil => intro sub hm; cases hm
  | cons s rest ih =>
    intro sub hm
    simp only [stableL, Bool.and_eq_true] at h
    rcases List.mem_cons.mp hm with hm | hm
    · exact hm ▸ h.1
    · exact ih h.2 sub hm

theorem sizeOf_entry_sub {es : List (Val × EntrySpec)} {key : Val} {sch : Schema}
    (h : (key, EntrySpec.sub sch) ∈ es) : sizeOf sch < sizeOf es := by
  have h1 := List.sizeOf_lt_of_mem h
  simp at h1
  omega

theorem forall2_fix_of {n : Nat}
    (ih : ∀ s2, sizeOf s2 ≤ n → stable s2 = true →
      ∀ (v v' : Val) (p q : PyPath), convert s2 v p = .ok v' → convert s2 v' q = .ok v') :
    ∀ {subs : List Schema} {ws : List Val},
      List.Forall₂ (fun (sub : Schema) w => ∃ x pp, convert sub x pp = .ok w) subs ws →
      stableL subs = true → (∀ sub ∈ subs, sizeOf sub ≤ n) →
      List.Forall₂ (fun (sub : Schema) w => ∀ pp, convert sub w pp = .ok w) subs ws := by
  intro subs ws hfa
  induction hfa with
  | nil => intro _ _; exact List.Forall₂.nil
  | cons hpair htail ihf =>
    rename_i sub w subs' ws'
    intro hstl hsz
    simp only [stableL, Bool.and_eq_true] at hstl
    obtain ⟨x, pp, hc⟩ := hpair
    exact List.Forall₂.cons
      (fun pp2 => ih sub (hsz sub (List.mem_cons_self ..)) hstl.1 x w pp pp2 hc)
      (ihf hstl.2 (fun s2 hm => hsz s2 (List.mem_cons_of_mem _ hm)))

theorem sconvert_iter_fixed_fix {b : SBase} {kind : IterKind} {ir : Bool}
    {subs : List Schema} {ws : List Val} {q1 : PyPath}
    (hkind : kind ≠ IterKind.setK)
    (hlen : ws.length = subs.length)
    (hfix : List.Forall₂ (fun (sub : Schema) w => ∀ pp, convert sub w pp = .ok w) subs ws) :
    sconvert (.iterS b kind ir (some (.fixed subs))) (mkContainer kind ws) q1
      = .ok (mkContainer kind ws) := by
  cases kind
  case setK => exact absurd rfl hkind
  case listK =>
    simp only [mkContainer, sconvert, iterOK]
    have hchk : (if ir then pySlice (.list ws) subs.length else Except.ok ws)
        = Except.ok ws := by
      cases ir
      · rfl
      · simp only [if_true, pySlice]
        rw [← hlen, List.take_length]
    rw [hchk]
    show (if (ws.length != subs.length) = true then _ else _) = _
    rw [hlen]
    simp only [bne_self_eq_false, Bool.false_eq_true, if_false]
    rw [fixedLoop_rerun hfix 0 q1 []]
    show iterFinish .listK ([] ++ ws) [] q1 (.list ws) = _
    simp [iterFinish, mkContainer]
  case tupleK =>
    simp only [mkContainer, sconvert, iterOK]
    have hchk : (if ir then pySlice (.tuple ws) subs.length else Except.ok ws)
        = Except.ok ws := by
      cases ir
      · rfl
      · simp only [if_true, pySlice]
        rw [← hlen, List.take_length]
    rw [hchk]
    show (if (ws.length != subs.length) = true then _ else _) = _
    rw [hlen]
    simp only [bne_self_eq_false, Bool.false_eq_true, if_false]
    rw [fixedLoop_rerun hfix 0 q1 []]
    show iterFinish .tupleK ([] ++ ws) [] q1 (.tuple ws) = _
    simp [iterFinish, mkContainer]

theorem sconvert_iter_homog_fix {b : SBase} {kind : IterKind} {ir : Bool}
    {sub : Schema} {res : List Val} {q1 : PyPath}
    (hfix : ∀ w ∈ res, ∀ pp, convert sub w pp = .ok w) :
    sconvert (.iterS b kind ir (some (.homog sub))) (mkContainer kind res) q1
      = .ok (mkContainer kind res) := by
  cases kind
  case listK =>
    simp only [mkContainer, sconvert, iterOK]
    rw [homogLoop_rerun sub res 0 q1 [] hfix]
    show iterFinish .listK ([] ++ res) [] q1 (.list res) = _
    simp [iterFinish, mkContainer]
  case tupleK =>
    simp only [mkContainer, sconvert, iterOK]
    rw [homogLoop_rerun sub res 0 q1 [] hfix]
    show iterFinish .tupleK ([] ++ res) [] q1 (.tuple res) = _
    simp [iterFinish, mkContainer]
  case setK =>
    simp only [mkContainer, sconvert, iterOK]
    rw [homogLoop_rerun sub (pySetMk res) 0 q1 []
      (fun w hm => hfix w (pySetMk_mem hm))]
    show iterFinish .setK ([] ++ pySetMk res) [] q1 (.set (pySetMk res)) = _
    simp [iterFinish, mkContainer, pySetMk_idem]

/-!
The idempotence theorem for the stable fragment, by strong induction on
the schema size.
-/

theorem stable_convert_idem_master :
    ∀ (N : Nat) (s : Schema), sizeOf s ≤ N → stable s = true →
      ∀ (v v' : Val) (p q : PyPath), convert s v p = .ok v' → convert s v' q = .ok v' := by
  intro N
  induction N with
  | zero =>
    intro s hle
    exfalso
    cases s <;> simp at hle
  | succ n ih =>
    intro s hle hst v v' p q h
    cases s with
    | oneOf b c => simp [stable] at hst
    | intS b =>
      simp only [stable, stableB, Option.isNone_iff_eq_none] at hst
      exact convert_intS_idem hst h
    | floatS b =>
      simp only [stable, stableB, Option.isNone_iff_eq_none] at hst
      exact convert_floatS_idem hst h
    | boolS b =>
      simp only [stable, stableB, Option.isNone_iff_eq_none] at hst
      exact convert_boolS_idem hst h
    | datetimeS b tzA =>
      simp only [stable, stableB, Option.isNone_iff_eq_none] at hst
      exact convert_datetimeS_idem hst h
    | stringS b blank strip =>
      simp only [stable, stableB, Bool.and_eq_true, Option.isNone_iff_eq_none,
        Bool.not_eq_eq_eq_not, Bool.not_true] at hst
      obtain ⟨⟨hdef, hbl⟩, hstr⟩ := hst
      subst hbl
      subst hstr
      exact convert_stringS_idem hdef h
    | emailS b blank strip =>
      simp only [stable, stableB, Bool.and_eq_true, Option.isNone_iff_eq_none,
        Bool.not_eq_eq_eq_not, Bool.not_true] at hst
      obtain ⟨hdef, hstr⟩ := hst
      subst hstr
      exact convert_emailS_idem hdef h
    | dictS b ir sp =>
      cases sp with
      | none =>
        simp only [stable, stableDS, stableB, Bool.and_eq_true,
          Option.isNone_iff_eq_none] at hst
        exact convert_dictS_none_idem hst.1 h
      | some d =>
        cases d with
        | homog ks vs =>
          simp only [stable, stableDS, stableD, stableB, Bool.and_eq_true,
            Option.isNone_iff_eq_none] at hst
          obtain ⟨hdef, hks, hvs⟩ := hst
          have hszk : sizeOf ks ≤ n := by simp at hle; omega
          have hszv : sizeOf vs ≤ n := by simp at hle; omega
          rw [convert_dictS] at h
          rw [convert_dictS]
          refine commonConvert_idem ?_ ?_ ?_ h
          · exact hdef
          · intro v1 p1 w _ _ hsc
            obtain ⟨items, res, rfl, hl, rfl⟩ := sconvert_dict_homog_inv hsc
            exact ⟨fun hh => Val.noConfusion hh,
              pyEq_empty_of_ne (fun hh => Val.noConfusion hh)⟩
          · intro v1 p1 w q1 _ _ hsc
            obtain ⟨items, res, rfl, hl, rfl⟩ := sconvert_dict_homog_inv hsc
            obtain ⟨hmem2, hfr⟩ := dictHomogLoop_ok_facts ks vs items Option.none [] p1
              (.dict items) res hl (by intro a b2 hab; cases hab) rfl
            simp only [sconvert]
            rw [dictHomogLoop_rerun ks vs res Option.none [] q1 (.dict res) ?_ ?_]
            · rfl
            · intro a b2 hab
              obtain ⟨⟨x, pp, hca⟩, ⟨y, pp2, hcb⟩⟩ := hmem2 a b2 hab
              exact ⟨fun pp3 => ih ks hszk hks x a pp pp3 hca,
                     fun pp3 => ih vs hszv hvs y b2 pp2 pp3 hcb⟩
            · simpa using hfr
        | keyed es =>
          simp only [stable, stableDS, stableD, stableB, Bool.and_eq_true,
            Option.isNone_iff_eq_none] at hst
          obtain ⟨hdef, hdist, hstE⟩ := hst
          have hdefsub : ∀ key sch, (key, EntrySpec.sub sch) ∈ es →
              sch.base.default = Option.none :=
            fun key sch hm => stable_default (stableE_mem hstE key sch hm)
          have hsz : ∀ key sch, (key, EntrySpec.sub sch) ∈ es → sizeOf sch ≤ n := by
            intro key sch hm
            have h1 := sizeOf_entry_sub hm
            simp at hle
            omega
          rw [convert_dictS] at h
          rw [convert_dictS]
          refine commonConvert_idem ?_ ?_ ?_ h
          · exact hdef
          · intro v1 p1 w _ _ hsc
            obtain ⟨items, seen, res, rfl, hl, rfl⟩ := sconvert_dict_keyed_inv hsc
            exact ⟨fun hh => Val.noConfusion hh,
              pyEq_empty_of_ne (fun hh => Val.noConfusion hh)⟩
          · intro v1 p1 w q1 _ _ hsc
            obtain ⟨items, seen, res, rfl, hl, rfl⟩ := sconvert_dict_keyed_inv hsc
            obtain ⟨σ, δ, ho, hseen, hres⟩ := keyedLoop_ok_keyedOut es items p1 [] [] seen
              res hdefsub (by intro kv hm; rfl) hdist hl
            simp only [List.nil_append] at hseen hres
            subst hseen
            subst hres
            have hpwE := keysDistinct_pairwise hdist
            have hpwD : (res.map Prod.fst).Pairwise keyNE :=
              hpwE.sublist (keyedOut_sublist ho)
            have P1 : ∀ k x, (k, x) ∈ res → pyLookup k res = some x :=
              fun k x hm => pyLookup_of_pairwise hpwD hm
            have P3 : ∀ key sch, (key, EntrySpec.sub sch) ∈ es →
                pyHasKey key items = false → pyHasKey key res = false := by
              intro key sch hm habs
              refine pyHasKey_false_of ?_
              intro y hy
              obtain ⟨⟨y2, x⟩, hmd, rfl⟩ := List.mem_map.mp hy
              obtain ⟨⟨spec, hspec⟩, hkin, _⟩ := keyedOut_stored_mem ho y2 x hmd
              have hne : key ≠ (y2, x).1 := by
                intro hh
                rw [hh] at habs
                rw [habs] at hkin
                exact Bool.noConfusion hkin
              have hkeymem : key ∈ es.map Prod.fst :=
                List.mem_map.mpr ⟨(key, .sub sch), hm, rfl⟩
              have hymem : (y2, x).1 ∈ es.map Prod.fst :=
                List.mem_map.mpr ⟨(y2, spec), hspec, rfl⟩
              exact (List.Pairwise.forall keyNE_symm hpwE hkeymem hymem hne).1
            have P5 : ∀ key sch w2, (key, EntrySpec.sub sch) ∈ es → (key, w2) ∈ res →
                ∀ pp, convert sch w2 pp = .ok w2 := by
              intro key sch w2 hm hmd pp
              rcases keyedOut_stored_conv ho key w2 hmd with ⟨litv, hml⟩ |
                ⟨sch', cur, pp0, hms, hcv⟩
              · have := entries_unique hdist key _ _ hml hm
                exact absurd this (by intro hh; exact EntrySpec.noConfusion hh)
              · have hspeceq := entries_unique hdist key _ _ hms hm
                injection hspeceq with hscheq
                subst hscheq
                exact ih sch' (hsz key sch' hm) (stableE_mem hstE key sch' hm)
                  cur w2 pp0 pp hcv
            simp only [sconvert]
            rw [keyedLoop_rerun ho hpwD P1 P3 P5 q1 [] [] (fun k hk => rfl)]
            show keyedFinish ir res ([] ++ seen) ([] ++ res) [] q1 (.dict res) = _
            simp only [List.nil_append]
            exact keyedFinish_rerun (by
              intro y hy
              obtain ⟨⟨y2, x⟩, hmd, rfl⟩ := List.mem_map.mp hy
              exact pyMemL_of_mem (keyedOut_stored_mem ho _ x hmd).2.2)
    | iterS b kind ir sp =>
      cases sp with
      | none =>
        simp only [stable, stableIS, stableB, Bool.and_eq_true,
          Option.isNone_iff_eq_none] at hst
        exact convert_iterS_none_idem hst.1 h
      | some isp =>
        cases isp with
        | fixed subs =>
          simp only [stable, stableIS, stableI, stableB, Bool.and_eq_true,
            Option.isNone_iff_eq_none, Bool.not_eq_eq_eq_not, Bool.not_true,
            beq_eq_false_iff_ne] at hst
          obtain ⟨hdef, hkind, hstL⟩ := hst
          have hsz : ∀ sub ∈ subs, sizeOf sub ≤ n := by
            intro sub hm
            have h1 := List.sizeOf_lt_of_mem hm
            simp at hle
            omega
          rw [convert_iterS] at h
          rw [convert_iterS]
          refine commonConvert_idem ?_ ?_ ?_ h
          · exact hdef
          · intro v1 p1 w _ _ hsc
            obtain ⟨elems, checked, res, h1, h2, h3, h4, rfl⟩ := sconvert_iter_fixed_inv hsc
            exact ⟨mkContainer_ne_none, mkContainer_ne_empty⟩
          · intro v1 p1 w q1 _ _ hsc
            obtain ⟨elems, checked, res, hio, hsl, hlen, hfl, rfl⟩ :=
              sconvert_iter_fixed_inv hsc
            obtain ⟨_, ws, hres, hfa⟩ := fixedLoop_ok_facts subs checked 0 p1 [] [] res
              hlen hfl
            simp only [List.nil_append] at hres
            subst hres
            have hws_len : res.length = subs.length := (List.Forall₂.length_eq hfa).symm
            exact sconvert_iter_fixed_fix hkind hws_len (forall2_fix_of ih hfa hstL hsz)
        | homog sub =>
          simp only [stable, stableIS, stableI, stableB, Bool.and_eq_true,
            Option.isNone_iff_eq_none] at hst
          obtain ⟨hdef, hstS⟩ := hst
          have hszs : sizeOf sub ≤ n := by simp at hle; omega
          rw [convert_iterS] at h
          rw [convert_iterS]
          refine commonConvert_idem ?_ ?_ ?_ h
          · exact hdef
          · intro v1 p1 w _ _ hsc
            obtain ⟨elems, res, h1, h2, rfl⟩ := sconvert_iter_homog_inv hsc
            exact ⟨mkContainer_ne_none, mkContainer_ne_empty⟩
          · intro v1 p1 w q1 _ _ hsc
            obtain ⟨elems, res, hio, hfl, rfl⟩ := sconvert_iter_homog_inv hsc
            obtain ⟨_, ws, hres, hmem⟩ := homogLoop_ok_facts sub elems 0 p1 [] [] res hfl
            simp only [List.nil_append] at hres
            subst hres
            exact sconvert_iter_homog_fix (fun w2 hw2 pp2 => by
              obtain ⟨x, pp, hc⟩ := hmem w2 hw2
              exact ih sub hszs hstS x w2 pp pp2 hc)

/-- C4 (counterexample to the unrestricted claim): a guarded `OneOf` of a
string-guarded `Int()` converts `'5'` to `5`, but converting the output
`5` again hits no accepting guard and raises `NoMatchingSchema` — so
`S.convert(S.convert(V))` can fail even though `S.convert(V)` succeeded. -/
theorem c4_counterexample :
    convert (.oneOf {} [(some .isStrG, intDefault)]) (.str "5") [] = .ok (.int 5) ∧
    convert (.oneOf {} [(some .isStrG, intDefault)]) (.int 5) [] =
      .invalid (mkInvalid .invalid []
        "This value doesn't match any acceptable schema." [] (some (.int 5))) := by
  constructor
  · simp +decide [intDefault, convert, commonConvert, sconvert, oneOfLoop, runGuard,
      Schema.base] <;> rfl
  · simp +decide [intDefault, convert, commonConvert, sconvert, oneOfLoop, runGuard,
      Schema.base] <;> rfl

/-- C4 (amended): conversion is idempotent on the `stable` fragment — no
`OneOf` nodes, no configured defaults, no fixed-arity `Set` mode, `String`
nodes with `blank` and no whitespace-stripping, `Email` without stripping,
and keyed mappings with pairwise-distinct declared keys.  For such a
schema, whenever `convert` succeeds with `V'`, converting `V'` again (at
any path) succeeds and returns `V'` itself. -/
theorem c4_amended (s : Schema) (hst : stable s = true) (v v' : Val) (p q : PyPath)
    (h : convert s v p = .ok v') : convert s v' q = .ok v' :=
  stable_convert_idem_master (sizeOf s) s le_rfl hst v v' p q h

/-- Witness for C4 (amended): the keyed mapping `{a: Int()}` is in the
stable fragment; it converts `{a: '5'}` to `{a: 5}`, and converting
`{a: 5}` again returns `{a: 5}` unchanged. -/
theorem c4_witness :
    stable (.dictS {} false (some (.keyed [(.str "a", .sub intDefault)]))) = true ∧
    convert (.dictS {} false (some (.keyed [(.str "a", .sub intDefault)])))
        (.dict [(.str "a", .str "5")]) [] = .ok (.dict [(.str "a", .int 5)]) ∧
    convert (.dictS {} false (some (.keyed [(.str "a", .sub intDefault)])))
        (.dict [(.str "a", .int 5)]) [] = .ok (.dict [(.str "a", .int 5)]) := by
  have hconv : convert (.dictS {} false (some (.keyed [(.str "a", .sub intDefault)])))
      (.dict [(.str "a", .str "5")]) [] = .ok (.dict [(.str "a", .int 5)]) := by
    simp +decide [intDefault, convert, commonConvert, sconvert, keyedLoop, keyedFinish,
      Schema.base] <;> rfl
  exact ⟨by decide, hconv,
    c4_amended (.dictS {} false (some (.keyed [(.str "a", .sub intDefault)])))
      (by decide) (.dict [(.str "a", .str "5")]) (.dict [(.str "a", .int 5)]) [] []
      hconv⟩
